import Mathlib

/-
Verification of the positions-book engine of the audaces-perps program.

The development shallowly embeds the code of
  src/program/src/positions_book/{page.rs, memory.rs, tree_nodes.rs, positions_book_tree.rs}
into Lean.  Machine integers (u64/u32/u8) are modelled as `Nat` with explicit
wrapping (`% 2^64`) where the Rust release profile wraps; `checked_*` panics and
`unreachable!()` are modelled as explicit `panicked` results.  The critbit tree
is embedded algebraically: the iterative walks of the Rust code (which carry
`mother`/`grandmother` pointers in order to splice siblings upward) become
structural recursions whose "return the sibling" cases render the splices.
-/

set_option maxHeartbeats 1000000

namespace Perps

/-- Modulus of `u64` arithmetic. -/
def M : Nat := 2 ^ 64

/-- Wrapping `u64` addition (Rust release-profile `+`). -/
def wadd (a b : Nat) : Nat := (a + b) % M

/-- Wrapping `u64` subtraction (Rust release-profile `-`). -/
def wsub (a b : Nat) : Nat := (a + M - b % M) % M

/-- Rust `checked_sub` followed by `.unwrap()`: `none` models the panic. -/
def csub (a b : Nat) : Option Nat := if b ≤ a then some (a - b) else none

/-- Bitwise complement `!x` within u64, for `x` a u64 value. -/
def unot (x : Nat) : Nat := M - 1 - x % M

/-- Models `(2u64 << critbit) - 1` (wrapping at `critbit = 63`).  This is the
mask of the low `critbit + 1` bits; `liquidation_index_max` of an inner node is
`liq_index_min | lowMask critbit` (tree_nodes.rs, `get_liquidation_index_min_max`). -/
def lowMask (cb : Nat) : Nat := wsub ((2 <<< cb) % M) 1

/-- Models `(1u64 << critbit) - 1`, the mask of the low `critbit` bits. -/
def mask1 (cb : Nat) : Nat := wsub ((1 <<< cb) % M) 1

/-- Fuel-bounded base-2 logarithm (structurally recursive so that terms
evaluate by reduction); with fuel `n` it computes `Nat.log2 n`. -/
def log2f : Nat → Nat → Nat
  | 0, _ => 0
  | fuel + 1, n => if 2 ≤ n then log2f fuel (n / 2) + 1 else 0

/-- Models `find_critbit`: `63 - (a ^ b).leading_zeros()`, the index of the
highest bit at which the two (distinct, u64) inputs differ; on distinct u64
inputs this equals `Nat.log2 (a ^^^ b)`.  The function is never called on equal
inputs by the code. -/
def findCritbit (a b : Nat) : Nat := log2f (a ^^^ b) (a ^^^ b)

/-- The error enumeration of error.rs (`PerpError`). -/
inductive PerpError where
  | OutOfSpace
  | MemoryError
  | PositionNotFound
  | NoMoreFunds
  | AmountTooLow
  | AmountTooLarge
  | MarginTooLow
  | Nop
  | PendingFunding
  | Overflow
  | TooManyOpenPositions
  | NegativePayout
  | ImbalancedMarket
  | NetworkSlippageTooLarge
deriving DecidableEq, Repr

/-! ## Byte-level slot arena: `Page` (page.rs) and `Memory` (memory.rs) -/

/-- memory.rs: `pub const SLOT_SIZE: usize = 47`. -/
def SLOT_SIZE : Nat := 47

/-- memory.rs: `pub const TAG_SIZE: usize = 1` (one page-global header byte). -/
def TAG_SIZE : Nat := 1

/-- The byte address of `(pointer, offset)` inside a page's data buffer:
`TAG_SIZE + pointer * SLOT_SIZE + offset` (page.rs, every accessor). -/
def memOffset (ptr off : Nat) : Nat := TAG_SIZE + ptr * SLOT_SIZE + off

/-- SlotType tag bytes (page.rs). -/
def freeSlotTag : Nat := 0

def lastFreeSlotTag : Nat := 1

def innerNodeTag : Nat := 2

def leafNodeTag : Nat := 3

/-- Outcome faults of the byte-level code: a Rust panic (out-of-bounds index,
failed `unwrap`, `unreachable!()`) or a returned `PerpError`. -/
inductive Fault where
  | panicked
  | perp (e : PerpError)
deriving DecidableEq, Repr

deriving instance DecidableEq for Except

/-- page.rs `Page`: slot count, raw data buffer, high-water mark
(`uninitialized_memory`) and free-list head. -/
structure BPage where
  pageSize : Nat
  data : List Nat
  uninitializedMemory : Nat
  freeSlotListHd : Option Nat
deriving DecidableEq, Repr

/-- Little-endian byte-list decoding (first byte least significant). -/
def leVal : List Nat → Nat
  | [] => 0
  | b :: bs => b % 256 + 256 * leVal bs

/-- u32 `to_le_bytes`. -/
def le32 (v : Nat) : List Nat := [v % 256, v / 2 ^ 8 % 256, v / 2 ^ 16 % 256, v / 2 ^ 24 % 256]

/-- u64 `to_le_bytes`. -/
def le64 (v : Nat) : List Nat :=
  [v % 256, v / 2 ^ 8 % 256, v / 2 ^ 16 % 256, v / 2 ^ 24 % 256,
   v / 2 ^ 32 % 256, v / 2 ^ 40 % 256, v / 2 ^ 48 % 256, v / 2 ^ 56 % 256]

/-- Overwrite `l` starting at index `i` with the bytes `bs`
(Rust `copy_from_slice` on `l[i..i+bs.len()]`). -/
def spliceBytes (l : List Nat) (i : Nat) (bs : List Nat) : List Nat :=
  l.take i ++ bs ++ l.drop (i + bs.length)

/-- page.rs `Page::read`: `data[mem_offset..mem_offset+length].to_vec()`.
The Rust slice indexing panics when the range exceeds the buffer; there is no
bounds check returning an error. -/
def BPage.read (p : BPage) (ptr off len : Nat) : Except Fault (List Nat) :=
  if memOffset ptr off + len ≤ p.data.length then
    .ok ((p.data.drop (memOffset ptr off)).take len)
  else .error .panicked

/-- page.rs `Page::read_byte`: direct index, panics when out of bounds. -/
def BPage.readByte (p : BPage) (ptr off : Nat) : Except Fault Nat :=
  match p.data[memOffset ptr off]? with
  | some b => .ok b
  | none => .error .panicked

/-- page.rs `Page::read_u64_le`. -/
def BPage.readU64le (p : BPage) (ptr off : Nat) : Except Fault Nat :=
  (p.read ptr off 8).map leVal

/-- page.rs `Page::read_u64_be`. -/
def BPage.readU64be (p : BPage) (ptr off : Nat) : Except Fault Nat :=
  (p.read ptr off 8).map (fun l => leVal l.reverse)

/-- page.rs `Page::read_u32_le`. -/
def BPage.readU32le (p : BPage) (ptr off : Nat) : Except Fault Nat :=
  (p.read ptr off 4).map leVal

/-- page.rs `Page::read_u16_le`. -/
def BPage.readU16le (p : BPage) (ptr off : Nat) : Except Fault Nat :=
  (p.read ptr off 2).map leVal

/-- page.rs `Page::write`: `copy_from_slice` on the target slice, panicking
when the range exceeds the buffer. -/
def BPage.write (p : BPage) (ptr off : Nat) (input : List Nat) : Except Fault BPage :=
  if memOffset ptr off + input.length ≤ p.data.length then
    .ok { p with data := spliceBytes p.data (memOffset ptr off) input }
  else .error .panicked

/-- page.rs `Page::free`: push the slot onto the free list.  When the list is
non-empty the previous head is stored at payload bytes 1..5 through a
bounds-checked `get_mut(..).ok_or(PerpError::MemoryError)`; the tag write
itself is an unchecked index. -/
def BPage.free (p : BPage) (ptr : Nat) : Except Fault BPage :=
  let off := TAG_SIZE + ptr * SLOT_SIZE
  match p.freeSlotListHd with
  | some pt =>
    if off + 5 ≤ p.data.length then
      .ok { p with data := (spliceBytes p.data (off + 1) (le32 pt)).set off freeSlotTag,
                   freeSlotListHd := some ptr }
    else .error (.perp .MemoryError)
  | none =>
    if off < p.data.length then
      .ok { p with data := p.data.set off lastFreeSlotTag, freeSlotListHd := some ptr }
    else .error .panicked

/-- page.rs `Page::allocate`.  Pops the free-list head when present (panicking
on an unknown tag, per `unreachable!()`), else bumps `uninitialized_memory`
first and only then compares it against `page_size`, returning `OutOfSpace`
with the mark already incremented.  The returned page is the state at the
point of return. -/
def BPage.allocate (p : BPage) (slotType : Nat) : BPage × Except Fault Nat :=
  match p.freeSlotListHd with
  | some pt =>
    let off := TAG_SIZE + pt * SLOT_SIZE
    match p.data[off]? with
    | none => (p, .error .panicked)
    | some tag =>
      if tag = freeSlotTag then
        if off + 5 ≤ p.data.length then
          let nhd := leVal ((p.data.drop (off + 1)).take 4)
          ({ p with freeSlotListHd := some nhd, data := p.data.set off slotType }, .ok pt)
        else (p, .error .panicked)
      else if tag = lastFreeSlotTag then
        ({ p with freeSlotListHd := none, data := p.data.set off slotType }, .ok pt)
      else (p, .error .panicked)
  | none =>
    let ptr := p.uninitializedMemory
    let off := TAG_SIZE + ptr * SLOT_SIZE
    let um := p.uninitializedMemory + 1
    if p.pageSize < um then
      ({ p with uninitializedMemory := um }, .error (.perp .OutOfSpace))
    else
      if off < p.data.length then
        ({ p with uninitializedMemory := um, data := p.data.set off slotType }, .ok ptr)
      else ({ p with uninitializedMemory := um }, .error .panicked)

/-- memory.rs `Memory`: the page list and the garbage-collection list head. -/
structure BMemory where
  pages : List BPage
  gcListHd : Option Nat
deriving DecidableEq, Repr

/-- `pointer >> 28` (the page index of a tagged 32-bit pointer). -/
def pageIdx (ptr : Nat) : Nat := ptr / 2 ^ 28

/-- `!PAGE_MASK & pointer` (the in-page slot index). -/
def slotPart (ptr : Nat) : Nat := ptr % 2 ^ 28

/-- memory.rs `GarbageNodeSchema` offsets. -/
def gcLeftPointer : Nat := 10

def gcRightPointer : Nat := 14

def gcIsLastToCollect : Nat := 18

def gcPointerToNext : Nat := 19

/-- memory.rs `Memory::read_byte` (the page lookup `pages[pointer >> 28]`
panics when the index is out of range). -/
def BMemory.readByte (m : BMemory) (ptr off : Nat) : Except Fault Nat :=
  match m.pages[pageIdx ptr]? with
  | some pg => pg.readByte (slotPart ptr) off
  | none => .error .panicked

/-- memory.rs `Memory::read_u32_le`. -/
def BMemory.readU32le (m : BMemory) (ptr off : Nat) : Except Fault Nat :=
  match m.pages[pageIdx ptr]? with
  | some pg => pg.readU32le (slotPart ptr) off
  | none => .error .panicked

/-- memory.rs `Memory::write`. -/
def BMemory.write (m : BMemory) (ptr off : Nat) (input : List Nat) : Except Fault BMemory :=
  match m.pages[pageIdx ptr]? with
  | some pg =>
    match pg.write (slotPart ptr) off input with
    | .ok pg' => .ok { m with pages := m.pages.set (pageIdx ptr) pg' }
    | .error f => .error f
  | none => .error .panicked

/-- memory.rs `Memory::free`. -/
def BMemory.free (m : BMemory) (ptr : Nat) : Except Fault BMemory :=
  match m.pages[pageIdx ptr]? with
  | some pg =>
    match pg.free (slotPart ptr) with
    | .ok pg' => .ok { m with pages := m.pages.set (pageIdx ptr) pg' }
    | .error f => .error f
  | none => .error .panicked

/-- memory.rs `Memory::flag_for_gc`: prepend the pointer to the garbage list. -/
def BMemory.flagForGc (m : BMemory) (ptr : Nat) : Except Fault BMemory := do
  match m.gcListHd with
  | some p =>
    let m1 ← m.write ptr gcPointerToNext (le32 p)
    let m2 ← m1.write ptr gcIsLastToCollect [0]
    return { m2 with gcListHd := some ptr }
  | none =>
    let m1 ← m.write ptr gcIsLastToCollect [1]
    return { m1 with gcListHd := some ptr }

/-- One unrolling of the loop body of `Memory::crank_garbage_collector`
(memory.rs): pop the head, then reclaim it according to its tag.  A `LeafNode`
is freed through `Page::free`; an `InnerNode` has its two child pointers
flagged for GC (the slot itself is not freed by the code); an unknown tag is
`unreachable!()`. -/
def BMemory.crankLoop (m : BMemory) (fuel freed : Nat) : Except Fault (Nat × BMemory) :=
  match fuel with
  | 0 => .ok (freed, m)
  | fuel' + 1 =>
    match m.gcListHd with
    | none => .ok (freed, m)
    | some pt => do
      let isLast ← m.readByte pt gcIsLastToCollect
      let m1 ←
        if isLast = 0 then do
          let nxt ← m.readU32le pt gcPointerToNext
          pure { m with gcListHd := some nxt }
        else pure { m with gcListHd := none }
      let tag ← m1.readByte pt 0
      if tag = innerNodeTag then do
        let leftPt ← m1.readU32le pt gcLeftPointer
        let rightPt ← m1.readU32le pt gcRightPointer
        let m2 ← m1.flagForGc leftPt
        let m3 ← m2.flagForGc rightPt
        m3.crankLoop fuel' (freed + 1)
      else if tag = leafNodeTag then do
        let m2 ← m1.free pt
        m2.crankLoop fuel' (freed + 1)
      else .error .panicked

/-- memory.rs `Memory::crank_garbage_collector`. -/
def BMemory.crankGarbageCollector (m : BMemory) (maxIterations : Nat) :
    Except Fault (Nat × BMemory) :=
  m.crankLoop maxIterations 0

/-! ## Algebraic model of the critbit positions tree (positions_book_tree.rs)

The tree manipulated through `Memory` is embedded as an inductive type.  Node
fields are exactly the stored u64 fields of `LeafNodeSchema` /
`InnerNodeSchema`; the `left`/`right` pointers become subtrees.  The iterative
walks of the Rust code re-start from the root carrying `mother`/`grandmother`
pointers so that `remove_node` can splice a sibling into the grandparent;
in the recursion below those splices are rendered by the `none`-propagation
cases ("this subtree was removed, the caller promotes the sibling"). -/

/-- A node of one side of `PositionsBook`. -/
inductive PNode where
  | leaf (liqIdx slotNum coll vCoin vPc : Nat)
  | inner (critbit liqMin coll vCoin vPc : Nat) (left right : PNode)
deriving DecidableEq, Repr

/-- Aggregate triple `(collateral, v_coin, v_pc)`. -/
structure Agg where
  c : Nat
  vc : Nat
  vp : Nat
deriving DecidableEq, Repr

/-- Wrapping componentwise `+` (the `+=` accumulations of liquidate). -/
def aggW (a b : Agg) : Agg := ⟨wadd a.c b.c, wadd a.vc b.vc, wadd a.vp b.vp⟩

/-- Wrapping componentwise `-` (the `-=` updates of liquidate). -/
def aggWsub (a b : Agg) : Agg := ⟨wsub a.c b.c, wsub a.vc b.vc, wsub a.vp b.vp⟩

/-- Node aggregates, `Node::get_collateral/get_v_coin/get_v_pc`. -/
def PNode.agg : PNode → Agg
  | .leaf _ _ c vc vp => ⟨c, vc, vp⟩
  | .inner _ _ c vc vp _ _ => ⟨c, vc, vp⟩

/-- `PositionsBook::open_position`, one side.  Arguments are the liquidation
index (key), current slot, and the opened `(collateral, v_coin, v_pc)`.
Returns the new tree and the slot number of the returned leaf (the existing
leaf's slot on the merge path, else `current_slot`). -/
def openPosAux (k s c vc vp : Nat) : PNode → PNode × Nat
  | .leaf lk ls lc lvc lvp =>
    if lk = k then
      (.leaf lk ls (wadd c lc) (wadd vc lvc) (wadd vp lvp), ls)
    else
      let cb := findCritbit k lk
      let nmn := lk &&& k &&& unot (mask1 cb)
      let nl : PNode := .leaf k s c vc vp
      let old : PNode := .leaf lk ls lc lvc lvp
      let lt := if k &&& (1 <<< cb) = 0 then nl else old
      let rt := if k &&& (1 <<< cb) = 0 then old else nl
      (.inner cb nmn (wadd lc c) (wadd vc lvc) (wadd vp lvp) lt rt, s)
  | .inner cb mn c0 vc0 vp0 l r =>
    if (mn ||| lowMask cb) < k ∨ k < mn then
      let ncb := findCritbit k mn
      let nmn := k &&& unot (lowMask ncb)
      let nl : PNode := .leaf k s c vc vp
      let old : PNode := .inner cb mn c0 vc0 vp0 l r
      let lt := if k &&& (1 <<< ncb) = 0 then nl else old
      let rt := if k &&& (1 <<< ncb) = 0 then old else nl
      (.inner ncb nmn (wadd c c0) (wadd vc vc0) (wadd vp vp0) lt rt, s)
    else
      if k &&& (1 <<< cb) = 0 then
        let p := openPosAux k s c vc vp l
        (.inner cb mn (wadd c0 c) (wadd vc0 vc) (wadd vp0 vp) p.1 r, p.2)
      else
        let p := openPosAux k s c vc vp r
        (.inner cb mn (wadd c0 c) (wadd vc0 vc) (wadd vp0 vp) l p.1, p.2)

/-- The read-only first walk of `close_position`: descend by the key's bits,
failing when the key leaves an inner node's `[min, max]` range or the reached
leaf's `(liquidation_index, slot)` does not match; on success return the
leaf's stored `(collateral, v_coin, v_pc)`. -/
def closeFind (k slot : Nat) : PNode → Option (Nat × Nat × Nat)
  | .inner cb mn _ _ _ l r =>
    if (mn ||| lowMask cb) < k ∨ k < mn then none
    else if k &&& (1 <<< cb) = 0 then closeFind k slot l else closeFind k slot r
  | .leaf lk ls lc lvc lvp =>
    if lk = k ∧ ls = slot then some (lc, lvc, lvp) else none

/-- The mutation walk of `close_position` (the second loop): subtract the
closed amounts from every inner node on the key's path; at the leaf, write
back the precomputed new values, or when the new collateral is 0 remove it
(`remove_node` frees the leaf and its mother and promotes the sibling, which
the recursion renders as `none` answered by `some sibling`). -/
def closeWrite (k pc pvc pvp ncol nvc nvp : Nat) : PNode → Option PNode
  | .leaf lk ls _ _ _ =>
    if ncol = 0 then none else some (.leaf lk ls ncol nvc nvp)
  | .inner cb mn c vc vp l r =>
    if k &&& (1 <<< cb) = 0 then
      match closeWrite k pc pvc pvp ncol nvc nvp l with
      | none => some r
      | some l' => some (.inner cb mn (wsub c pc) (wsub vc pvc) (wsub vp pvp) l' r)
    else
      match closeWrite k pc pvc pvp ncol nvc nvp r with
      | none => some l
      | some r' => some (.inner cb mn (wsub c pc) (wsub vc pvc) (wsub vp pvp) l r')

/-- `PositionsBook::close_position`, one side: `PositionNotFound` when the root
is `None` or the search walk fails; otherwise a pure existence probe when both
`position_collateral` and `position_v_coin` are zero, else the mutation walk. -/
def closePosAux (k pc pvc pvp slot : Nat) : Option PNode → Except PerpError (Option PNode)
  | none => .error .PositionNotFound
  | some t =>
    match closeFind k slot t with
    | none => .error .PositionNotFound
    | some (lc, lvc, lvp) =>
      if pc = 0 ∧ pvc = 0 then .ok (some t)
      else .ok (closeWrite k pc pvc pvp (wsub lc pc) (wsub lvc pvc) (wsub lvp pvp) t)

/-- The outcome of the accumulation phase of `liquidate` (the first `loop`):
it stops at the first inner node whose range excludes the threshold — on the
fully-losing side (`innerFull`, remembering that node's critbit) or the
fully-kept side (`innerKeep`) — or at a leaf (`leafEnd`).  The carried `Agg`
is `*_to_liquidate` at that point. -/
inductive Ph1Res where
  | innerFull (critbit : Nat) (acc : Agg)
  | innerKeep (acc : Agg)
  | leafEnd (acc : Agg)
deriving DecidableEq, Repr

/-- The accumulation phase of `liquidate`.  At an in-range inner node the walk
descends towards the threshold's direction bit and, when `direction ^ is_short`
holds, adds the sibling's aggregates to the accumulator (that sibling is
entirely on the losing side). -/
def ph1 (T : Nat) (isShort : Bool) : PNode → Agg → Ph1Res
  | .inner cb mn c vc vp l r, acc =>
    if (mn ||| lowMask cb) < T ∨ T < mn then
      if isShort ^^ decide (T < mn) then .innerFull cb (aggW acc ⟨c, vc, vp⟩)
      else .innerKeep acc
    else
      -- direction = (T & (1 << cb) == 0); accumulate the sibling iff direction ^ is_short
      if T &&& (1 <<< cb) = 0 then
        ph1 T isShort l (if isShort then acc else aggW acc r.agg)
      else
        ph1 T isShort r (if isShort then aggW acc l.agg else acc)
  | .leaf lk _ lc lvc lvp, acc =>
    if (decide (T < lk) ^^ isShort) || decide (T = lk) then .leafEnd (aggW acc ⟨lc, lvc, lvp⟩)
    else .leafEnd acc

/-- The excision walk of `liquidate` for the `innerFull` outcome: re-walk from
the root by the threshold's direction bits, subtracting the accumulator from
each kept node, excising each sibling on the losing side (the node itself is
then freed and the walk continues in its place), until the node with the
remembered critbit is reached and removed whole (`remove_node`).  Outer `none`
is the `unreachable!()` panic on reaching a leaf; `some none` means the current
subtree was removed (the caller promotes the sibling). -/
def cw (T : Nat) (isShort : Bool) (lcb : Nat) : PNode → Agg → Option (Option PNode)
  | .leaf _ _ _ _ _, _ => none
  | .inner cb mn c vc vp l r, acc =>
    if cb = lcb then some none
    else
      if T &&& (1 <<< cb) = 0 then
        if isShort then
          match cw T isShort lcb l acc with
          | none => none
          | some none => some (some r)
          | some (some l') =>
            some (some (.inner cb mn (wsub c acc.c) (wsub vc acc.vc) (wsub vp acc.vp) l' r))
        else
          cw T isShort lcb l (aggWsub acc r.agg)
      else
        if isShort then
          cw T isShort lcb r (aggWsub acc l.agg)
        else
          match cw T isShort lcb r acc with
          | none => none
          | some none => some (some l)
          | some (some r') =>
            some (some (.inner cb mn (wsub c acc.c) (wsub vc acc.vc) (wsub vp acc.vp) l r'))

/-- The excision walk of `liquidate` for the `leafEnd` outcome: identical
splice mechanics, terminating at the leaf on the threshold's path, which is
removed when the remaining accumulated collateral is non-zero. `none` means
the subtree was removed. -/
def lw (T : Nat) (isShort : Bool) : PNode → Agg → Option PNode
  | .leaf lk ls lc lvc lvp, acc =>
    if acc.c ≠ 0 then none else some (.leaf lk ls lc lvc lvp)
  | .inner cb mn c vc vp l r, acc =>
    if T &&& (1 <<< cb) = 0 then
      if isShort then
        match lw T isShort l acc with
        | none => some r
        | some l' => some (.inner cb mn (wsub c acc.c) (wsub vc acc.vc) (wsub vp acc.vp) l' r)
      else
        lw T isShort l (aggWsub acc r.agg)
    else
      if isShort then
        lw T isShort r (aggWsub acc l.agg)
      else
        match lw T isShort r acc with
        | none => some l
        | some r' => some (.inner cb mn (wsub c acc.c) (wsub vc acc.vc) (wsub vp acc.vp) l r')

/-- The walk of `liquidate` for the `innerKeep` outcome (the
`while collateral_to_liquidate != 0` loop): subtract the accumulator via
`checked_sub(..).unwrap()` (modelled by `csub`, `none` = panic), excise losing
siblings, and stop as soon as the remaining accumulated collateral is zero.
Reaching a leaf with a non-zero accumulator is `unreachable!()` (`none`). -/
def bw (T : Nat) (isShort : Bool) : PNode → Agg → Option PNode
  | .leaf lk ls lc lvc lvp, acc =>
    if acc.c = 0 then some (.leaf lk ls lc lvc lvp) else none
  | .inner cb mn c vc vp l r, acc =>
    if acc.c = 0 then some (.inner cb mn c vc vp l r)
    else
      match csub c acc.c, csub vc acc.vc, csub vp acc.vp with
      | some c', some vc', some vp' =>
        if T &&& (1 <<< cb) = 0 then
          if isShort then
            match bw T isShort l acc with
            | none => none
            | some l' => some (.inner cb mn c' vc' vp' l' r)
          else
            bw T isShort l (aggWsub acc r.agg)
        else
          if isShort then
            bw T isShort r (aggWsub acc l.agg)
          else
            match bw T isShort r acc with
            | none => none
            | some r' => some (.inner cb mn c' vc' vp' l r')
      | _, _, _ => none

/-- `PositionsBook::liquidate`, one side.  `none` models a panic
(`unreachable!()` or a failed `checked_sub`); `some r` is the new root. -/
def liquidateAux (T : Nat) (isShort : Bool) : Option PNode → Option (Option PNode)
  | none => some none
  | some t =>
    match ph1 T isShort t ⟨0, 0, 0⟩ with
    | .innerFull lcb acc => cw T isShort lcb t acc
    | .innerKeep acc => (bw T isShort t acc).map some
    | .leafEnd acc =>
      if acc.c = 0 then some (some t)
      else some (lw T isShort t acc)

/-- state.rs `PositionType`. -/
inductive PositionType where
  | Long
  | Short
deriving DecidableEq, Repr

/-- `PositionsBook` (the two roots; the shared `Memory` is implicit in the
algebraic embedding). -/
structure Book where
  shortsRoot : Option PNode
  longsRoot : Option PNode
deriving DecidableEq, Repr

/-- The root of the addressed side. -/
def Book.sideRoot (b : Book) : PositionType → Option PNode
  | .Short => b.shortsRoot
  | .Long => b.longsRoot

/-- `PositionsBook::set_root`. -/
def Book.setRoot (b : Book) (r : Option PNode) : PositionType → Book
  | .Short => { b with shortsRoot := r }
  | .Long => { b with longsRoot := r }

/-- The `is_short` flag computed at the head of `liquidate`. -/
def isShortSide : PositionType → Bool
  | .Short => true
  | .Long => false

/-- `PositionsBook::open_position` at book level: returns the updated book and
the slot number of the returned leaf. -/
def openPosition (k c vc vp : Nat) (side : PositionType) (curSlot : Nat) (b : Book) :
    Book × Nat :=
  match b.sideRoot side with
  | none => (b.setRoot (some (.leaf k curSlot c vc vp)) side, curSlot)
  | some t =>
    let p := openPosAux k curSlot c vc vp t
    (b.setRoot (some p.1) side, p.2)

/-- `PositionsBook::close_position` at book level.  The pair mirrors the
in-place mutation: on an error the book is returned unchanged (the failing
search walk performs no writes). -/
def closePosition (k pc pvc pvp : Nat) (side : PositionType) (slot : Nat) (b : Book) :
    Book × Option PerpError :=
  match closePosAux k pc pvc pvp slot (b.sideRoot side) with
  | .error e => (b, some e)
  | .ok r => (b.setRoot r side, none)

/-- `PositionsBook::liquidate` at book level (`none` = panic). -/
def liquidateBook (T : Nat) (side : PositionType) (b : Book) : Option Book :=
  (liquidateAux T (isShortSide side) (b.sideRoot side)).map fun r => b.setRoot r side

/-- tree_nodes.rs `InnerNodeSchema` payload offsets. -/
def innerCritbitOff : Nat := 1

def innerLiqMinOff : Nat := 2

def innerLeftOff : Nat := 10

def innerRightOff : Nat := 14

def innerCollOff : Nat := 22

def innerVCoinOff : Nat := 30

def innerVPcOff : Nat := 38

def innerCalcFlagOff : Nat := 46

/-- tree_nodes.rs `LeafNodeSchema` payload offsets. -/
def leafLiqIdxOff : Nat := 1

def leafSlotNumOff : Nat := 9

def leafCollOff : Nat := 17

def leafVCoinOff : Nat := 25

def leafVPcOff : Nat := 33

/-- A page with no data at all (slot count 0, empty buffer). -/
def pageZero : BPage := ⟨0, [], 0, none⟩

/-- A one-slot page whose high-water mark already equals its slot count
(satisfying the invariant `high_water_mark ≤ slot_count`) with an empty free
list: the next `allocate` must fail with `OutOfSpace`. -/
def pageOne : BPage := ⟨1, List.replicate 48 0, 1, none⟩

/-- A fresh 4-slot page (`1 + 4*47 = 189` bytes) for round-trip checks. -/
def pageRt : BPage := ⟨4, List.replicate 189 0, 0, none⟩

/-- A 3-slot page whose slot 0 is a retired `InnerNode` with children at slots
1 and 2 (both `LeafNode`s), already flagged for GC as the only garbage-list
entry (`IsLastToCollect` byte set). -/
def gcBugData : List Nat :=
  ((((((List.replicate 142 0).set 1 innerNodeTag).set 11 1).set 15 2).set 19 1).set
    48 leafNodeTag).set 95 leafNodeTag

def gcBugPage : BPage := ⟨3, gcBugData, 3, none⟩

def gcBugMem : BMemory := ⟨[gcBugPage], some 0⟩

/-- A 1-slot page whose slot 0 is a retired `LeafNode`, flagged for GC. -/
def gcLeafData : List Nat := ((List.replicate 48 0).set 1 leafNodeTag).set 19 1

def gcLeafMem : BMemory := ⟨[⟨1, gcLeafData, 1, none⟩], some 0⟩

/-! ## Keys, sums and well-formedness of the critbit tree -/

/-- The keys of the leaves, in order. -/
def keysOf : PNode → List Nat
  | .leaf k _ _ _ _ => [k]
  | .inner _ _ _ _ _ l r => keysOf l ++ keysOf r

/-- The leaves, in order: `(liqIdx, slotNum, coll, vCoin, vPc)`. -/
def leavesOf : PNode → List (Nat × Nat × Nat × Nat × Nat)
  | .leaf k s c vc vp => [(k, s, c, vc, vp)]
  | .inner _ _ _ _ _ l r => leavesOf l ++ leavesOf r

/-- Exact componentwise sum of aggregates. -/
def aggE (a b : Agg) : Agg := ⟨a.c + b.c, a.vc + b.vc, a.vp + b.vp⟩

def agg0 : Agg := ⟨0, 0, 0⟩

/-- Exact sum of the aggregates of the leaves whose key satisfies `f`. -/
def sBy (f : Nat → Bool) : PNode → Agg
  | .leaf k _ c vc vp => if f k then ⟨c, vc, vp⟩ else agg0
  | .inner _ _ _ _ _ l r => aggE (sBy f l) (sBy f r)

/-- Exact sum of the aggregates of all leaves. -/
def sTot : PNode → Agg := sBy fun _ => true

/-- Structural well-formedness of the tree: every inner node's stored
`liq_index_min` has its low `critbit+1` bits zero, every key below agrees with
it above the critbit, and the two children are separated by the critbit. -/
def WF : PNode → Prop
  | .leaf k _ _ _ _ => k < M
  | .inner cb mn _ _ _ l r =>
      cb < 64 ∧ mn < M ∧ mn % 2 ^ (cb + 1) = 0 ∧
      (∀ j ∈ keysOf l, j / 2 ^ (cb + 1) = mn / 2 ^ (cb + 1) ∧ j / 2 ^ cb % 2 = 0) ∧
      (∀ j ∈ keysOf r, j / 2 ^ (cb + 1) = mn / 2 ^ (cb + 1) ∧ j / 2 ^ cb % 2 = 1) ∧
      WF l ∧ WF r

/-- The aggregate-sum invariant: every inner node stores the exact sums of its
leaves; leaf fields are u64 values. -/
def AggEx : PNode → Prop
  | .leaf _ _ c vc vp => c < M ∧ vc < M ∧ vp < M
  | .inner _ _ c vc vp l r =>
      c = (sTot l).c + (sTot r).c ∧ vc = (sTot l).vc + (sTot r).vc ∧
      vp = (sTot l).vp + (sTot r).vp ∧ AggEx l ∧ AggEx r

/-- Every leaf holds non-zero collateral. -/
def PosColl : PNode → Prop
  | .leaf _ _ c _ _ => 1 ≤ c
  | .inner _ _ _ _ _ l r => PosColl l ∧ PosColl r

/-- The side invariant used throughout: structure, exact aggregates, positive
leaf collateral, and no overflow of the side totals. -/
def Inv (t : PNode) : Prop :=
  WF t ∧ AggEx t ∧ PosColl t ∧ (sTot t).c < M ∧ (sTot t).vc < M ∧ (sTot t).vp < M

/-- The key is on the losing side of threshold `T` (the leaf test of
`liquidate`): shorts lose at `k ≤ T`, longs at `k ≥ T`. -/
def losesAt (T : Nat) (isShort : Bool) (k : Nat) : Bool :=
  (decide (T < k) ^^ isShort) || decide (T = k)

def keepAt (T : Nat) (isShort : Bool) (k : Nat) : Bool := ! losesAt T isShort k

def sLose (T : Nat) (isShort : Bool) : PNode → Agg := sBy (losesAt T isShort)

def sKeep (T : Nat) (isShort : Bool) : PNode → Agg := sBy (keepAt T isShort)

/-- The liquidation result, specified directly: drop every losing leaf, splice
a single surviving child upward, and store keep-side sums in kept inner
nodes. -/
def pruneF (T : Nat) (isShort : Bool) : PNode → Option PNode
  | .leaf lk ls c vc vp => if losesAt T isShort lk then none else some (.leaf lk ls c vc vp)
  | .inner cb mn _ _ _ l r =>
    match pruneF T isShort l, pruneF T isShort r with
    | none, none => none
    | some l', none => some l'
    | none, some r' => some r'
    | some l', some r' =>
      some (.inner cb mn ((sKeep T isShort l).c + (sKeep T isShort r).c)
        ((sKeep T isShort l).vc + (sKeep T isShort r).vc)
        ((sKeep T isShort l).vp + (sKeep T isShort r).vp) l' r')

/-- The aggregates published for a root: the root node's stored aggregates, or
zero for an empty side (`get_collateral` and friends use `unwrap_or(Ok(0))`). -/
def rootAgg : Option PNode → Agg
  | none => agg0
  | some t => t.agg

/-- Every stored field of every node is a u64 value (automatic in the Rust
types, explicit in the `Nat` embedding). -/
def ValsLt : PNode → Prop
  | .leaf _ _ c vc vp => c < M ∧ vc < M ∧ vp < M
  | .inner _ _ c vc vp l r => c < M ∧ vc < M ∧ vp < M ∧ ValsLt l ∧ ValsLt r

/-- C6's description of the failing search walk, following the spec's words:
at an in-range inner node the walk descends by the key's bit at the node's
critbit; it fails when it reaches an inner node whose
`[liquidation_index_min, liquidation_index_max]` range does not contain the
key (`liquidation_index_max = min ||| ((2 <<< critbit) - 1)`), or when the
reached leaf's `(liquidation_index, slot_number)` pair differs. -/
def WalkFails (k slot : Nat) : PNode → Prop
  | .leaf lk ls _ _ _ => ¬ (lk = k ∧ ls = slot)
  | .inner cb mn _ _ _ l r =>
      k < mn ∨ (mn ||| lowMask cb) < k ∨
      (k &&& (1 <<< cb) = 0 ∧ WalkFails k slot l) ∨
      (¬ k &&& (1 <<< cb) = 0 ∧ WalkFails k slot r)

/-- Componentwise sum of the leaves whose key satisfies `f`, on one side of a
book (zero for an empty side). -/
def sideByAgg (f : Nat → Bool) (b : Book) (side : PositionType) : Agg :=
  match b.sideRoot side with
  | none => agg0
  | some t => sBy f t

/-- One recorded `open_position` call. -/
structure OpenCall where
  k : Nat
  s : Nat
  c : Nat
  vc : Nat
  vp : Nat
deriving DecidableEq, Repr

/-- Fold a list of `open_position` calls over an empty book. -/
def foldOpens (calls : List OpenCall) (side : PositionType) : Book :=
  calls.foldl (fun b q => (openPosition q.k q.c q.vc q.vp side q.s b).1) ⟨none, none⟩

/-- Componentwise sum of the amounts of the calls whose key satisfies `f`. -/
def callsAgg (f : Nat → Bool) : List OpenCall → Agg
  | [] => agg0
  | q :: rest => aggE (if f q.k then ⟨q.c, q.vc, q.vp⟩ else agg0) (callsAgg f rest)

def sideTotAgg (b : Book) (side : PositionType) : Agg :=
  match b.sideRoot side with
  | none => agg0
  | some t => sTot t

/-- Proviso on a `close_position` call (the amended C1): either it is the pure
existence probe, or it subtracts componentwise at most what the addressed leaf
holds, subtracting the leaf's exact `v_coin` and `v_pc` whenever it zeroes its
collateral. -/
def CloseCond (b : Book) (side : PositionType) (k slot pc pvc pvp : Nat) : Prop :=
  (pc = 0 ∧ pvc = 0) ∨
  (∀ t lc lvc lvp, b.sideRoot side = some t → closeFind k slot t = some (lc, lvc, lvp) →
    pc ≤ lc ∧ pvc ≤ lvc ∧ pvp ≤ lvp ∧ (pc = lc → pvc = lvc ∧ pvp = lvp))

/-- Book states reachable from the empty book by successful calls, with the
call restrictions of the amended C1: every open carries at least one unit of
collateral and no side total ever overflows u64; every close satisfies
`CloseCond`. -/
inductive ReachA : Book → Prop where
  | empty : ReachA ⟨none, none⟩
  | openStep {b : Book} {k c vc vp s : Nat} {side : PositionType} :
      ReachA b → k < M → 1 ≤ c →
      (sideTotAgg b side).c + c < M → (sideTotAgg b side).vc + vc < M →
      (sideTotAgg b side).vp + vp < M →
      ReachA (openPosition k c vc vp side s b).1
  | closeStep {b : Book} {k pc pvc pvp slot : Nat} {side : PositionType} :
      ReachA b → CloseCond b side k slot pc pvc pvp →
      (closePosition k pc pvc pvp side slot b).2 = none →
      ReachA (closePosition k pc pvc pvp side slot b).1
  | liqStep {b b' : Book} {T : Nat} {side : PositionType} :
      ReachA b → liquidateBook T side b = some b' → ReachA b'

/-- The aggregate-sum invariant on a root. -/
def AggExSide : Option PNode → Prop
  | none => True
  | some t => AggEx t

/-- The claim C1 conclusion: every inner node reachable from either root
stores the exact sums over the leaves of its subtree. -/
def BookAggEx (b : Book) : Prop := AggExSide b.shortsRoot ∧ AggExSide b.longsRoot

/-- The working side invariant on a root. -/
def InvSide : Option PNode → Prop
  | none => True
  | some t => Inv t

def BookInv (b : Book) : Prop := InvSide b.shortsRoot ∧ InvSide b.longsRoot

instance instDecAggEx : (t : PNode) → Decidable (AggEx t)
  | .leaf k s c vc vp => by unfold AggEx; infer_instance
  | .inner cb mn c vc vp l r => by
    unfold AggEx
    have hl := instDecAggEx l
    have hr := instDecAggEx r
    infer_instance

instance instDecAggExSide : (r : Option PNode) → Decidable (AggExSide r)
  | none => by unfold AggExSide; infer_instance
  | some t => by unfold AggExSide; infer_instance

instance instDecBookAggEx (b : Book) : Decidable (BookAggEx b) := by
  unfold BookAggEx; infer_instance

/-! ## Arithmetic and bit-manipulation facts -/

theorem M_pos : 0 < M := by norm_num [M]

theorem wadd_lt (a b : Nat) : wadd a b < M := Nat.mod_lt _ M_pos

theorem wsub_lt (a b : Nat) : wsub a b < M := Nat.mod_lt _ M_pos

theorem wadd_eq {a b : Nat} (h : a + b < M) : wadd a b = a + b := Nat.mod_eq_of_lt h

theorem wadd_comm (a b : Nat) : wadd a b = wadd b a := by unfold wadd; rw [Nat.add_comm]

theorem wsub_eq {a b : Nat} (hb : b ≤ a) (ha : a < M) : wsub a b = a - b := by
  unfold wsub M at *; omega

theorem wsub_wadd {x : Nat} (a : Nat) (hx : x < M) : wsub (wadd x a) a = x := by
  unfold wsub wadd M at *; omega

theorem csub_of_le {a b : Nat} (h : b ≤ a) : csub a b = some (a - b) := by
  simp [csub, h]

theorem lowMask_eq {cb : Nat} (h : cb < 64) : lowMask cb = 2 ^ (cb + 1) - 1 := by
  unfold lowMask wsub M
  rw [Nat.shiftLeft_eq]
  have key : 2 * 2 ^ cb = 2 ^ (cb + 1) := by rw [pow_succ]; ring
  rcases Nat.lt_or_ge cb 63 with h1 | h1
  · have h2 : (2:Nat) ^ (cb + 1) < 2 ^ 64 := Nat.pow_lt_pow_right (by norm_num) (by omega)
    have h3 : 0 < (2:Nat) ^ (cb + 1) := Nat.two_pow_pos _
    rw [key]; omega
  · have : cb = 63 := by omega
    subst this; norm_num

theorem mask1_eq {cb : Nat} (h : cb < 64) : mask1 cb = 2 ^ cb - 1 := by
  unfold mask1 wsub M
  rw [Nat.shiftLeft_eq, one_mul]
  have h1 : (2:Nat) ^ cb < 2 ^ 64 := Nat.pow_lt_pow_right (by norm_num) h
  have h2 : 0 < (2:Nat) ^ cb := Nat.two_pow_pos cb
  omega

theorem unot_eq {x : Nat} (hx : x < M) : unot x = M - 1 - x := by
  unfold unot M at *; omega

theorem unot_lowMask {cb : Nat} (h : cb < 64) : unot (lowMask cb) = M - 2 ^ (cb + 1) := by
  rw [lowMask_eq h]
  have h1 : (2:Nat) ^ (cb + 1) ≤ 2 ^ 64 := Nat.pow_le_pow_right (by norm_num) (by omega)
  have h2 : 0 < (2:Nat) ^ (cb + 1) := Nat.two_pow_pos _
  unfold unot M at *; omega

theorem unot_mask1 {cb : Nat} (h : cb < 64) : unot (mask1 cb) = M - 2 ^ cb := by
  rw [mask1_eq h]
  have h1 : (2:Nat) ^ cb ≤ 2 ^ 64 := Nat.pow_le_pow_right (by norm_num) (by omega)
  have h2 : 0 < (2:Nat) ^ cb := Nat.two_pow_pos _
  unfold unot M at *; omega

/-- The direction test `liquidation_index & (1u64 << critbit) == 0` tests the
`critbit`-th bit of the key. -/
theorem and_one_shift (k cb : Nat) : (k &&& (1 <<< cb) = 0) ↔ k / 2 ^ cb % 2 = 0 := by
  rw [Nat.shiftLeft_eq, one_mul, Nat.and_two_pow, Nat.testBit_to_div_mod]
  have h2 : 0 < (2:Nat) ^ cb := Nat.two_pow_pos cb
  rcases Nat.mod_two_eq_zero_or_one (k / 2 ^ cb) with h3 | h3 <;> simp [h3] <;> omega

theorem div_pow_succ (x n : Nat) : x / 2 ^ n / 2 = x / 2 ^ (n + 1) := by
  rw [Nat.div_div_eq_div_mul, pow_succ]

theorem div_pow_div (x a b : Nat) : x / 2 ^ a / 2 ^ b = x / 2 ^ (a + b) := by
  rw [Nat.div_div_eq_div_mul, pow_add]

/-- Clearing the low `j` bits with `x & !((2^j) - 1)` rounds down to a
multiple of `2^j`. -/
theorem and_unot_pow {x : Nat} (hx : x < M) {j : Nat} (hj : j ≤ 64) :
    x &&& (M - 2 ^ j) = x / 2 ^ j * 2 ^ j := by
  have hMj : M - 2 ^ j = 2 ^ j * (2 ^ (64 - j) - 1) := by
    rw [Nat.mul_sub, mul_one, ← pow_add]
    have : j + (64 - j) = 64 := by omega
    rw [this]; rfl
  apply Nat.eq_of_testBit_eq
  intro i
  rw [Nat.testBit_and, hMj, Nat.testBit_mul_pow_two, mul_comm, Nat.testBit_mul_pow_two,
    ← Nat.shiftRight_eq_div_pow, Nat.testBit_shiftRight, Nat.testBit_two_pow_sub_one]
  by_cases hij : j ≤ i
  · have hji : j + (i - j) = i := by omega
    rw [hji]
    by_cases hi64 : i < 64
    · simp [hij, hi64, Nat.lt_sub_of_add_lt, show i - j < 64 - j by omega]
    · have hxi : x.testBit i = false := by
        apply Nat.testBit_lt_two_pow
        calc x < M := hx
        _ = 2 ^ 64 := rfl
        _ ≤ 2 ^ i := Nat.pow_le_pow_right (by norm_num) (by omega)
      simp [hxi]
  · simp [hij, show ¬ (i ≥ j) by omega]

/-- With the low `j` bits of `mn` zero, `mn | (2^j - 1)` is plain addition. -/
theorem lor_low {mn j : Nat} (hmn : mn % 2 ^ j = 0) :
    mn ||| (2 ^ j - 1) = mn + (2 ^ j - 1) := by
  have hd : 2 ^ j * (mn / 2 ^ j) + mn % 2 ^ j = mn := Nat.div_add_mod mn (2 ^ j)
  rw [hmn, add_zero] at hd
  apply Nat.eq_of_testBit_eq
  intro i
  rw [Nat.testBit_or]
  conv_lhs => rw [← hd]
  conv_rhs => rw [← hd]
  rw [Nat.testBit_mul_pow_two_add _ (Nat.sub_lt (Nat.two_pow_pos j) one_pos),
    Nat.testBit_mul_pow_two, Nat.testBit_two_pow_sub_one]
  by_cases hij : i < j
  · simp [hij, show ¬ (i ≥ j) by omega]
  · simp [hij, show i ≥ j by omega]

theorem and_div_pow (a b n : Nat) : (a &&& b) / 2 ^ n = a / 2 ^ n &&& b / 2 ^ n := by
  apply Nat.eq_of_testBit_eq
  intro i
  rw [← Nat.shiftRight_eq_div_pow, ← Nat.shiftRight_eq_div_pow, ← Nat.shiftRight_eq_div_pow,
    Nat.testBit_shiftRight, Nat.testBit_and, Nat.testBit_and, Nat.testBit_shiftRight,
    Nat.testBit_shiftRight]

/-- Bits at and above `n` agree when the xor is below `2^n`. -/
theorem xor_div_eq {a b n : Nat} (h : a ^^^ b < 2 ^ n) : a / 2 ^ n = b / 2 ^ n := by
  have hsh : a >>> n = b >>> n := by
    apply Nat.eq_of_testBit_eq
    intro i
    rw [Nat.testBit_shiftRight, Nat.testBit_shiftRight]
    have hlt : a ^^^ b < 2 ^ (n + i) :=
      lt_of_lt_of_le h (Nat.pow_le_pow_right (by norm_num) (Nat.le_add_right n i))
    have hx : (a ^^^ b).testBit (n + i) = false := Nat.testBit_lt_two_pow hlt
    rw [Nat.testBit_xor] at hx
    revert hx
    cases a.testBit (n + i) <;> cases b.testBit (n + i) <;> simp
  rwa [Nat.shiftRight_eq_div_pow, Nat.shiftRight_eq_div_pow] at hsh

theorem log2f_eq_log2 : ∀ fuel n, n < 2 ^ fuel → log2f fuel n = Nat.log2 n := by
  intro fuel
  induction fuel with
  | zero =>
    intro n hn
    have : n = 0 := by simpa using hn
    subst this
    rw [Nat.log2]
    simp [log2f]
  | succ fuel ih =>
    intro n hn
    by_cases h2 : 2 ≤ n
    · have hdiv : n / 2 < 2 ^ fuel := by
        have : (2:Nat) ^ (fuel + 1) = 2 * 2 ^ fuel := by rw [pow_succ]; ring
        omega
      conv_rhs => rw [Nat.log2]
      simp only [log2f, if_pos h2, ih (n / 2) hdiv]
    · conv_rhs => rw [Nat.log2]
      simp only [log2f, if_neg h2]

theorem findCritbit_eq (a b : Nat) : findCritbit a b = Nat.log2 (a ^^^ b) :=
  log2f_eq_log2 (a ^^^ b) (a ^^^ b) (Nat.lt_two_pow _)

theorem findCritbit_lt {a b : Nat} (ha : a < M) (hb : b < M) : findCritbit a b < 64 := by
  rw [findCritbit_eq]
  by_cases h0 : a ^^^ b = 0
  · rw [h0]; norm_num [Nat.log2]
  · rw [Nat.log2_lt h0]
    exact Nat.xor_lt_two_pow ha hb

/-- Above the found critbit the two keys agree; at the critbit they differ. -/
theorem findCritbit_spec {a b : Nat} (hne : a ≠ b) :
    a / 2 ^ (findCritbit a b + 1) = b / 2 ^ (findCritbit a b + 1) ∧
    a / 2 ^ findCritbit a b % 2 ≠ b / 2 ^ findCritbit a b % 2 := by
  rw [findCritbit_eq]
  have hx0 : a ^^^ b ≠ 0 := fun h => hne (Nat.xor_eq_zero.mp h)
  refine ⟨xor_div_eq Nat.lt_log2_self, ?_⟩
  have hle : 2 ^ (a ^^^ b).log2 ≤ a ^^^ b := Nat.log2_self_le hx0
  have hlt : a ^^^ b < 2 ^ ((a ^^^ b).log2 + 1) := Nat.lt_log2_self
  have hdiv : (a ^^^ b) / 2 ^ (a ^^^ b).log2 = 1 := by
    have h1 : 1 ≤ (a ^^^ b) / 2 ^ (a ^^^ b).log2 :=
      (Nat.le_div_iff_mul_le (Nat.two_pow_pos _)).mpr (by omega)
    have h2 : (a ^^^ b) / 2 ^ (a ^^^ b).log2 < 2 := by
      rw [Nat.div_lt_iff_lt_mul (Nat.two_pow_pos _)]
      calc a ^^^ b < 2 ^ ((a ^^^ b).log2 + 1) := hlt
      _ = 2 * 2 ^ (a ^^^ b).log2 := by rw [pow_succ]; ring
    omega
  have hbit : (a ^^^ b).testBit (a ^^^ b).log2 = true := by
    rw [Nat.testBit_to_div_mod, hdiv]
    norm_num
  rw [Nat.testBit_xor] at hbit
  intro heq
  have ha' := Nat.testBit_to_div_mod (i := (a ^^^ b).log2) (x := a)
  have hb' := Nat.testBit_to_div_mod (i := (a ^^^ b).log2) (x := b)
  rw [heq] at ha'
  rw [ha', hb'] at hbit
  simp at hbit

/-- With `mn`'s low `cb+1` bits zero, membership of `k` in
`[mn, mn | lowMask cb]` is agreement of the bits above `cb`. -/
theorem range_iff {mn cb k : Nat} (hcb : cb < 64) (hmn : mn % 2 ^ (cb + 1) = 0) :
    (mn ≤ k ∧ k ≤ mn ||| lowMask cb) ↔ k / 2 ^ (cb + 1) = mn / 2 ^ (cb + 1) := by
  rw [lowMask_eq hcb, lor_low hmn]
  have hq : 0 < 2 ^ (cb + 1) := Nat.two_pow_pos _
  have hd : 2 ^ (cb + 1) * (mn / 2 ^ (cb + 1)) + mn % 2 ^ (cb + 1) = mn :=
    Nat.div_add_mod mn (2 ^ (cb + 1))
  constructor
  · rintro ⟨h1, h2⟩
    have hlo : mn / 2 ^ (cb + 1) ≤ k / 2 ^ (cb + 1) := Nat.div_le_div_right h1
    have hhi : k / 2 ^ (cb + 1) ≤ (mn + (2 ^ (cb + 1) - 1)) / 2 ^ (cb + 1) :=
      Nat.div_le_div_right h2
    have he : (mn + (2 ^ (cb + 1) - 1)) / 2 ^ (cb + 1) = mn / 2 ^ (cb + 1) := by
      have hrw : mn + (2 ^ (cb + 1) - 1) = 2 ^ (cb + 1) * (mn / 2 ^ (cb + 1)) + (2 ^ (cb + 1) - 1) := by
        omega
      rw [hrw, Nat.mul_add_div hq,
        Nat.div_eq_of_lt (show 2 ^ (cb + 1) - 1 < 2 ^ (cb + 1) by omega), add_zero]
    omega
  · intro h
    have hj : 2 ^ (cb + 1) * (k / 2 ^ (cb + 1)) + k % 2 ^ (cb + 1) = k :=
      Nat.div_add_mod k (2 ^ (cb + 1))
    have hjm : k % 2 ^ (cb + 1) < 2 ^ (cb + 1) := Nat.mod_lt _ hq
    rw [h] at hj
    omega

/-- Prefix agreement above `cb` bounds the key inside the node's range. -/
theorem prefix_bounds {mn cb j : Nat} (hmn : mn % 2 ^ (cb + 1) = 0)
    (h : j / 2 ^ (cb + 1) = mn / 2 ^ (cb + 1)) :
    mn ≤ j ∧ j ≤ mn + (2 ^ (cb + 1) - 1) := by
  have hq : 0 < 2 ^ (cb + 1) := Nat.two_pow_pos _
  have hd : 2 ^ (cb + 1) * (mn / 2 ^ (cb + 1)) + mn % 2 ^ (cb + 1) = mn :=
    Nat.div_add_mod mn (2 ^ (cb + 1))
  have hj : 2 ^ (cb + 1) * (j / 2 ^ (cb + 1)) + j % 2 ^ (cb + 1) = j :=
    Nat.div_add_mod j (2 ^ (cb + 1))
  have hjm : j % 2 ^ (cb + 1) < 2 ^ (cb + 1) := Nat.mod_lt _ hq
  rw [h] at hj
  omega

/-- A key with bit `cb` clear is below any key of the same prefix with bit
`cb` set. -/
theorem key_lt_of_bit {cb j t : Nat}
    (hj : j / 2 ^ (cb + 1) = t / 2 ^ (cb + 1))
    (hbj : j / 2 ^ cb % 2 = 0) (hbt : t / 2 ^ cb % 2 = 1) : j < t := by
  have h1 : j / 2 ^ cb / 2 = j / 2 ^ (cb + 1) := div_pow_succ j cb
  have h2 : t / 2 ^ cb / 2 = t / 2 ^ (cb + 1) := div_pow_succ t cb
  have key : j / 2 ^ cb < t / 2 ^ cb := by omega
  by_contra hle
  push_neg at hle
  exact absurd (Nat.div_le_div_right (c := 2 ^ cb) hle) (by omega)

theorem sTot_leaf (k s c vc vp : Nat) : sTot (.leaf k s c vc vp) = ⟨c, vc, vp⟩ := rfl

theorem sTot_inner (cb mn c vc vp : Nat) (l r : PNode) :
    sTot (.inner cb mn c vc vp l r) = aggE (sTot l) (sTot r) := rfl

theorem keys_ne_nil (t : PNode) : keysOf t ≠ [] := by
  induction t with
  | leaf k s c vc vp => simp [keysOf]
  | inner cb mn c vc vp l r ihl ihr => simp [keysOf, ihl]

theorem keys_lt_M {t : PNode} (h : WF t) : ∀ j ∈ keysOf t, j < M := by
  induction t with
  | leaf k s c vc vp => intro j hj; simp [keysOf] at hj; subst hj; exact h
  | inner cb mn c vc vp l r ihl ihr =>
    intro j hj
    obtain ⟨_, _, _, _, _, hwl, hwr⟩ := h
    simp only [keysOf, List.mem_append] at hj
    rcases hj with hj | hj
    · exact ihl hwl j hj
    · exact ihr hwr j hj

/-- Keys in the two children of a well-formed inner node are distinct, hence
keys are nowhere duplicated. -/
theorem WF_nodup {t : PNode} (h : WF t) : (keysOf t).Nodup := by
  induction t with
  | leaf k s c vc vp => simp [keysOf]
  | inner cb mn c vc vp l r ihl ihr =>
    obtain ⟨_, _, _, hl, hr, hwl, hwr⟩ := h
    simp only [keysOf]
    refine List.Nodup.append (ihl hwl) (ihr hwr) ?_
    intro j hjl hjr
    have h1 := (hl j hjl).2
    have h2 := (hr j hjr).2
    omega

theorem sBy_c_le (f : Nat → Bool) (t : PNode) : (sBy f t).c ≤ (sTot t).c := by
  induction t with
  | leaf k s c vc vp =>
    by_cases hf : f k <;> simp [sBy, sTot, hf, agg0]
  | inner cb mn c vc vp l r ihl ihr =>
    simp only [sBy, sTot, aggE] at *
    omega

theorem sBy_vc_le (f : Nat → Bool) (t : PNode) : (sBy f t).vc ≤ (sTot t).vc := by
  induction t with
  | leaf k s c vc vp =>
    by_cases hf : f k <;> simp [sBy, sTot, hf, agg0]
  | inner cb mn c vc vp l r ihl ihr =>
    simp only [sBy, sTot, aggE] at *
    omega

theorem sBy_vp_le (f : Nat → Bool) (t : PNode) : (sBy f t).vp ≤ (sTot t).vp := by
  induction t with
  | leaf k s c vc vp =>
    by_cases hf : f k <;> simp [sBy, sTot, hf, agg0]
  | inner cb mn c vc vp l r ihl ihr =>
    simp only [sBy, sTot, aggE] at *
    omega

/-- Stored aggregates of a node with exact aggregate invariant are its leaf
sums. -/
theorem agg_eq_sTot {t : PNode} (h : AggEx t) : t.agg = sTot t := by
  cases t with
  | leaf k s c vc vp => rfl
  | inner cb mn c vc vp l r =>
    obtain ⟨h1, h2, h3, _, _⟩ := h
    simp [PNode.agg, sTot_inner, aggE, h1, h2, h3]

theorem sBy_all_true {f : Nat → Bool} {t : PNode}
    (h : ∀ j ∈ keysOf t, f j = true) : sBy f t = sTot t := by
  induction t with
  | leaf k s c vc vp =>
    have := h k (by simp [keysOf])
    simp [sBy, sTot, this]
  | inner cb mn c vc vp l r ihl ihr =>
    simp only [keysOf, List.mem_append] at h
    simp only [sBy, sTot] at *
    rw [ihl (fun j hj => h j (Or.inl hj)), ihr (fun j hj => h j (Or.inr hj))]

theorem sBy_all_false {f : Nat → Bool} {t : PNode}
    (h : ∀ j ∈ keysOf t, f j = false) : sBy f t = agg0 := by
  induction t with
  | leaf k s c vc vp =>
    have := h k (by simp [keysOf])
    simp [sBy, this]
  | inner cb mn c vc vp l r ihl ihr =>
    simp only [keysOf, List.mem_append] at h
    simp only [sBy]
    rw [ihl (fun j hj => h j (Or.inl hj)), ihr (fun j hj => h j (Or.inr hj))]
    rfl

theorem losesAt_short (T k : Nat) : losesAt T true k = decide (k ≤ T) := by
  unfold losesAt
  rcases Nat.lt_trichotomy T k with h | h | h
  · simp [h, show ¬ (k ≤ T) by omega, show T ≠ k by omega]
  · simp [h]
  · simp [show ¬ (T < k) by omega, show k ≤ T by omega, show T ≠ k by omega]

theorem losesAt_long (T k : Nat) : losesAt T false k = decide (T ≤ k) := by
  unfold losesAt
  rcases Nat.lt_trichotomy T k with h | h | h
  · simp [h, show T ≤ k by omega]
  · simp [h]
  · simp [show ¬ (T < k) by omega, show ¬ (T ≤ k) by omega, show T ≠ k by omega]

/-- Bounds of a key agreeing with `mn` above `cb`, phrased against the
`mn ||| lowMask cb` range bound the code computes. -/
theorem key_le_max {mn cb j : Nat} (hcb : cb < 64) (hmn : mn % 2 ^ (cb + 1) = 0)
    (hj : j / 2 ^ (cb + 1) = mn / 2 ^ (cb + 1)) : mn ≤ j ∧ j ≤ mn ||| lowMask cb := by
  rw [lowMask_eq hcb, lor_low hmn]
  exact prefix_bounds hmn hj

theorem aggE_agg0_left (a : Agg) : aggE agg0 a = a := by
  cases a; simp [aggE, agg0]

theorem aggE_agg0_right (a : Agg) : aggE a agg0 = a := by
  cases a; simp [aggE, agg0]

theorem sBy_leaf (f : Nat → Bool) (k s c vc vp : Nat) :
    sBy f (.leaf k s c vc vp) = if f k then ⟨c, vc, vp⟩ else agg0 := rfl

theorem sBy_inner (f : Nat → Bool) (cb mn c vc vp : Nat) (l r : PNode) :
    sBy f (.inner cb mn c vc vp l r) = aggE (sBy f l) (sBy f r) := rfl

theorem sBy_partition (f : Nat → Bool) (t : PNode) :
    aggE (sBy f t) (sBy (fun k => ! f k) t) = sTot t := by
  induction t with
  | leaf k s c vc vp => cases h : f k <;> simp [sBy, sTot, aggE, agg0, h]
  | inner cb mn c vc vp l r ihl ihr =>
    have l1 := congrArg Agg.c ihl
    have l2 := congrArg Agg.vc ihl
    have l3 := congrArg Agg.vp ihl
    have r1 := congrArg Agg.c ihr
    have r2 := congrArg Agg.vc ihr
    have r3 := congrArg Agg.vp ihr
    simp only [sTot, sBy, aggE] at *
    simp only [Agg.mk.injEq]
    refine ⟨by omega, by omega, by omega⟩

theorem sLose_add_sKeep (T : Nat) (isShort : Bool) (t : PNode) :
    aggE (sLose T isShort t) (sKeep T isShort t) = sTot t :=
  sBy_partition (losesAt T isShort) t

theorem prune_none_lose {T : Nat} {isShort : Bool} {t : PNode}
    (h : pruneF T isShort t = none) : ∀ j ∈ keysOf t, losesAt T isShort j = true := by
  induction t with
  | leaf k s c vc vp =>
    intro j hj
    simp only [keysOf, List.mem_singleton] at hj
    subst hj
    by_cases hl : losesAt T isShort j
    · exact hl
    · simp [pruneF, hl] at h
  | inner cb mn c vc vp l r ihl ihr =>
    intro j hj
    simp only [pruneF] at h
    rcases hpl : pruneF T isShort l with _ | l' <;> rcases hpr : pruneF T isShort r with _ | r' <;>
      rw [hpl, hpr] at h <;> try simp at h
    simp only [keysOf, List.mem_append] at hj
    rcases hj with hj | hj
    · exact ihl hpl j hj
    · exact ihr hpr j hj

theorem prune_none_sKeep {T : Nat} {isShort : Bool} {t : PNode}
    (h : pruneF T isShort t = none) : sKeep T isShort t = agg0 := by
  apply sBy_all_false
  intro j hj
  have := prune_none_lose h j hj
  simp [keepAt, this]

theorem prune_keys {T : Nat} {isShort : Bool} {t t' : PNode}
    (h : pruneF T isShort t = some t') :
    keysOf t' = (keysOf t).filter (keepAt T isShort) := by
  induction t generalizing t' with
  | leaf k s c vc vp =>
    by_cases hl : losesAt T isShort k
    · simp [pruneF, hl] at h
    · simp only [pruneF, hl, if_neg, Bool.false_eq_true, not_false_iff, ite_false,
        Option.some.injEq] at h
      subst h
      simp [keysOf, keepAt, hl]
  | inner cb mn c vc vp l r ihl ihr =>
    simp only [pruneF] at h
    rcases hpl : pruneF T isShort l with _ | l' <;> rcases hpr : pruneF T isShort r with _ | r' <;>
      rw [hpl, hpr] at h <;> simp only [Option.some.injEq] at h
    · cases h
    · subst h
      have h1 : (keysOf l).filter (keepAt T isShort) = [] := by
        rw [List.filter_eq_nil_iff]
        intro j hj
        have := prune_none_lose hpl j hj
        simp [keepAt, this]
      simp [keysOf, List.filter_append, h1, ihr hpr]
    · subst h
      have h1 : (keysOf r).filter (keepAt T isShort) = [] := by
        rw [List.filter_eq_nil_iff]
        intro j hj
        have := prune_none_lose hpr j hj
        simp [keepAt, this]
      simp [keysOf, List.filter_append, h1, ihl hpl]
    · subst h
      simp [keysOf, List.filter_append, ihl hpl, ihr hpr]

theorem prune_sTot {T : Nat} {isShort : Bool} {t t' : PNode}
    (h : pruneF T isShort t = some t') : sTot t' = sKeep T isShort t := by
  induction t generalizing t' with
  | leaf k s c vc vp =>
    by_cases hl : losesAt T isShort k
    · simp [pruneF, hl] at h
    · simp only [pruneF, hl, Bool.false_eq_true, not_false_iff, ite_false,
        Option.some.injEq] at h
      subst h
      simp [sTot, sBy, sKeep, keepAt, hl]
  | inner cb mn c vc vp l r ihl ihr =>
    simp only [pruneF] at h
    rcases hpl : pruneF T isShort l with _ | l' <;> rcases hpr : pruneF T isShort r with _ | r' <;>
      rw [hpl, hpr] at h <;> simp only [Option.some.injEq] at h
    · cases h
    · subst h
      have h1 : sKeep T isShort l = agg0 := prune_none_sKeep hpl
      show sTot r' = sKeep T isShort (.inner cb mn c vc vp l r)
      rw [ihr hpr, show sKeep T isShort (.inner cb mn c vc vp l r) =
        aggE (sKeep T isShort l) (sKeep T isShort r) from rfl, h1, aggE_agg0_left]
    · subst h
      have h1 : sKeep T isShort r = agg0 := prune_none_sKeep hpr
      show sTot l' = sKeep T isShort (.inner cb mn c vc vp l r)
      rw [ihl hpl, show sKeep T isShort (.inner cb mn c vc vp l r) =
        aggE (sKeep T isShort l) (sKeep T isShort r) from rfl, h1, aggE_agg0_right]
    · subst h
      show sTot (.inner _ _ _ _ _ l' r') = _
      rw [sTot_inner, ihl hpl, ihr hpr]
      rfl

theorem prune_agg {T : Nat} {isShort : Bool} {t t' : PNode} (hA : AggEx t)
    (h : pruneF T isShort t = some t') : AggEx t' ∧ t'.agg = sKeep T isShort t := by
  induction t generalizing t' with
  | leaf k s c vc vp =>
    by_cases hl : losesAt T isShort k
    · simp [pruneF, hl] at h
    · simp only [pruneF, hl, Bool.false_eq_true, not_false_iff, ite_false,
        Option.some.injEq] at h
      subst h
      exact ⟨hA, by simp [PNode.agg, sKeep, sBy, keepAt, hl]⟩
  | inner cb mn c vc vp l r ihl ihr =>
    obtain ⟨hc, hvc, hvp, hAl, hAr⟩ := hA
    simp only [pruneF] at h
    rcases hpl : pruneF T isShort l with _ | l' <;> rcases hpr : pruneF T isShort r with _ | r' <;>
      rw [hpl, hpr] at h <;> simp only [Option.some.injEq] at h
    · cases h
    · subst h
      have h1 : sKeep T isShort l = agg0 := prune_none_sKeep hpl
      obtain ⟨hA', hagg⟩ := ihr hAr hpr
      refine ⟨hA', ?_⟩
      rw [hagg, show sKeep T isShort (.inner cb mn c vc vp l r) =
        aggE (sKeep T isShort l) (sKeep T isShort r) from rfl, h1, aggE_agg0_left]
    · subst h
      have h1 : sKeep T isShort r = agg0 := prune_none_sKeep hpr
      obtain ⟨hA', hagg⟩ := ihl hAl hpl
      refine ⟨hA', ?_⟩
      rw [hagg, show sKeep T isShort (.inner cb mn c vc vp l r) =
        aggE (sKeep T isShort l) (sKeep T isShort r) from rfl, h1, aggE_agg0_right]
    · subst h
      obtain ⟨hAl', _⟩ := ihl hAl hpl
      obtain ⟨hAr', _⟩ := ihr hAr hpr
      refine ⟨⟨?_, ?_, ?_, hAl', hAr'⟩, ?_⟩
      · rw [prune_sTot hpl, prune_sTot hpr]
      · rw [prune_sTot hpl, prune_sTot hpr]
      · rw [prune_sTot hpl, prune_sTot hpr]
      · simp [PNode.agg, sKeep, sBy, aggE]

theorem prune_PosColl {T : Nat} {isShort : Bool} {t t' : PNode} (hP : PosColl t)
    (h : pruneF T isShort t = some t') : PosColl t' := by
  induction t generalizing t' with
  | leaf k s c vc vp =>
    by_cases hl : losesAt T isShort k
    · simp [pruneF, hl] at h
    · simp only [pruneF, hl, Bool.false_eq_true, not_false_iff, ite_false,
        Option.some.injEq] at h
      subst h
      exact hP
  | inner cb mn c vc vp l r ihl ihr =>
    obtain ⟨hPl, hPr⟩ := hP
    simp only [pruneF] at h
    rcases hpl : pruneF T isShort l with _ | l' <;> rcases hpr : pruneF T isShort r with _ | r' <;>
      rw [hpl, hpr] at h <;> simp only [Option.some.injEq] at h
    · cases h
    · subst h; exact ihr hPr hpr
    · subst h; exact ihl hPl hpl
    · subst h; exact ⟨ihl hPl hpl, ihr hPr hpr⟩

theorem prune_WF {T : Nat} {isShort : Bool} {t t' : PNode} (hW : WF t)
    (h : pruneF T isShort t = some t') : WF t' := by
  induction t generalizing t' with
  | leaf k s c vc vp =>
    by_cases hl : losesAt T isShort k
    · simp [pruneF, hl] at h
    · simp only [pruneF, hl, Bool.false_eq_true, not_false_iff, ite_false,
        Option.some.injEq] at h
      subst h
      exact hW
  | inner cb mn c vc vp l r ihl ihr =>
    obtain ⟨hcb, hmn, hmod, hkl, hkr, hWl, hWr⟩ := hW
    simp only [pruneF] at h
    rcases hpl : pruneF T isShort l with _ | l' <;> rcases hpr : pruneF T isShort r with _ | r' <;>
      rw [hpl, hpr] at h <;> simp only [Option.some.injEq] at h
    · cases h
    · subst h; exact ihr hWr hpr
    · subst h; exact ihl hWl hpl
    · subst h
      refine ⟨hcb, hmn, hmod, ?_, ?_, ihl hWl hpl, ihr hWr hpr⟩
      · intro j hj
        rw [prune_keys hpl] at hj
        exact hkl j (List.mem_of_mem_filter hj)
      · intro j hj
        rw [prune_keys hpr] at hj
        exact hkr j (List.mem_of_mem_filter hj)

theorem prune_allKeep {T : Nat} {isShort : Bool} {t : PNode} (hA : AggEx t)
    (h : ∀ j ∈ keysOf t, losesAt T isShort j = false) : pruneF T isShort t = some t := by
  induction t with
  | leaf k s c vc vp =>
    have := h k (by simp [keysOf])
    simp [pruneF, this]
  | inner cb mn c vc vp l r ihl ihr =>
    obtain ⟨hc, hvc, hvp, hAl, hAr⟩ := hA
    simp only [keysOf, List.mem_append] at h
    have hl' := ihl hAl fun j hj => h j (Or.inl hj)
    have hr' := ihr hAr fun j hj => h j (Or.inr hj)
    have hkeepl : sKeep T isShort l = sTot l := by
      apply sBy_all_true
      intro j hj
      simp [keepAt, h j (Or.inl hj)]
    have hkeepr : sKeep T isShort r = sTot r := by
      apply sBy_all_true
      intro j hj
      simp [keepAt, h j (Or.inr hj)]
    simp [pruneF, hl', hr', hkeepl, hkeepr, hc, hvc, hvp]

theorem prune_allLose {T : Nat} {isShort : Bool} {t : PNode}
    (h : ∀ j ∈ keysOf t, losesAt T isShort j = true) : pruneF T isShort t = none := by
  induction t with
  | leaf k s c vc vp =>
    have := h k (by simp [keysOf])
    simp [pruneF, this]
  | inner cb mn c vc vp l r ihl ihr =>
    simp only [keysOf, List.mem_append] at h
    have hl' := ihl fun j hj => h j (Or.inl hj)
    have hr' := ihr fun j hj => h j (Or.inr hj)
    simp [pruneF, hl', hr']

theorem div_agree_above {j mn a b : Nat} (hab : a ≤ b) (h : j / 2 ^ a = mn / 2 ^ a) :
    j / 2 ^ b = mn / 2 ^ b := by
  have hb : a + (b - a) = b := by omega
  have h1 : j / 2 ^ a / 2 ^ (b - a) = j / 2 ^ b := by rw [div_pow_div, hb]
  have h2 : mn / 2 ^ a / 2 ^ (b - a) = mn / 2 ^ b := by rw [div_pow_div, hb]
  rw [← h1, ← h2, h]

theorem findCritbit_ge {a b n : Nat} (h : a / 2 ^ n ≠ b / 2 ^ n) : n ≤ findCritbit a b := by
  by_contra hlt
  push_neg at hlt
  rw [findCritbit_eq] at hlt
  apply h
  apply xor_div_eq
  by_cases h0 : a ^^^ b = 0
  · rw [h0]; exact Nat.two_pow_pos n
  · calc a ^^^ b < 2 ^ ((a ^^^ b).log2 + 1) := Nat.lt_log2_self
    _ ≤ 2 ^ n := Nat.pow_le_pow_right (by norm_num) (by omega)

/-- The bit of a bitwise-and at position `n`, in div/mod form. -/
theorem and_bit_zero {a b n : Nat} (h : a / 2 ^ n % 2 = 0 ∨ b / 2 ^ n % 2 = 0) :
    (a &&& b) / 2 ^ n % 2 = 0 := by
  have ht := Nat.testBit_and a b n
  rw [Nat.testBit_to_div_mod, Nat.testBit_to_div_mod, Nat.testBit_to_div_mod] at ht
  rcases Nat.mod_two_eq_zero_or_one ((a &&& b) / 2 ^ n) with h2 | h2
  · exact h2
  · exfalso
    rw [h2] at ht
    rcases h with h | h <;> rw [h] at ht <;> simp at ht

/-! ### Unfolding equations for `open_position` -/

theorem open_leaf_merge {lk k : Nat} (h : lk = k) (s c vc vp ls lc lvc lvp : Nat) :
    openPosAux k s c vc vp (.leaf lk ls lc lvc lvp) =
      (.leaf lk ls (wadd c lc) (wadd vc lvc) (wadd vp lvp), ls) := by
  simp [openPosAux, h]

theorem open_leaf_split {lk k : Nat} (h : ¬ lk = k)
    (hbit : k &&& (1 <<< findCritbit k lk) = 0) (s c vc vp ls lc lvc lvp : Nat) :
    openPosAux k s c vc vp (.leaf lk ls lc lvc lvp) =
      (.inner (findCritbit k lk) (lk &&& k &&& unot (mask1 (findCritbit k lk)))
        (wadd lc c) (wadd vc lvc) (wadd vp lvp)
        (.leaf k s c vc vp) (.leaf lk ls lc lvc lvp), s) := by
  simp [openPosAux, h, hbit]

theorem open_leaf_split' {lk k : Nat} (h : ¬ lk = k)
    (hbit : ¬ k &&& (1 <<< findCritbit k lk) = 0) (s c vc vp ls lc lvc lvp : Nat) :
    openPosAux k s c vc vp (.leaf lk ls lc lvc lvp) =
      (.inner (findCritbit k lk) (lk &&& k &&& unot (mask1 (findCritbit k lk)))
        (wadd lc c) (wadd vc lvc) (wadd vp lvp)
        (.leaf lk ls lc lvc lvp) (.leaf k s c vc vp), s) := by
  simp [openPosAux, h, hbit]

theorem open_inner_split {k cb mn : Nat} (hout : (mn ||| lowMask cb) < k ∨ k < mn)
    (hbit : k &&& (1 <<< findCritbit k mn) = 0) (s c vc vp c0 vc0 vp0 : Nat) (l r : PNode) :
    openPosAux k s c vc vp (.inner cb mn c0 vc0 vp0 l r) =
      (.inner (findCritbit k mn) (k &&& unot (lowMask (findCritbit k mn)))
        (wadd c c0) (wadd vc vc0) (wadd vp vp0)
        (.leaf k s c vc vp) (.inner cb mn c0 vc0 vp0 l r), s) := by
  simp [openPosAux, hout, hbit]

theorem open_inner_split' {k cb mn : Nat} (hout : (mn ||| lowMask cb) < k ∨ k < mn)
    (hbit : ¬ k &&& (1 <<< findCritbit k mn) = 0) (s c vc vp c0 vc0 vp0 : Nat) (l r : PNode) :
    openPosAux k s c vc vp (.inner cb mn c0 vc0 vp0 l r) =
      (.inner (findCritbit k mn) (k &&& unot (lowMask (findCritbit k mn)))
        (wadd c c0) (wadd vc vc0) (wadd vp vp0)
        (.inner cb mn c0 vc0 vp0 l r) (.leaf k s c vc vp), s) := by
  simp [openPosAux, hout, hbit]

theorem open_inner_left {k cb mn : Nat} (hin : ¬ ((mn ||| lowMask cb) < k ∨ k < mn))
    (hdir : k &&& (1 <<< cb) = 0) (s c vc vp c0 vc0 vp0 : Nat) (l r : PNode) :
    openPosAux k s c vc vp (.inner cb mn c0 vc0 vp0 l r) =
      (.inner cb mn (wadd c0 c) (wadd vc0 vc) (wadd vp0 vp) (openPosAux k s c vc vp l).1 r,
        (openPosAux k s c vc vp l).2) := by
  simp [openPosAux, hin, hdir]

theorem open_inner_right {k cb mn : Nat} (hin : ¬ ((mn ||| lowMask cb) < k ∨ k < mn))
    (hdir : ¬ k &&& (1 <<< cb) = 0) (s c vc vp c0 vc0 vp0 : Nat) (l r : PNode) :
    openPosAux k s c vc vp (.inner cb mn c0 vc0 vp0 l r) =
      (.inner cb mn (wadd c0 c) (wadd vc0 vc) (wadd vp0 vp) l (openPosAux k s c vc vp r).1,
        (openPosAux k s c vc vp r).2) := by
  simp [openPosAux, hin, hdir]

theorem and_unot_lowMask {k ncb : Nat} (hk : k < M) (hncb : ncb < 64) :
    k &&& unot (lowMask ncb) = k / 2 ^ (ncb + 1) * 2 ^ (ncb + 1) := by
  rw [unot_lowMask hncb, and_unot_pow hk (by omega)]

/-- The `new_liq_index_min` computed on the leaf-split path of `open_position`
is the common prefix of the two keys with the low `critbit+1` bits cleared. -/
theorem leaf_split_min {k lk : Nat} (hk : k < M) (hlk : lk < M) (hne : k ≠ lk) :
    lk &&& k &&& unot (mask1 (findCritbit k lk)) =
      k / 2 ^ (findCritbit k lk + 1) * 2 ^ (findCritbit k lk + 1) := by
  obtain ⟨hpre, hbit⟩ := findCritbit_spec hne
  have hcb64 : findCritbit k lk < 64 := findCritbit_lt hk hlk
  set cb := findCritbit k lk with hcbdef
  have hand : lk &&& k < M := lt_of_le_of_lt Nat.and_le_right hk
  rw [unot_mask1 hcb64, and_unot_pow hand (by omega)]
  have h1 : (lk &&& k) / 2 ^ (cb + 1) = k / 2 ^ (cb + 1) := by
    rw [and_div_pow, hpre, Nat.and_self]
  have hb2 : lk / 2 ^ cb % 2 = 0 ∨ k / 2 ^ cb % 2 = 0 := by
    rcases Nat.mod_two_eq_zero_or_one (lk / 2 ^ cb) with h | h
    · exact Or.inl h
    · rcases Nat.mod_two_eq_zero_or_one (k / 2 ^ cb) with h' | h'
      · exact Or.inr h'
      · omega
  have h2 : (lk &&& k) / 2 ^ cb % 2 = 0 := and_bit_zero hb2
  have h3 : (lk &&& k) / 2 ^ cb / 2 = (lk &&& k) / 2 ^ (cb + 1) := div_pow_succ _ cb
  have h4 : (lk &&& k) / 2 ^ cb = 2 * (k / 2 ^ (cb + 1)) := by omega
  rw [h4, pow_succ]
  ring

/-- Well-formedness and the key set of `open_position`: the result is
well-formed and its keys are the old keys plus the inserted key. -/
theorem open_WF {k : Nat} (hk : k < M) (s c vc vp : Nat) :
    ∀ t : PNode, WF t →
      WF (openPosAux k s c vc vp t).1 ∧
      (∀ j, j ∈ keysOf (openPosAux k s c vc vp t).1 ↔ (j ∈ keysOf t ∨ j = k)) := by
  intro t
  induction t with
  | leaf lk ls lc lvc lvp =>
    intro hW
    by_cases he : lk = k
    · rw [open_leaf_merge he]
      subst he
      refine ⟨hW, ?_⟩
      intro j
      simp only [keysOf, List.mem_singleton]
      tauto
    · have hlkM : lk < M := hW
      have hne : k ≠ lk := fun h => he h.symm
      have hcb : findCritbit k lk < 64 := findCritbit_lt hk hlkM
      obtain ⟨hpre, hbit⟩ := findCritbit_spec hne
      have hmin : lk &&& k &&& unot (mask1 (findCritbit k lk)) =
          k / 2 ^ (findCritbit k lk + 1) * 2 ^ (findCritbit k lk + 1) :=
        leaf_split_min hk hlkM hne
      have hminM : lk &&& k &&& unot (mask1 (findCritbit k lk)) < M :=
        lt_of_le_of_lt (le_trans Nat.and_le_left Nat.and_le_left) hlkM
      have hminmod : (lk &&& k &&& unot (mask1 (findCritbit k lk))) % 2 ^ (findCritbit k lk + 1) = 0 := by
        rw [hmin]; exact Nat.mul_mod_left _ _
      have hmindiv : (lk &&& k &&& unot (mask1 (findCritbit k lk))) / 2 ^ (findCritbit k lk + 1) = k / 2 ^ (findCritbit k lk + 1) := by
        rw [hmin]; exact Nat.mul_div_cancel _ (Nat.two_pow_pos _)
      by_cases hd : k &&& (1 <<< findCritbit k lk) = 0
      · rw [open_leaf_split he hd]
        have hk0 : k / 2 ^ (findCritbit k lk) % 2 = 0 := (and_one_shift k (findCritbit k lk)).mp hd
        have hl1 : lk / 2 ^ (findCritbit k lk) % 2 = 1 := by
          rcases Nat.mod_two_eq_zero_or_one (lk / 2 ^ findCritbit k lk) with h | h
          · omega
          · exact h
        refine ⟨⟨hcb, hminM, hminmod, ?_, ?_, hk, hW⟩, ?_⟩
        · intro j hj
          simp only [keysOf, List.mem_singleton] at hj
          subst hj
          exact ⟨hmindiv.symm, hk0⟩
        · intro j hj
          simp only [keysOf, List.mem_singleton] at hj
          subst hj
          exact ⟨hpre.symm.trans hmindiv.symm, hl1⟩
        · intro j
          simp only [keysOf, List.mem_append, List.mem_singleton]
          all_goals tauto
      · rw [open_leaf_split' he hd]
        have hk1 : k / 2 ^ findCritbit k lk % 2 = 1 := by
          have := (and_one_shift k (findCritbit k lk)).not.mp hd
          rcases Nat.mod_two_eq_zero_or_one (k / 2 ^ findCritbit k lk) with h | h
          · exact absurd h this
          · exact h
        have hl0 : lk / 2 ^ findCritbit k lk % 2 = 0 := by
          rcases Nat.mod_two_eq_zero_or_one (lk / 2 ^ findCritbit k lk) with h | h
          · exact h
          · omega
        refine ⟨⟨hcb, hminM, hminmod, ?_, ?_, hW, hk⟩, ?_⟩
        · intro j hj
          simp only [keysOf, List.mem_singleton] at hj
          subst hj
          exact ⟨hpre.symm.trans hmindiv.symm, hl0⟩
        · intro j hj
          simp only [keysOf, List.mem_singleton] at hj
          subst hj
          exact ⟨hmindiv.symm, hk1⟩
        · intro j
          simp only [keysOf, List.mem_append, List.mem_singleton]
          all_goals tauto
  | inner cb0 mn c0 vc0 vp0 l r ihl ihr =>
    intro hW
    obtain ⟨hcb0, hmnM, hmod0, hkl, hkr, hWl, hWr⟩ := hW
    by_cases hout : (mn ||| lowMask cb0) < k ∨ k < mn
    · have hne : k ≠ mn := by
        intro he
        subst he
        have hb := key_le_max hcb0 hmod0 (rfl : k / 2 ^ (cb0 + 1) = k / 2 ^ (cb0 + 1))
        omega
      have hprene : k / 2 ^ (cb0 + 1) ≠ mn / 2 ^ (cb0 + 1) := by
        intro he
        have hb := key_le_max hcb0 hmod0 he
        omega
      have hge : cb0 + 1 ≤ findCritbit k mn := findCritbit_ge hprene
      have hncb : findCritbit k mn < 64 := findCritbit_lt hk hmnM
      obtain ⟨hpre, hbitne⟩ := findCritbit_spec hne
      have hmin : k &&& unot (lowMask (findCritbit k mn)) =
          k / 2 ^ (findCritbit k mn + 1) * 2 ^ (findCritbit k mn + 1) :=
        and_unot_lowMask hk hncb
      have hminM : k &&& unot (lowMask (findCritbit k mn)) < M := lt_of_le_of_lt Nat.and_le_left hk
      have hminmod : (k &&& unot (lowMask (findCritbit k mn))) % 2 ^ (findCritbit k mn + 1) = 0 := by
        rw [hmin]; exact Nat.mul_mod_left _ _
      have hmindiv : (k &&& unot (lowMask (findCritbit k mn))) / 2 ^ (findCritbit k mn + 1) = k / 2 ^ (findCritbit k mn + 1) := by
        rw [hmin]; exact Nat.mul_div_cancel _ (Nat.two_pow_pos _)
      have hold : ∀ j ∈ keysOf (PNode.inner cb0 mn c0 vc0 vp0 l r),
          j / 2 ^ (findCritbit k mn + 1) = k / 2 ^ (findCritbit k mn + 1) ∧ j / 2 ^ findCritbit k mn % 2 = mn / 2 ^ findCritbit k mn % 2 := by
        intro j hj
        have hjp : j / 2 ^ (cb0 + 1) = mn / 2 ^ (cb0 + 1) := by
          simp only [keysOf, List.mem_append] at hj
          rcases hj with hj | hj
          · exact (hkl j hj).1
          · exact (hkr j hj).1
        constructor
        · calc j / 2 ^ (findCritbit k mn + 1) = mn / 2 ^ (findCritbit k mn + 1) := div_agree_above (by omega) hjp
          _ = k / 2 ^ (findCritbit k mn + 1) := hpre.symm
        · have := div_agree_above (show cb0 + 1 ≤ findCritbit k mn by omega) hjp
          omega
      have hWold : WF (PNode.inner cb0 mn c0 vc0 vp0 l r) :=
        ⟨hcb0, hmnM, hmod0, hkl, hkr, hWl, hWr⟩
      by_cases hd : k &&& (1 <<< findCritbit k mn) = 0
      · rw [open_inner_split hout hd]
        have hk0 : k / 2 ^ findCritbit k mn % 2 = 0 := (and_one_shift k (findCritbit k mn)).mp hd
        have hm1 : mn / 2 ^ findCritbit k mn % 2 = 1 := by
          rcases Nat.mod_two_eq_zero_or_one (mn / 2 ^ findCritbit k mn) with h | h
          · omega
          · exact h
        refine ⟨⟨hncb, hminM, hminmod, ?_, ?_, hk, hWold⟩, ?_⟩
        · intro j hj
          simp only [keysOf, List.mem_singleton] at hj
          subst hj
          exact ⟨hmindiv.symm, hk0⟩
        · intro j hj
          refine ⟨(hold j hj).1.trans hmindiv.symm, ?_⟩
          have := (hold j hj).2
          omega
        · intro j
          simp only [keysOf, List.mem_append, List.mem_singleton]
          all_goals tauto
      · rw [open_inner_split' hout hd]
        have hk1 : k / 2 ^ findCritbit k mn % 2 = 1 := by
          have := (and_one_shift k (findCritbit k mn)).not.mp hd
          rcases Nat.mod_two_eq_zero_or_one (k / 2 ^ findCritbit k mn) with h | h
          · exact absurd h this
          · exact h
        have hm0 : mn / 2 ^ findCritbit k mn % 2 = 0 := by
          rcases Nat.mod_two_eq_zero_or_one (mn / 2 ^ findCritbit k mn) with h | h
          · exact h
          · omega
        refine ⟨⟨hncb, hminM, hminmod, ?_, ?_, hWold, hk⟩, ?_⟩
        · intro j hj
          refine ⟨(hold j hj).1.trans hmindiv.symm, ?_⟩
          have := (hold j hj).2
          omega
        · intro j hj
          simp only [keysOf, List.mem_singleton] at hj
          subst hj
          exact ⟨hmindiv.symm, hk1⟩
        · intro j
          simp only [keysOf, List.mem_append, List.mem_singleton]
          all_goals tauto
    · have hpre : k / 2 ^ (cb0 + 1) = mn / 2 ^ (cb0 + 1) :=
        (range_iff hcb0 hmod0).mp (by omega)
      by_cases hd : k &&& (1 <<< cb0) = 0
      · rw [open_inner_left hout hd]
        obtain ⟨hWl', hkl'⟩ := ihl hWl
        refine ⟨⟨hcb0, hmnM, hmod0, ?_, hkr, hWl', hWr⟩, ?_⟩
        · intro j hj
          rcases (hkl' j).mp hj with hj' | hj'
          · exact hkl j hj'
          · rw [hj']
            exact ⟨hpre, (and_one_shift k cb0).mp hd⟩
        · intro j
          simp only [keysOf, List.mem_append, hkl' j]
          tauto
      · rw [open_inner_right hout hd]
        obtain ⟨hWr', hkr'⟩ := ihr hWr
        have hk1 : k / 2 ^ cb0 % 2 = 1 := by
          have := (and_one_shift k cb0).not.mp hd
          rcases Nat.mod_two_eq_zero_or_one (k / 2 ^ cb0) with h | h
          · exact absurd h this
          · exact h
        refine ⟨⟨hcb0, hmnM, hmod0, hkl, ?_, hWl, hWr'⟩, ?_⟩
        · intro j hj
          rcases (hkr' j).mp hj with hj' | hj'
          · exact hkr j hj'
          · rw [hj']
            exact ⟨hpre, hk1⟩
        · intro j
          simp only [keysOf, List.mem_append, hkr' j]
          tauto

theorem aggext {a b : Agg} (h1 : a.c = b.c) (h2 : a.vc = b.vc) (h3 : a.vp = b.vp) : a = b := by
  cases a; cases b; simp_all

/-- Stored root aggregates after `open_position` are the wrapping sums of the
old root aggregates and the opened amounts (no well-formedness needed). -/
theorem open_agg {k : Nat} (s c vc vp : Nat) (t : PNode) :
    ((openPosAux k s c vc vp t).1).agg = aggW ⟨c, vc, vp⟩ t.agg := by
  cases t with
  | leaf lk ls lc lvc lvp =>
    by_cases he : lk = k
    · rw [open_leaf_merge he]; rfl
    · by_cases hd : k &&& (1 <<< findCritbit k lk) = 0
      · rw [open_leaf_split he hd]
        exact aggext (wadd_comm lc c) rfl rfl
      · rw [open_leaf_split' he hd]
        exact aggext (wadd_comm lc c) rfl rfl
  | inner cb mn c0 vc0 vp0 l r =>
    by_cases hout : (mn ||| lowMask cb) < k ∨ k < mn
    · by_cases hd : k &&& (1 <<< findCritbit k mn) = 0
      · rw [open_inner_split hout hd]; rfl
      · rw [open_inner_split' hout hd]; rfl
    · by_cases hd : k &&& (1 <<< cb) = 0
      · rw [open_inner_left hout hd]
        exact aggext (wadd_comm c0 c) (wadd_comm vc0 vc) (wadd_comm vp0 vp)
      · rw [open_inner_right hout hd]
        exact aggext (wadd_comm c0 c) (wadd_comm vc0 vc) (wadd_comm vp0 vp)

/-- Under no-overflow side conditions, `open_position` adds the opened amounts
to the key-filtered exact sums: to the `f`-sum when the key satisfies `f`,
else leaving it unchanged. -/
theorem open_sBy (f : Nat → Bool) (k s c vc vp : Nat) :
    ∀ t : PNode, (sTot t).c + c < M → (sTot t).vc + vc < M → (sTot t).vp + vp < M →
      sBy f (openPosAux k s c vc vp t).1 =
        aggE (sBy f t) (if f k then ⟨c, vc, vp⟩ else agg0) := by
  intro t
  induction t with
  | leaf lk ls lc lvc lvp =>
    intro h1 h2 h3
    have h1 : lc + c < M := h1
    have h2 : lvc + vc < M := h2
    have h3 : lvp + vp < M := h3
    have e1 : wadd c lc = c + lc := wadd_eq (by omega)
    have e2 : wadd vc lvc = vc + lvc := wadd_eq (by omega)
    have e3 : wadd vp lvp = vp + lvp := wadd_eq (by omega)
    by_cases he : lk = k
    · rw [open_leaf_merge he]
      subst he
      by_cases hf : f lk <;>
        simp [sBy_leaf, hf, aggE, agg0, e1, e2, e3] <;> omega
    · have hfmt : ∀ A B : PNode, sBy f (.inner (findCritbit k lk)
          (lk &&& k &&& unot (mask1 (findCritbit k lk))) (wadd lc c) (wadd vc lvc)
          (wadd vp lvp) A B) = aggE (sBy f A) (sBy f B) := fun A B => rfl
      by_cases hd : k &&& (1 <<< findCritbit k lk) = 0
      · rw [open_leaf_split he hd, hfmt]
        by_cases hf1 : f k <;> by_cases hf2 : f lk <;>
          simp [sBy_leaf, hf1, hf2, aggE, agg0] <;> omega
      · rw [open_leaf_split' he hd, hfmt]
        by_cases hf1 : f k <;> by_cases hf2 : f lk <;>
          simp [sBy_leaf, hf1, hf2, aggE, agg0] <;> omega
  | inner cb mn c0 vc0 vp0 l r ihl ihr =>
    intro h1 h2 h3
    have h1 : (sTot l).c + (sTot r).c + c < M := h1
    have h2 : (sTot l).vc + (sTot r).vc + vc < M := h2
    have h3 : (sTot l).vp + (sTot r).vp + vp < M := h3
    have hlc : (sTot l).c + c < M := by omega
    have hlvc : (sTot l).vc + vc < M := by omega
    have hlvp : (sTot l).vp + vp < M := by omega
    have hrc : (sTot r).c + c < M := by omega
    have hrvc : (sTot r).vc + vc < M := by omega
    have hrvp : (sTot r).vp + vp < M := by omega
    by_cases hout : (mn ||| lowMask cb) < k ∨ k < mn
    · by_cases hd : k &&& (1 <<< findCritbit k mn) = 0
      · rw [open_inner_split hout hd]
        show aggE (sBy f (.leaf k s c vc vp)) (sBy f (.inner cb mn c0 vc0 vp0 l r)) = _
        by_cases hf : f k <;> simp [sBy_leaf, hf, aggE, agg0] <;> omega
      · rw [open_inner_split' hout hd]
        show aggE (sBy f (.inner cb mn c0 vc0 vp0 l r)) (sBy f (.leaf k s c vc vp)) = _
        by_cases hf : f k <;> simp [sBy_leaf, hf, aggE, agg0] <;> omega
    · by_cases hd : k &&& (1 <<< cb) = 0
      · rw [open_inner_left hout hd]
        show aggE (sBy f (openPosAux k s c vc vp l).1) (sBy f r) = _
        rw [ihl hlc hlvc hlvp]
        show _ = aggE (aggE (sBy f l) (sBy f r)) _
        by_cases hf : f k <;> simp [hf, aggE, agg0] <;> omega
      · rw [open_inner_right hout hd]
        show aggE (sBy f l) (sBy f (openPosAux k s c vc vp r).1) = _
        rw [ihr hrc hrvc hrvp]
        show _ = aggE (aggE (sBy f l) (sBy f r)) _
        by_cases hf : f k <;> simp [hf, aggE, agg0] <;> omega

/-- Under the no-overflow side conditions, `open_position` adds the opened
amounts to the exact totals. -/
theorem open_sTot (k s c vc vp : Nat) (t : PNode)
    (h1 : (sTot t).c + c < M) (h2 : (sTot t).vc + vc < M) (h3 : (sTot t).vp + vp < M) :
    sTot (openPosAux k s c vc vp t).1 = aggE (sTot t) ⟨c, vc, vp⟩ := by
  have := open_sBy (fun _ => true) k s c vc vp t h1 h2 h3
  simpa [sTot] using this

/-- `open_position` preserves the exact aggregate-sum invariant (under the
no-overflow side conditions). -/
theorem open_AggEx (k s c vc vp : Nat) :
    ∀ t : PNode, AggEx t → (sTot t).c + c < M → (sTot t).vc + vc < M →
      (sTot t).vp + vp < M → AggEx (openPosAux k s c vc vp t).1 := by
  intro t
  induction t with
  | leaf lk ls lc lvc lvp =>
    intro hA h1 h2 h3
    have h1 : lc + c < M := h1
    have h2 : lvc + vc < M := h2
    have h3 : lvp + vp < M := h3
    obtain ⟨hb1, hb2, hb3⟩ := hA
    have hAnew : AggEx (.leaf k s c vc vp) := ⟨by omega, by omega, by omega⟩
    have hAold : AggEx (.leaf lk ls lc lvc lvp) := ⟨hb1, hb2, hb3⟩
    have e1 : wadd c lc = c + lc := wadd_eq (by omega)
    have e2 : wadd vc lvc = vc + lvc := wadd_eq (by omega)
    have e3 : wadd vp lvp = vp + lvp := wadd_eq (by omega)
    have e1' : wadd lc c = lc + c := wadd_eq (by omega)
    by_cases he : lk = k
    · rw [open_leaf_merge he]
      exact ⟨by omega, by omega, by omega⟩
    · by_cases hd : k &&& (1 <<< findCritbit k lk) = 0
      · rw [open_leaf_split he hd]
        refine ⟨?_, ?_, ?_, hAnew, hAold⟩ <;> simp [sTot_leaf, e1', e2, e3] <;> omega
      · rw [open_leaf_split' he hd]
        refine ⟨?_, ?_, ?_, hAold, hAnew⟩ <;> simp [sTot_leaf, e1', e2, e3] <;> omega
  | inner cb mn c0 vc0 vp0 l r ihl ihr =>
    intro hA h1 h2 h3
    obtain ⟨hc0, hvc0, hvp0, hAl, hAr⟩ := hA
    have h1 : (sTot l).c + (sTot r).c + c < M := h1
    have h2 : (sTot l).vc + (sTot r).vc + vc < M := h2
    have h3 : (sTot l).vp + (sTot r).vp + vp < M := h3
    have hlc : (sTot l).c + c < M := by omega
    have hlvc : (sTot l).vc + vc < M := by omega
    have hlvp : (sTot l).vp + vp < M := by omega
    have hrc : (sTot r).c + c < M := by omega
    have hrvc : (sTot r).vc + vc < M := by omega
    have hrvp : (sTot r).vp + vp < M := by omega
    have hAold : AggEx (.inner cb mn c0 vc0 vp0 l r) := ⟨hc0, hvc0, hvp0, hAl, hAr⟩
    have hAnew : AggEx (.leaf k s c vc vp) := ⟨by omega, by omega, by omega⟩
    have e1 : wadd c c0 = c + c0 := wadd_eq (by omega)
    have e2 : wadd vc vc0 = vc + vc0 := wadd_eq (by omega)
    have e3 : wadd vp vp0 = vp + vp0 := wadd_eq (by omega)
    by_cases hout : (mn ||| lowMask cb) < k ∨ k < mn
    · by_cases hd : k &&& (1 <<< findCritbit k mn) = 0
      · rw [open_inner_split hout hd]
        refine ⟨?_, ?_, ?_, hAnew, hAold⟩
        · show wadd c c0 = c + ((sTot l).c + (sTot r).c)
          omega
        · show wadd vc vc0 = vc + ((sTot l).vc + (sTot r).vc)
          omega
        · show wadd vp vp0 = vp + ((sTot l).vp + (sTot r).vp)
          omega
      · rw [open_inner_split' hout hd]
        refine ⟨?_, ?_, ?_, hAold, hAnew⟩
        · show wadd c c0 = ((sTot l).c + (sTot r).c) + c
          omega
        · show wadd vc vc0 = ((sTot l).vc + (sTot r).vc) + vc
          omega
        · show wadd vp vp0 = ((sTot l).vp + (sTot r).vp) + vp
          omega
    · have e1' : wadd c0 c = c0 + c := wadd_eq (by omega)
      have e2' : wadd vc0 vc = vc0 + vc := wadd_eq (by omega)
      have e3' : wadd vp0 vp = vp0 + vp := wadd_eq (by omega)
      by_cases hd : k &&& (1 <<< cb) = 0
      · rw [open_inner_left hout hd]
        have hs1 : (sTot (openPosAux k s c vc vp l).1).c = (sTot l).c + c :=
          congrArg Agg.c (open_sTot k s c vc vp l hlc hlvc hlvp)
        have hs2 : (sTot (openPosAux k s c vc vp l).1).vc = (sTot l).vc + vc :=
          congrArg Agg.vc (open_sTot k s c vc vp l hlc hlvc hlvp)
        have hs3 : (sTot (openPosAux k s c vc vp l).1).vp = (sTot l).vp + vp :=
          congrArg Agg.vp (open_sTot k s c vc vp l hlc hlvc hlvp)
        exact ⟨by omega, by omega, by omega, ihl hAl hlc hlvc hlvp, hAr⟩
      · rw [open_inner_right hout hd]
        have hs1 : (sTot (openPosAux k s c vc vp r).1).c = (sTot r).c + c :=
          congrArg Agg.c (open_sTot k s c vc vp r hrc hrvc hrvp)
        have hs2 : (sTot (openPosAux k s c vc vp r).1).vc = (sTot r).vc + vc :=
          congrArg Agg.vc (open_sTot k s c vc vp r hrc hrvc hrvp)
        have hs3 : (sTot (openPosAux k s c vc vp r).1).vp = (sTot r).vp + vp :=
          congrArg Agg.vp (open_sTot k s c vc vp r hrc hrvc hrvp)
        exact ⟨by omega, by omega, by omega, hAl, ihr hAr hrc hrvc hrvp⟩

/-- `open_position` with positive collateral preserves leaf-collateral
positivity. -/
theorem open_PosColl (k s c vc vp : Nat) (hc : 1 ≤ c) :
    ∀ t : PNode, PosColl t → (sTot t).c + c < M → PosColl (openPosAux k s c vc vp t).1 := by
  intro t
  induction t with
  | leaf lk ls lc lvc lvp =>
    intro hP h1
    have h1 : lc + c < M := h1
    have e1 : wadd c lc = c + lc := wadd_eq (by omega)
    by_cases he : lk = k
    · rw [open_leaf_merge he]
      show 1 ≤ wadd c lc
      omega
    · by_cases hd : k &&& (1 <<< findCritbit k lk) = 0
      · rw [open_leaf_split he hd]
        exact ⟨hc, hP⟩
      · rw [open_leaf_split' he hd]
        exact ⟨hP, hc⟩
  | inner cb mn c0 vc0 vp0 l r ihl ihr =>
    intro hP h1
    have h1 : (sTot l).c + (sTot r).c + c < M := h1
    obtain ⟨hPl, hPr⟩ := hP
    have hlc : (sTot l).c + c < M := by omega
    have hrc : (sTot r).c + c < M := by omega
    by_cases hout : (mn ||| lowMask cb) < k ∨ k < mn
    · by_cases hd : k &&& (1 <<< findCritbit k mn) = 0
      · rw [open_inner_split hout hd]
        exact ⟨hc, hPl, hPr⟩
      · rw [open_inner_split' hout hd]
        exact ⟨⟨hPl, hPr⟩, hc⟩
    · by_cases hd : k &&& (1 <<< cb) = 0
      · rw [open_inner_left hout hd]
        exact ⟨ihl hPl hlc, hPr⟩
      · rw [open_inner_right hout hd]
        exact ⟨hPl, ihr hPr hrc⟩

/-! ## Byte-level lemmas: pages, layout, allocation and the GC crank -/

theorem spliceBytes_length {l : List Nat} {i : Nat} {bs : List Nat}
    (h : i + bs.length ≤ l.length) : (spliceBytes l i bs).length = l.length := by
  simp only [spliceBytes, List.length_append, List.length_take, List.length_drop]
  omega

theorem spliceBytes_read {l : List Nat} {i : Nat} {bs : List Nat}
    (h : i + bs.length ≤ l.length) :
    ((spliceBytes l i bs).drop i).take bs.length = bs := by
  unfold spliceBytes
  rw [List.append_assoc]
  have hlen : (l.take i).length = i := by rw [List.length_take]; omega
  have h1 := List.drop_left (l.take i) (bs ++ l.drop (i + bs.length))
  rw [hlen] at h1
  rw [h1, List.take_left]

/-- Writes round-trip through reads at the same `(pointer, offset)`. -/
theorem page_write_read {pg pg' : BPage} {ptr off : Nat} {bs : List Nat}
    (h : pg.write ptr off bs = .ok pg') :
    pg'.read ptr off bs.length = .ok bs := by
  unfold BPage.write at h
  split at h
  case isTrue hin =>
    cases h
    unfold BPage.read
    simp only [spliceBytes_length hin, hin, if_pos]
    rw [spliceBytes_read hin]
  case isFalse hin => exact absurd h (by simp)

/-- C7, counterexample to the claim as stated: an out-of-range `read_byte`
does not return the `MemoryError` error value — it is an uncaught index panic
(`self.data.borrow()[mem_offset]` with no bounds check). -/
theorem claim_C7_counterexample :
    BPage.readByte pageZero 0 0 = .error .panicked ∧
    BPage.readByte pageZero 0 0 ≠ .error (.perp PerpError.MemoryError) := by
  decide

/-- C7 (amended): out-of-range access through every typed accessor of the slot
arena (`read`, `read_byte`, `read_u16_le`, `read_u32_le`, `read_u64_le`,
`read_u64_be`, `write`) is an index panic, not a returned error; the only
accessor that bounds-checks and returns `MemoryError` is the free-list pointer
write inside `Page::free`. -/
theorem claim_C7 (pg : BPage) (ptr off len : Nat) (bs : List Nat) :
    (memOffset ptr off + len > pg.data.length →
      pg.read ptr off len = .error .panicked) ∧
    (memOffset ptr off ≥ pg.data.length →
      pg.readByte ptr off = .error .panicked) ∧
    (memOffset ptr off + 2 > pg.data.length →
      pg.readU16le ptr off = .error .panicked) ∧
    (memOffset ptr off + 4 > pg.data.length →
      pg.readU32le ptr off = .error .panicked) ∧
    (memOffset ptr off + 8 > pg.data.length →
      pg.readU64le ptr off = .error .panicked) ∧
    (memOffset ptr off + 8 > pg.data.length →
      pg.readU64be ptr off = .error .panicked) ∧
    (memOffset ptr off + bs.length > pg.data.length →
      pg.write ptr off bs = .error .panicked) ∧
    (∀ h, pg.freeSlotListHd = some h → TAG_SIZE + ptr * SLOT_SIZE + 5 > pg.data.length →
      pg.free ptr = .error (.perp PerpError.MemoryError)) := by
  refine ⟨?_, ?_, ?_, ?_, ?_, ?_, ?_, ?_⟩
  · intro h; simp [BPage.read, show ¬ (memOffset ptr off + len ≤ pg.data.length) by omega]
  · intro h
    simp [BPage.readByte, List.getElem?_eq_none (by omega : pg.data.length ≤ memOffset ptr off)]
  · intro h
    simp [BPage.readU16le, BPage.read, show ¬ (memOffset ptr off + 2 ≤ pg.data.length) by omega,
      Except.map]
  · intro h
    simp [BPage.readU32le, BPage.read, show ¬ (memOffset ptr off + 4 ≤ pg.data.length) by omega,
      Except.map]
  · intro h
    simp [BPage.readU64le, BPage.read, show ¬ (memOffset ptr off + 8 ≤ pg.data.length) by omega,
      Except.map]
  · intro h
    simp [BPage.readU64be, BPage.read, show ¬ (memOffset ptr off + 8 ≤ pg.data.length) by omega,
      Except.map]
  · intro h
    simp [BPage.write, show ¬ (memOffset ptr off + bs.length ≤ pg.data.length) by omega]
  · intro hd hsome h
    simp [BPage.free, hsome, show ¬ (TAG_SIZE + ptr * SLOT_SIZE + 5 ≤ pg.data.length) by omega]

/-- Witness for C7 at a concrete page: all accessors panic out of range and
`free` returns `MemoryError` in its checked branch. -/
theorem claim_C7_witness :
    BPage.read pageZero 0 0 1 = .error .panicked ∧
    BPage.readByte pageZero 0 0 = .error .panicked ∧
    BPage.readU64le pageZero 0 0 = .error .panicked ∧
    BPage.write pageZero 0 0 [7] = .error .panicked ∧
    BPage.free { pageZero with freeSlotListHd := some 0 } 0 =
      .error (.perp PerpError.MemoryError) :=
  ⟨(claim_C7 pageZero 0 0 1 [7]).1 (by decide),
   (claim_C7 pageZero 0 0 1 [7]).2.1 (by decide),
   (claim_C7 pageZero 0 0 1 [7]).2.2.2.2.1 (by decide),
   (claim_C7 pageZero 0 0 1 [7]).2.2.2.2.2.2.1 (by decide),
   (claim_C7 { pageZero with freeSlotListHd := some 0 } 0 0 1 [7]).2.2.2.2.2.2.2 0
     (by decide) (by decide)⟩

/-- C8, counterexample to the claim as stated: `pageOne` satisfies the
invariant (`high_water_mark = 1 ≤ 1 = slot_count`), yet after the failing
`allocate` the high-water mark is `2 > slot_count`, because the code
increments `uninitialized_memory` before the capacity check and returns
`OutOfSpace` without rolling it back. -/
theorem claim_C8_counterexample :
    pageOne.uninitializedMemory ≤ pageOne.pageSize ∧
    (BPage.allocate pageOne leafNodeTag).2 = .error (.perp PerpError.OutOfSpace) ∧
    (BPage.allocate pageOne leafNodeTag).1.uninitializedMemory = 2 ∧
    ¬ (BPage.allocate pageOne leafNodeTag).1.uninitializedMemory ≤ pageOne.pageSize := by
  decide

/-- C8 (amended): for a page satisfying the full invariant (mark within the
slot count, buffer large enough, well-formed free-list head), `allocate` pops
the free-list head when non-empty (mark unchanged), else bumps the mark;
it fails with `OutOfSpace` exactly when the mark has reached the slot count,
and in that failure case the mark ends at `slot_count + 1`; in every other
outcome `high_water_mark ≤ slot_count` is preserved. -/
theorem claim_C8 (pg : BPage) (st : Nat)
    (hum : pg.uninitializedMemory ≤ pg.pageSize)
    (hlen : TAG_SIZE + SLOT_SIZE * pg.pageSize ≤ pg.data.length)
    (hfree : ∀ h, pg.freeSlotListHd = some h → h < pg.pageSize ∧
      (pg.data[TAG_SIZE + h * SLOT_SIZE]? = some freeSlotTag ∨
       pg.data[TAG_SIZE + h * SLOT_SIZE]? = some lastFreeSlotTag)) :
    (∀ h, pg.freeSlotListHd = some h → (pg.allocate st).2 = .ok h ∧
      (pg.allocate st).1.uninitializedMemory = pg.uninitializedMemory) ∧
    (pg.freeSlotListHd = none → pg.uninitializedMemory < pg.pageSize →
      (pg.allocate st).2 = .ok pg.uninitializedMemory ∧
      (pg.allocate st).1.uninitializedMemory = pg.uninitializedMemory + 1) ∧
    (pg.freeSlotListHd = none → pg.uninitializedMemory = pg.pageSize →
      (pg.allocate st).2 = .error (.perp PerpError.OutOfSpace) ∧
      (pg.allocate st).1.uninitializedMemory = pg.pageSize + 1) ∧
    ((pg.allocate st).2 ≠ .error (.perp PerpError.OutOfSpace) →
      (pg.allocate st).1.uninitializedMemory ≤ pg.pageSize) := by
  have hlen' : 1 + 47 * pg.pageSize ≤ pg.data.length := hlen
  refine ⟨?_, ?_, ?_, ?_⟩
  · intro h hsome
    obtain ⟨hlt, htag⟩ := hfree h hsome
    have hoff : TAG_SIZE + h * SLOT_SIZE + 5 ≤ pg.data.length := by
      show 1 + h * 47 + 5 ≤ pg.data.length
      omega
    rcases htag with htag | htag <;>
      simp [BPage.allocate, hsome, htag, freeSlotTag, lastFreeSlotTag, hoff]
  · intro hnone hlt
    have hoff : TAG_SIZE + pg.uninitializedMemory * SLOT_SIZE < pg.data.length := by
      show 1 + pg.uninitializedMemory * 47 < pg.data.length
      omega
    simp [BPage.allocate, hnone, show ¬ (pg.pageSize < pg.uninitializedMemory + 1) by omega, hoff]
  · intro hnone heq
    simp [BPage.allocate, hnone, show pg.pageSize < pg.uninitializedMemory + 1 by omega, heq]
  · intro hne
    rcases hsome : pg.freeSlotListHd with _ | h
    · by_cases hlt : pg.uninitializedMemory < pg.pageSize
      · have hoff : TAG_SIZE + pg.uninitializedMemory * SLOT_SIZE < pg.data.length := by
          show 1 + pg.uninitializedMemory * 47 < pg.data.length
          omega
        simp [BPage.allocate, hsome,
          show ¬ (pg.pageSize < pg.uninitializedMemory + 1) by omega, hoff]
        omega
      · exfalso
        apply hne
        have heq : pg.uninitializedMemory = pg.pageSize := by omega
        simp [BPage.allocate, hsome, show pg.pageSize < pg.uninitializedMemory + 1 by omega]
    · obtain ⟨hlt, htag⟩ := hfree h hsome
      have hoff : TAG_SIZE + h * SLOT_SIZE + 5 ≤ pg.data.length := by
        show 1 + h * 47 + 5 ≤ pg.data.length
        omega
      rcases htag with htag | htag <;>
        simp [BPage.allocate, hsome, htag, freeSlotTag, lastFreeSlotTag, hoff] <;> omega

/-- Witness for C8 at a concrete page: a fresh one-slot page allocates by
bumping the mark, staying within the invariant. -/
theorem claim_C8_witness :
    (BPage.allocate ⟨1, List.replicate 48 0, 0, none⟩ leafNodeTag).2 = .ok 0 ∧
    (BPage.allocate ⟨1, List.replicate 48 0, 0, none⟩ leafNodeTag).1.uninitializedMemory = 0 + 1 :=
  (claim_C8 ⟨1, List.replicate 48 0, 0, none⟩ leafNodeTag (by decide) (by decide)
    (by intro h hsome; simp at hsome)).2.1 rfl (by decide)

/-- C9, counterexample to the claim as stated: slot 1's tag byte lies 47
bytes after slot 0's tag byte, not 48 (`SLOT_SIZE = 47` and the accessors
address `TAG_SIZE + pointer * SLOT_SIZE + offset`). -/
theorem claim_C9_counterexample : ¬ memOffset 1 0 = memOffset 0 0 + 48 * 1 := by
  decide

/-- C9 (amended): slots are 47 bytes each (1 tag byte plus 46 payload bytes):
slot `p`'s tag byte lies `47 * p` bytes after slot 0's tag byte, the
documented field offsets (Leaf `liquidation_index` at slot offset 1, InnerNode
`calc_flag` at slot offset 46) fit within the 47-byte stride, and the byte
layout round-trips exactly (a `write` at `(pointer, offset)` is returned
verbatim by the next `read`). -/
theorem claim_C9 (p : Nat) (pg pg' : BPage) (ptr off : Nat) (bs : List Nat) :
    SLOT_SIZE = 47 ∧ TAG_SIZE = 1 ∧
    memOffset p 0 = memOffset 0 0 + 47 * p ∧
    leafLiqIdxOff = 1 ∧ innerCalcFlagOff = 46 ∧ innerCalcFlagOff + 1 ≤ SLOT_SIZE ∧
    (pg.write ptr off bs = .ok pg' → pg'.read ptr off bs.length = .ok bs) := by
  refine ⟨rfl, rfl, by simp [memOffset, SLOT_SIZE, TAG_SIZE]; ring, rfl, rfl, by decide,
    fun h => page_write_read h⟩

set_option maxRecDepth 4000 in
/-- Witness for C9: writing a u64 at slot 1's `liquidation_index` offset in a
concrete page reads back exactly. -/
theorem claim_C9_witness :
    BPage.write pageRt 1 leafLiqIdxOff (le64 77) =
      .ok { pageRt with data := spliceBytes pageRt.data 49 (le64 77) } ∧
    BPage.read { pageRt with data := spliceBytes pageRt.data 49 (le64 77) } 1 leafLiqIdxOff
      (le64 77).length = .ok (le64 77) :=
  ⟨by decide,
   (claim_C9 1 pageRt { pageRt with data := spliceBytes pageRt.data 49 (le64 77) } 1
     leafLiqIdxOff (le64 77)).2.2.2.2.2.2 (by decide)⟩

set_option maxRecDepth 8000 in
/-- C5, evaluation at the failing input: cranking a garbage list whose head is
a retired `InnerNode` (slot 0, children slots 1 and 2) pops it and flags both
children, but the inner node's own slot is never freed — the page free list
stays empty and the slot still carries the `InnerNode` tag, so the slot leaks.
A retired `LeafNode` head, by contrast, is freed immediately into the free
list. -/
theorem claim_C5_eval :
    (gcBugMem.crankGarbageCollector 1).map Prod.fst = .ok 1 ∧
    (gcBugMem.crankGarbageCollector 1).map (fun p => p.2.gcListHd) = .ok (some 2) ∧
    (gcBugMem.crankGarbageCollector 1).map (fun p => (p.2.pages[0]?).map BPage.freeSlotListHd) =
      .ok (some (none : Option Nat)) ∧
    (gcBugMem.crankGarbageCollector 1).map (fun p => p.2.readByte 0 0) =
      .ok (.ok innerNodeTag) ∧
    (gcLeafMem.crankGarbageCollector 1).map Prod.fst = .ok 1 ∧
    (gcLeafMem.crankGarbageCollector 1).map (fun p => p.2.gcListHd) = .ok none ∧
    (gcLeafMem.crankGarbageCollector 1).map (fun p => (p.2.pages[0]?).map BPage.freeSlotListHd) =
      .ok (some (some 0)) ∧
    (gcLeafMem.crankGarbageCollector 1).map (fun p => p.2.readByte 0 0) =
      .ok (.ok lastFreeSlotTag) := by
  decide

/-! ## Conservation over sequences of opens (C2) -/

theorem agg_ext {a b : Agg} (h1 : a.c = b.c) (h2 : a.vc = b.vc) (h3 : a.vp = b.vp) :
    a = b := by
  cases a; cases b; simp_all

/-- One `open_position` call, seen on the addressed side's root: it always
produces a root, keeps structure and exact aggregates well-formed, inserts the
key, and adds the amounts to the side total. -/
theorem openPosition_root (k c vc vp s : Nat) (side : PositionType) (b : Book)
    (hk : k < M)
    (hW : ∀ t, b.sideRoot side = some t → WF t)
    (hA : ∀ t, b.sideRoot side = some t → AggEx t)
    (h1 : (sideTotAgg b side).c + c < M) (h2 : (sideTotAgg b side).vc + vc < M)
    (h3 : (sideTotAgg b side).vp + vp < M) :
    ∃ u, ((openPosition k c vc vp side s b).1).sideRoot side = some u ∧
      WF u ∧ AggEx u ∧
      (∀ j, j ∈ keysOf u ↔ ((∃ t, b.sideRoot side = some t ∧ j ∈ keysOf t) ∨ j = k)) ∧
      sTot u = aggE (sideTotAgg b side) ⟨c, vc, vp⟩ := by
  have hside : ∀ r, ((b.setRoot r side).sideRoot side) = r := by
    intro r; cases side <;> rfl
  cases hroot : b.sideRoot side with
  | none =>
    have heq : openPosition k c vc vp side s b = (b.setRoot (some (.leaf k s c vc vp)) side, s) := by
      simp [openPosition, hroot]
    refine ⟨.leaf k s c vc vp, ?_, hk, ?_, ?_, ?_⟩
    · rw [heq]
      exact hside _
    · have h0 : sideTotAgg b side = agg0 := by simp [sideTotAgg, hroot]
      rw [h0] at h1 h2 h3
      exact ⟨by simpa [agg0] using h1, by simpa [agg0] using h2, by simpa [agg0] using h3⟩
    · intro j; simp [keysOf, hroot]
    · have h0 : sideTotAgg b side = agg0 := by simp [sideTotAgg, hroot]
      rw [h0, aggE_agg0_left, sTot_leaf]
  | some t =>
    have hst : sideTotAgg b side = sTot t := by simp [sideTotAgg, hroot]
    rw [hst] at h1 h2 h3
    have hWt := hW t hroot
    have hAt := hA t hroot
    have heq : openPosition k c vc vp side s b
        = (b.setRoot (some (openPosAux k s c vc vp t).1) side, (openPosAux k s c vc vp t).2) := by
      simp [openPosition, hroot]
    refine ⟨(openPosAux k s c vc vp t).1, ?_, (open_WF hk s c vc vp t hWt).1,
      open_AggEx k s c vc vp t hAt h1 h2 h3, ?_, ?_⟩
    · rw [heq]
      exact hside _
    · intro j
      rw [(open_WF hk s c vc vp t hWt).2 j]
      constructor
      · rintro (hj | hj)
        · exact Or.inl ⟨t, rfl, hj⟩
        · exact Or.inr hj
      · rintro (⟨t', ht', hj⟩ | hj)
        · injection ht' with ht'
          rw [← ht'] at hj
          exact Or.inl hj
        · exact Or.inr hj
    · rw [open_sTot k s c vc vp t h1 h2 h3, hst]

/-- Folding a list of `open_position` calls from any starting book: the
addressed side keeps `WF`/`AggEx`, collects exactly the call keys, and its
total grows by the exact componentwise sum of the calls. -/
theorem foldOpens_aux (side : PositionType) :
    ∀ (calls : List OpenCall) (b : Book),
      (∀ q ∈ calls, q.k < M) →
      (∀ t, b.sideRoot side = some t → WF t) →
      (∀ t, b.sideRoot side = some t → AggEx t) →
      (sideTotAgg b side).c + (callsAgg (fun x => true) calls).c < M →
      (sideTotAgg b side).vc + (callsAgg (fun x => true) calls).vc < M →
      (sideTotAgg b side).vp + (callsAgg (fun x => true) calls).vp < M →
      (∀ t, ((calls.foldl (fun b q => (openPosition q.k q.c q.vc q.vp side q.s b).1)
          b).sideRoot side) = some t → WF t ∧ AggEx t) ∧
      (∀ j, (∃ t, ((calls.foldl (fun b q => (openPosition q.k q.c q.vc q.vp side q.s b).1)
            b).sideRoot side) = some t ∧ j ∈ keysOf t) ↔
          ((∃ t, b.sideRoot side = some t ∧ j ∈ keysOf t) ∨ j ∈ calls.map OpenCall.k)) ∧
      sideTotAgg (calls.foldl (fun b q => (openPosition q.k q.c q.vc q.vp side q.s b).1) b)
          side = aggE (sideTotAgg b side) (callsAgg (fun x => true) calls) := by
  intro calls
  induction calls with
  | nil =>
    intro b _ hW hA _ _ _
    refine ⟨fun t ht => ⟨hW t ht, hA t ht⟩, ?_, by simp [callsAgg, aggE_agg0_right]⟩
    intro j; simp
  | cons q rest ih =>
    intro b hk hW hA h1 h2 h3
    have ec : (callsAgg (fun x => true) (q :: rest)).c
        = q.c + (callsAgg (fun x => true) rest).c := rfl
    have evc : (callsAgg (fun x => true) (q :: rest)).vc
        = q.vc + (callsAgg (fun x => true) rest).vc := rfl
    have evp : (callsAgg (fun x => true) (q :: rest)).vp
        = q.vp + (callsAgg (fun x => true) rest).vp := rfl
    obtain ⟨u, hu, hWu, hAu, hkeys, hsum⟩ :=
      openPosition_root q.k q.c q.vc q.vp q.s side b (hk q (by simp))
        hW hA (by omega) (by omega) (by omega)
    have hstep : sideTotAgg ((openPosition q.k q.c q.vc q.vp side q.s b).1) side = sTot u := by
      simp [sideTotAgg, hu]
    have hsc : (sTot u).c = (sideTotAgg b side).c + q.c := congrArg Agg.c hsum
    have hsvc : (sTot u).vc = (sideTotAgg b side).vc + q.vc := congrArg Agg.vc hsum
    have hsvp : (sTot u).vp = (sideTotAgg b side).vp + q.vp := congrArg Agg.vp hsum
    obtain ⟨ihW, ihkeys, ihsum⟩ := ih ((openPosition q.k q.c q.vc q.vp side q.s b).1)
      (fun p hp => hk p (by simp [hp]))
      (fun t ht => by rw [hu] at ht; cases ht; exact hWu)
      (fun t ht => by rw [hu] at ht; cases ht; exact hAu)
      (by rw [hstep]; omega) (by rw [hstep]; omega) (by rw [hstep]; omega)
    rw [List.foldl_cons]
    refine ⟨ihW, ?_, ?_⟩
    · intro j
      rw [ihkeys j]
      constructor
      · rintro (⟨t, ht, hj⟩ | hj)
        · rw [hu] at ht; cases ht
          rcases (hkeys j).1 hj with hl | hr
          · exact Or.inl hl
          · exact Or.inr (by simp [hr])
        · exact Or.inr (by simp [hj])
      · rintro (hl | hj)
        · exact Or.inl ⟨u, hu, (hkeys j).2 (Or.inl hl)⟩
        · simp only [List.map_cons, List.mem_cons] at hj
          rcases hj with hj | hj
          · exact Or.inl ⟨u, hu, (hkeys j).2 (Or.inr hj)⟩
          · exact Or.inr hj
    · rw [ihsum, hstep]
      refine agg_ext ?_ ?_ ?_ <;> simp only [aggE] <;> omega

/-- C2 (conservation): after any sequence of `open_position` calls on an
initially empty side — each key a u64 value and the componentwise total of all
calls fitting in u64 — the side's root holds `(collateral, v_coin, v_pc)`
equal to the element-wise sum over all the call tuples, the set of leaf keys
is exactly the set of call keys, and each key appears in a single leaf. -/
theorem claim_C2 (calls : List OpenCall) (side : PositionType)
    (hk : ∀ q ∈ calls, q.k < M)
    (h1 : (callsAgg (fun x => true) calls).c < M)
    (h2 : (callsAgg (fun x => true) calls).vc < M)
    (h3 : (callsAgg (fun x => true) calls).vp < M) :
    rootAgg ((foldOpens calls side).sideRoot side) = callsAgg (fun x => true) calls ∧
    (∀ j, (∃ t, (foldOpens calls side).sideRoot side = some t ∧ j ∈ keysOf t) ↔
      j ∈ calls.map OpenCall.k) ∧
    (∀ t, (foldOpens calls side).sideRoot side = some t → (keysOf t).Nodup) := by
  have hnone : ((⟨none, none⟩ : Book).sideRoot side) = none := by cases side <;> rfl
  have h0 : sideTotAgg ⟨none, none⟩ side = agg0 := by simp [sideTotAgg, hnone]
  obtain ⟨hWA, hkeys, hsum⟩ := foldOpens_aux side calls ⟨none, none⟩ hk
    (fun t ht => by rw [hnone] at ht; cases ht)
    (fun t ht => by rw [hnone] at ht; cases ht)
    (by rw [h0]; simpa [agg0] using h1)
    (by rw [h0]; simpa [agg0] using h2)
    (by rw [h0]; simpa [agg0] using h3)
  rw [h0, aggE_agg0_left] at hsum
  have hfold : foldOpens calls side
      = calls.foldl (fun b q => (openPosition q.k q.c q.vc q.vp side q.s b).1) ⟨none, none⟩ :=
    rfl
  refine ⟨?_, ?_, ?_⟩
  · rw [hfold]
    cases hr : ((calls.foldl (fun b q => (openPosition q.k q.c q.vc q.vp side q.s b).1)
        ⟨none, none⟩).sideRoot side) with
    | none =>
      rw [← hsum]
      simp [rootAgg, sideTotAgg, hr]
    | some u =>
      have hu := hWA u hr
      rw [← hsum]
      simp only [rootAgg, sideTotAgg, hr]
      exact agg_eq_sTot hu.2
  · intro j
    rw [hfold, hkeys j]
    simp [hnone]
  · intro t ht
    rw [hfold] at ht
    exact WF_nodup (hWA t ht).1

theorem claim_C2_witness :
    rootAgg ((foldOpens [⟨5, 0, 10, 20, 30⟩, ⟨5, 1, 1, 2, 3⟩, ⟨9, 2, 100, 0, 0⟩]
        .Short).sideRoot .Short)
      = callsAgg (fun x => true) [⟨5, 0, 10, 20, 30⟩, ⟨5, 1, 1, 2, 3⟩, ⟨9, 2, 100, 0, 0⟩] :=
  (claim_C2 [⟨5, 0, 10, 20, 30⟩, ⟨5, 1, 1, 2, 3⟩, ⟨9, 2, 100, 0, 0⟩] .Short
    (by decide) (by decide) (by decide) (by decide)).1

/-! ## The close-position search walk (C6, C10) -/

theorem mem_keys_of_mem_leaves {t : PNode} {k s c vc vp : Nat}
    (h : (k, s, c, vc, vp) ∈ leavesOf t) : k ∈ keysOf t := by
  induction t with
  | leaf lk ls lc lvc lvp =>
    simp [leavesOf] at h
    simp [keysOf, h.1]
  | inner cb mn c0 vc0 vp0 l r ihl ihr =>
    simp only [leavesOf, List.mem_append] at h
    simp only [keysOf, List.mem_append]
    rcases h with h | h
    · exact Or.inl (ihl h)
    · exact Or.inr (ihr h)

/-- In a well-formed tree, the search walk of `close_position` finds every
leaf actually present: all range checks on the path to its key pass and the
direction bits lead to it. -/
theorem find_of_mem {k s c vc vp : Nat} :
    ∀ {t : PNode}, WF t → (k, s, c, vc, vp) ∈ leavesOf t →
      closeFind k s t = some (c, vc, vp) := by
  intro t
  induction t with
  | leaf lk ls lc lvc lvp =>
    intro _ hm
    simp only [leavesOf, List.mem_singleton, Prod.mk.injEq] at hm
    obtain ⟨h1, h2, h3, h4, h5⟩ := hm
    simp [closeFind, h1, h2, h3, h4, h5]
  | inner cb mn c0 vc0 vp0 l r ihl ihr =>
    intro hW hm
    obtain ⟨hcb, hmn, hmod, hkl, hkr, hwl, hwr⟩ := hW
    simp only [leavesOf, List.mem_append] at hm
    rcases hm with hm | hm
    · have hk := hkl k (mem_keys_of_mem_leaves hm)
      have hrange := (range_iff hcb hmod).mpr hk.1
      have hbit : k &&& (1 <<< cb) = 0 := (and_one_shift k cb).mpr hk.2
      have hnot : ¬ ((mn ||| lowMask cb) < k ∨ k < mn) := by omega
      simp [closeFind, hnot, hbit, ihl hwl hm]
    · have hk := hkr k (mem_keys_of_mem_leaves hm)
      have hrange := (range_iff hcb hmod).mpr hk.1
      have hbit : ¬ k &&& (1 <<< cb) = 0 := by
        rw [and_one_shift]; omega
      have hnot : ¬ ((mn ||| lowMask cb) < k ∨ k < mn) := by omega
      simp [closeFind, hnot, hbit, ihr hwr hm]

/-- The search walk fails exactly under the conditions the spec describes. -/
theorem closeFind_none_iff (k slot : Nat) :
    ∀ t : PNode, closeFind k slot t = none ↔ WalkFails k slot t := by
  intro t
  induction t with
  | leaf lk ls lc lvc lvp =>
    simp only [closeFind, WalkFails]
    by_cases h : lk = k ∧ ls = slot <;> simp [h]
  | inner cb mn c0 vc0 vp0 l r ihl ihr =>
    simp only [closeFind, WalkFails]
    by_cases hout : (mn ||| lowMask cb) < k ∨ k < mn
    · rw [if_pos hout]
      refine iff_of_true rfl ?_
      rcases hout with h | h
      · exact Or.inr (Or.inl h)
      · exact Or.inl h
    · rw [if_neg hout]
      by_cases hbit : k &&& (1 <<< cb) = 0
      · rw [if_pos hbit, ihl]
        constructor
        · intro h; exact Or.inr (Or.inr (Or.inl ⟨hbit, h⟩))
        · rintro (h | h | ⟨_, h⟩ | ⟨hb, _⟩)
          · exact absurd (Or.inr h) hout
          · exact absurd (Or.inl h) hout
          · exact h
          · exact absurd hbit hb
      · rw [if_neg hbit, ihr]
        constructor
        · intro h; exact Or.inr (Or.inr (Or.inr ⟨hbit, h⟩))
        · rintro (h | h | ⟨hb, _⟩ | ⟨_, h⟩)
          · exact absurd (Or.inr h) hout
          · exact absurd (Or.inl h) hout
          · exact absurd hb hbit
          · exact h

theorem setRoot_self {b : Book} {side : PositionType} {r : Option PNode}
    (h : b.sideRoot side = r) : b.setRoot r side = b := by
  cases b; cases side <;> simp_all [Book.sideRoot, Book.setRoot]

/-- C6: `close_position` returns `PositionNotFound` exactly when the side's
root is `None`, or the downward walk hits an inner node whose range excludes
the key, or the reached leaf's `(liquidation_index, slot_number)` differs; no
other error is returned and every failing call leaves the book unchanged. -/
theorem claim_C6 (k pc pvc pvp slot : Nat) (side : PositionType) (b : Book) :
    ((closePosition k pc pvc pvp side slot b).2 = some .PositionNotFound ↔
      (b.sideRoot side = none ∨ ∃ t, b.sideRoot side = some t ∧ WalkFails k slot t)) ∧
    (∀ e, (closePosition k pc pvc pvp side slot b).2 = some e →
      e = .PositionNotFound ∧ (closePosition k pc pvc pvp side slot b).1 = b) := by
  cases hr : b.sideRoot side with
  | none =>
    have heq : closePosition k pc pvc pvp side slot b = (b, some .PositionNotFound) := by
      simp [closePosition, closePosAux, hr]
    rw [heq]
    exact ⟨by simp, fun e he => by simp at he; simp [he]⟩
  | some t =>
    cases hf : closeFind k slot t with
    | none =>
      have heq : closePosition k pc pvc pvp side slot b = (b, some .PositionNotFound) := by
        simp [closePosition, closePosAux, hr, hf]
      rw [heq]
      exact ⟨iff_of_true rfl (Or.inr ⟨t, rfl, (closeFind_none_iff k slot t).mp hf⟩),
        fun e he => by simp at he; simp [he]⟩
    | some v =>
      obtain ⟨lc, lvc, lvp⟩ := v
      have hnf : ¬ WalkFails k slot t := fun hw =>
        by rw [← closeFind_none_iff] at hw; rw [hf] at hw; cases hw
      have h2 : (closePosition k pc pvc pvp side slot b).2 = none := by
        by_cases hp : pc = 0 ∧ pvc = 0 <;>
          simp [closePosition, closePosAux, hr, hf, hp]
      rw [h2]
      refine ⟨?_, fun e he => by cases he⟩
      refine iff_of_false (by simp) ?_
      rintro (h | ⟨t', ht', hw⟩)
      · cases h
      · injection ht' with ht'
        rw [← ht'] at hw
        exact hnf hw

/-- C10: a `close_position` call with zero `position_collateral` and zero
`position_v_coin` on a present `(liquidation_index, slot_number)` leaf is a
pure existence probe: it returns `Ok` and the book is unchanged. -/
theorem claim_C10 (k slot pvp : Nat) (side : PositionType) (b : Book) (t : PNode)
    (hW : WF t) (hr : b.sideRoot side = some t)
    (hm : ∃ c vc vp, (k, slot, c, vc, vp) ∈ leavesOf t) :
    (closePosition k 0 0 pvp side slot b).2 = none ∧
      (closePosition k 0 0 pvp side slot b).1 = b := by
  obtain ⟨c, vc, vp, hm⟩ := hm
  have hf : closeFind k slot t = some (c, vc, vp) := find_of_mem hW hm
  have heq : closePosition k 0 0 pvp side slot b = (b.setRoot (some t) side, none) := by
    simp [closePosition, closePosAux, hr, hf]
  rw [heq, setRoot_self hr]
  exact ⟨rfl, rfl⟩

theorem claim_C10_witness :
    (closePosition 5 0 0 7 .Short 3 ⟨some (.leaf 5 3 10 20 30), none⟩).2 = none ∧
      (closePosition 5 0 0 7 .Short 3 ⟨some (.leaf 5 3 10 20 30), none⟩).1
        = ⟨some (.leaf 5 3 10 20 30), none⟩ :=
  claim_C10 5 3 7 .Short ⟨some (.leaf 5 3 10 20 30), none⟩ (.leaf 5 3 10 20 30)
    (show (5:Nat) < M by decide) rfl ⟨10, 20, 30, by decide⟩

/-! ## The open/close round trip (C4) -/

/-- After `open_position` on a tree whose leaves all hold non-zero collateral
and u64 values, the opened leaf is present under the returned slot number, and
the mutation walk of a `close_position` with the identical amounts and that
slot restores the original tree exactly. -/
theorem open_mem_vals (k s c vc vp : Nat) :
    ∀ t : PNode, PosColl t → ValsLt t →
      ∃ lc lvc lvp,
        (k, (openPosAux k s c vc vp t).2, lc, lvc, lvp)
          ∈ leavesOf (openPosAux k s c vc vp t).1 ∧
        closeWrite k c vc vp (wsub lc c) (wsub lvc vc) (wsub lvp vp)
          (openPosAux k s c vc vp t).1 = some t := by
  intro t
  induction t with
  | leaf lk ls lc lvc lvp =>
    intro hP hV
    obtain ⟨hlc, hlvc, hlvp⟩ := hV
    by_cases he : lk = k
    · rw [open_leaf_merge he]
      refine ⟨wadd c lc, wadd vc lvc, wadd vp lvp, by simp [leavesOf, he], ?_⟩
      have e1 : wsub (wadd c lc) c = lc := by rw [wadd_comm]; exact wsub_wadd c hlc
      have e2 : wsub (wadd vc lvc) vc = lvc := by rw [wadd_comm]; exact wsub_wadd vc hlvc
      have e3 : wsub (wadd vp lvp) vp = lvp := by rw [wadd_comm]; exact wsub_wadd vp hlvp
      have hne : ¬ lc = 0 := by have := hP; simp only [PosColl] at this; omega
      rw [e1, e2, e3]
      simp [closeWrite, hne, he]
    · by_cases hd : k &&& (1 <<< findCritbit k lk) = 0
      · rw [open_leaf_split he hd]
        refine ⟨c, vc, vp, by simp [leavesOf], ?_⟩
        have e0 : wsub c c = 0 := by unfold wsub M; omega
        simp [closeWrite, hd, e0]
      · rw [open_leaf_split' he hd]
        refine ⟨c, vc, vp, by simp [leavesOf], ?_⟩
        have e0 : wsub c c = 0 := by unfold wsub M; omega
        simp [closeWrite, hd, e0]
  | inner cb mn c0 vc0 vp0 l r ihl ihr =>
    intro hP hV
    obtain ⟨hPl, hPr⟩ := hP
    obtain ⟨hc0, hvc0, hvp0, hVl, hVr⟩ := hV
    by_cases hout : (mn ||| lowMask cb) < k ∨ k < mn
    · by_cases hd : k &&& (1 <<< findCritbit k mn) = 0
      · rw [open_inner_split hout hd]
        refine ⟨c, vc, vp, by simp [leavesOf], ?_⟩
        have e0 : wsub c c = 0 := by unfold wsub M; omega
        simp [closeWrite, hd, e0]
      · rw [open_inner_split' hout hd]
        refine ⟨c, vc, vp, by simp [leavesOf], ?_⟩
        have e0 : wsub c c = 0 := by unfold wsub M; omega
        simp [closeWrite, hd, e0]
    · have e1 : wsub (wadd c0 c) c = c0 := wsub_wadd c hc0
      have e2 : wsub (wadd vc0 vc) vc = vc0 := wsub_wadd vc hvc0
      have e3 : wsub (wadd vp0 vp) vp = vp0 := wsub_wadd vp hvp0
      by_cases hd : k &&& (1 <<< cb) = 0
      · rw [open_inner_left hout hd]
        obtain ⟨lc, lvc, lvp, hmem, hwrite⟩ := ihl hPl hVl
        refine ⟨lc, lvc, lvp, by simp [leavesOf, hmem], ?_⟩
        simp [closeWrite, hd, hwrite, e1, e2, e3]
      · rw [open_inner_right hout hd]
        obtain ⟨lc, lvc, lvp, hmem, hwrite⟩ := ihr hPr hVr
        refine ⟨lc, lvc, lvp, by simp [leavesOf, hmem], ?_⟩
        simp [closeWrite, hd, hwrite, e1, e2, e3]

theorem setRoot_setRoot (b : Book) (r r' : Option PNode) (side : PositionType) :
    (b.setRoot r side).setRoot r' side = b.setRoot r' side := by
  cases b; cases side <;> simp [Book.setRoot]

/-- C4 (amended): on a side whose leaves all hold non-zero collateral and u64
values, a successful `open_position` followed by `close_position` with the
identical key and amounts — not both `collateral` and `v_coin` zero — and the
returned slot number succeeds and restores the book exactly (so the side's
root returns to `None` when the opened leaf was the only entry). -/
theorem claim_C4 (k s c vc vp : Nat) (side : PositionType) (b : Book)
    (hk : k < M) (hnz : ¬ (c = 0 ∧ vc = 0))
    (hW : ∀ t, b.sideRoot side = some t → WF t)
    (hP : ∀ t, b.sideRoot side = some t → PosColl t)
    (hV : ∀ t, b.sideRoot side = some t → ValsLt t) :
    (closePosition k c vc vp side (openPosition k c vc vp side s b).2
      (openPosition k c vc vp side s b).1).2 = none ∧
    (closePosition k c vc vp side (openPosition k c vc vp side s b).2
      (openPosition k c vc vp side s b).1).1 = b := by
  have hside : ∀ (b' : Book) r, ((b'.setRoot r side).sideRoot side) = r := by
    intro b' r; cases side <;> rfl
  cases hr : b.sideRoot side with
  | none =>
    have ho : openPosition k c vc vp side s b = (b.setRoot (some (.leaf k s c vc vp)) side, s) := by
      simp [openPosition, hr]
    rw [ho]
    have hf : closeFind k s (.leaf k s c vc vp) = some (c, vc, vp) := by simp [closeFind]
    have e0 : wsub c c = 0 := by unfold wsub M; omega
    have hcw : closeWrite k c vc vp (wsub c c) (wsub vc vc) (wsub vp vp)
        (.leaf k s c vc vp) = none := by simp [closeWrite, e0]
    have hclose : closePosition k c vc vp side s (b.setRoot (some (.leaf k s c vc vp)) side)
        = ((b.setRoot (some (.leaf k s c vc vp)) side).setRoot none side, none) := by
      simp [closePosition, closePosAux, hside, hf, hnz, hcw]
    rw [hclose, setRoot_setRoot]
    exact ⟨rfl, setRoot_self hr⟩
  | some t =>
    have ho : openPosition k c vc vp side s b
        = (b.setRoot (some (openPosAux k s c vc vp t).1) side, (openPosAux k s c vc vp t).2) := by
      simp [openPosition, hr]
    rw [ho]
    obtain ⟨lc, lvc, lvp, hmem, hwrite⟩ := open_mem_vals k s c vc vp t (hP t hr) (hV t hr)
    have hWt' : WF (openPosAux k s c vc vp t).1 := (open_WF hk s c vc vp t (hW t hr)).1
    have hf := find_of_mem hWt' hmem
    have hclose : closePosition k c vc vp side (openPosAux k s c vc vp t).2
        (b.setRoot (some (openPosAux k s c vc vp t).1) side)
        = ((b.setRoot (some (openPosAux k s c vc vp t).1) side).setRoot (some t) side, none) := by
      simp [closePosition, closePosAux, hside, hf, hnz, hwrite]
    rw [hclose, setRoot_setRoot]
    exact ⟨rfl, setRoot_self hr⟩

theorem claim_C4_witness :
    (closePosition 5 4 6 7 .Short (openPosition 5 4 6 7 .Short 3 ⟨some (.leaf 9 0 5 6 7), none⟩).2
      (openPosition 5 4 6 7 .Short 3 ⟨some (.leaf 9 0 5 6 7), none⟩).1).2 = none ∧
    (closePosition 5 4 6 7 .Short (openPosition 5 4 6 7 .Short 3 ⟨some (.leaf 9 0 5 6 7), none⟩).2
      (openPosition 5 4 6 7 .Short 3 ⟨some (.leaf 9 0 5 6 7), none⟩).1).1
      = ⟨some (.leaf 9 0 5 6 7), none⟩ :=
  claim_C4 5 3 4 6 7 .Short ⟨some (.leaf 9 0 5 6 7), none⟩ (by decide) (by decide)
    (fun t ht => by cases ht; exact (show (9:Nat) < M by decide))
    (fun t ht => by cases ht; exact (show (1:Nat) ≤ 5 by decide))
    (fun t ht => by cases ht; exact ⟨by decide, by decide, by decide⟩)

/-- The original C10/C4-adjacent probe behaviour refutes the unconditional
round trip: opening a position with zero collateral and zero `v_coin` and
closing it with the identical amounts is treated as the existence probe, so
the side's root does NOT return to `None`. -/
theorem claim_C4_counterexample :
    (closePosition 5 0 0 1 .Short (openPosition 5 0 0 1 .Short 3 ⟨none, none⟩).2
      (openPosition 5 0 0 1 .Short 3 ⟨none, none⟩).1).2 = none ∧
    ¬ (closePosition 5 0 0 1 .Short (openPosition 5 0 0 1 .Short 3 ⟨none, none⟩).2
      (openPosition 5 0 0 1 .Short 3 ⟨none, none⟩).1).1 = (⟨none, none⟩ : Book) := by
  constructor
  · rfl
  · decide

/-! ## Liquidation: the walks compute the keep-side prune (C3) -/

theorem sTot_c_pos {t : PNode} (hP : PosColl t) : 1 ≤ (sTot t).c := by
  induction t with
  | leaf k s c vc vp => simpa [sTot_leaf] using hP
  | inner cb mn c vc vp l r ihl ihr =>
    have h := ihl hP.1
    have : (sTot (.inner cb mn c vc vp l r)).c = (sTot l).c + (sTot r).c := rfl
    omega

theorem sBy_c_zero {f : Nat → Bool} {t : PNode} (hP : PosColl t)
    (h : (sBy f t).c = 0) : ∀ j ∈ keysOf t, f j = false := by
  induction t with
  | leaf k s c vc vp =>
    intro j hj
    simp only [keysOf, List.mem_singleton] at hj
    subst hj
    by_cases hf : f j
    · exfalso
      have hc0 : c = 0 := by simpa [sBy, hf] using h
      have hc1 : (1:Nat) ≤ c := hP
      omega
    · simpa using hf
  | inner cb mn c vc vp l r ihl ihr =>
    intro j hj
    have hc : (sBy f (.inner cb mn c vc vp l r)).c = (sBy f l).c + (sBy f r).c := rfl
    simp only [keysOf, List.mem_append] at hj
    rcases hj with hj | hj
    · exact ihl hP.1 (by omega) j hj
    · exact ihr hP.2 (by omega) j hj

/-- In a well-formed tree, an inner child of an inner node carries a strictly
smaller critbit than any bound `cb` for which all the child's keys share the
prefix above `cb` and the bit at `cb`. -/
theorem child_cb_lt {cb d : Nat} {cb' mn' c' vc' vp' : Nat} {l' r' : PNode}
    (hW : WF (.inner cb' mn' c' vc' vp' l' r'))
    (hpre : ∀ j1 ∈ keysOf (.inner cb' mn' c' vc' vp' l' r'),
      ∀ j2 ∈ keysOf (.inner cb' mn' c' vc' vp' l' r'),
        j1 / 2 ^ (cb + 1) = j2 / 2 ^ (cb + 1))
    (hbit : ∀ j ∈ keysOf (.inner cb' mn' c' vc' vp' l' r'), j / 2 ^ cb % 2 = d) :
    cb' < cb := by
  obtain ⟨hcb', hmn', hmod', hkl', hkr', hwl', hwr'⟩ := hW
  obtain ⟨jl, hjl⟩ := List.exists_mem_of_ne_nil _ (keys_ne_nil l')
  obtain ⟨jr, hjr⟩ := List.exists_mem_of_ne_nil _ (keys_ne_nil r')
  have hjl' : jl ∈ keysOf (.inner cb' mn' c' vc' vp' l' r') := by
    simp [keysOf, hjl]
  have hjr' : jr ∈ keysOf (.inner cb' mn' c' vc' vp' l' r') := by
    simp [keysOf, hjr]
  have hb0 : jl / 2 ^ cb' % 2 = 0 := (hkl' jl hjl).2
  have hb1 : jr / 2 ^ cb' % 2 = 1 := (hkr' jr hjr).2
  by_contra hge
  push_neg at hge
  rcases Nat.lt_or_ge cb' (cb + 1) with hlt | hle
  · have : cb' = cb := by omega
    subst this
    have h0 := hbit jl hjl'
    have h1 := hbit jr hjr'
    omega
  · have hpref := hpre jl hjl' jr hjr'
    have := div_agree_above hle hpref
    omega

theorem ph1_out_full {T mn cb : Nat} {b : Bool} (hout : (mn ||| lowMask cb) < T ∨ T < mn)
    (hfull : (b ^^ decide (T < mn)) = true) (c vc vp : Nat) (l r : PNode) (acc : Agg) :
    ph1 T b (.inner cb mn c vc vp l r) acc = .innerFull cb (aggW acc ⟨c, vc, vp⟩) := by
  simp [ph1, hout, hfull]

theorem ph1_out_keep {T mn cb : Nat} {b : Bool} (hout : (mn ||| lowMask cb) < T ∨ T < mn)
    (hfull : ¬ (b ^^ decide (T < mn)) = true) (c vc vp : Nat) (l r : PNode) (acc : Agg) :
    ph1 T b (.inner cb mn c vc vp l r) acc = .innerKeep acc := by
  simp only [ph1]
  rw [if_pos hout, if_neg hfull]

theorem ph1_in_left {T mn cb : Nat} {b : Bool} (hin : ¬ ((mn ||| lowMask cb) < T ∨ T < mn))
    (hd : T &&& (1 <<< cb) = 0) (c vc vp : Nat) (l r : PNode) (acc : Agg) :
    ph1 T b (.inner cb mn c vc vp l r) acc
      = ph1 T b l (if b then acc else aggW acc r.agg) := by
  simp [ph1, hin, hd]

theorem ph1_in_right {T mn cb : Nat} {b : Bool} (hin : ¬ ((mn ||| lowMask cb) < T ∨ T < mn))
    (hd : ¬ T &&& (1 <<< cb) = 0) (c vc vp : Nat) (l r : PNode) (acc : Agg) :
    ph1 T b (.inner cb mn c vc vp l r) acc
      = ph1 T b r (if b then aggW acc l.agg else acc) := by
  simp [ph1, hin, hd]

theorem ph1_leaf (T lk ls lc lvc lvp : Nat) (b : Bool) (acc : Agg) :
    ph1 T b (.leaf lk ls lc lvc lvp) acc
      = .leafEnd (if losesAt T b lk then aggW acc ⟨lc, lvc, lvp⟩ else acc) := by
  by_cases hl : losesAt T b lk
  · have hl' : ((decide (T < lk) ^^ b) || decide (T = lk)) = true := hl
    simp [ph1, hl', hl]
  · have hl' : ¬ ((decide (T < lk) ^^ b) || decide (T = lk)) = true := hl
    simp [ph1, hl', hl]

theorem lw_leaf (T lk ls lc lvc lvp : Nat) (b : Bool) (a : Agg) :
    lw T b (.leaf lk ls lc lvc lvp) a
      = if a.c ≠ 0 then none else some (.leaf lk ls lc lvc lvp) := rfl

theorem lw_left_short {T cb : Nat} (hd : T &&& (1 <<< cb) = 0) (mn c vc vp : Nat)
    (l r : PNode) (a : Agg) :
    lw T true (.inner cb mn c vc vp l r) a
      = match lw T true l a with
        | none => some r
        | some l' =>
          some (.inner cb mn (wsub c a.c) (wsub vc a.vc) (wsub vp a.vp) l' r) := by
  simp [lw, hd]

theorem lw_left_long {T cb : Nat} (hd : T &&& (1 <<< cb) = 0) (mn c vc vp : Nat)
    (l r : PNode) (a : Agg) :
    lw T false (.inner cb mn c vc vp l r) a = lw T false l (aggWsub a r.agg) := by
  simp [lw, hd]

theorem lw_right_short {T cb : Nat} (hd : ¬ T &&& (1 <<< cb) = 0) (mn c vc vp : Nat)
    (l r : PNode) (a : Agg) :
    lw T true (.inner cb mn c vc vp l r) a = lw T true r (aggWsub a l.agg) := by
  simp [lw, hd]

theorem lw_right_long {T cb : Nat} (hd : ¬ T &&& (1 <<< cb) = 0) (mn c vc vp : Nat)
    (l r : PNode) (a : Agg) :
    lw T false (.inner cb mn c vc vp l r) a
      = match lw T false r a with
        | none => some l
        | some r' =>
          some (.inner cb mn (wsub c a.c) (wsub vc a.vc) (wsub vp a.vp) l r') := by
  simp [lw, hd]

theorem cw_stop {cb lcb : Nat} (h : cb = lcb) (T mn c vc vp : Nat) (b : Bool)
    (l r : PNode) (a : Agg) :
    cw T b lcb (.inner cb mn c vc vp l r) a = some none := by
  simp [cw, h]

theorem cw_left_short {T cb lcb : Nat} (hne : ¬ cb = lcb) (hd : T &&& (1 <<< cb) = 0)
    (mn c vc vp : Nat) (l r : PNode) (a : Agg) :
    cw T true lcb (.inner cb mn c vc vp l r) a
      = match cw T true lcb l a with
        | none => none
        | some none => some (some r)
        | some (some l') =>
          some (some (.inner cb mn (wsub c a.c) (wsub vc a.vc) (wsub vp a.vp) l' r)) := by
  simp [cw, hne, hd]

theorem cw_left_long {T cb lcb : Nat} (hne : ¬ cb = lcb) (hd : T &&& (1 <<< cb) = 0)
    (mn c vc vp : Nat) (l r : PNode) (a : Agg) :
    cw T false lcb (.inner cb mn c vc vp l r) a = cw T false lcb l (aggWsub a r.agg) := by
  simp [cw, hne, hd]

theorem cw_right_short {T cb lcb : Nat} (hne : ¬ cb = lcb) (hd : ¬ T &&& (1 <<< cb) = 0)
    (mn c vc vp : Nat) (l r : PNode) (a : Agg) :
    cw T true lcb (.inner cb mn c vc vp l r) a = cw T true lcb r (aggWsub a l.agg) := by
  simp [cw, hne, hd]

theorem cw_right_long {T cb lcb : Nat} (hne : ¬ cb = lcb) (hd : ¬ T &&& (1 <<< cb) = 0)
    (mn c vc vp : Nat) (l r : PNode) (a : Agg) :
    cw T false lcb (.inner cb mn c vc vp l r) a
      = match cw T false lcb r a with
        | none => none
        | some none => some (some l)
        | some (some r') =>
          some (some (.inner cb mn (wsub c a.c) (wsub vc a.vc) (wsub vp a.vp) l r')) := by
  simp [cw, hne, hd]

theorem bw_zero {a : Agg} (h : a.c = 0) (T mn cb c vc vp : Nat) (b : Bool) (l r : PNode) :
    bw T b (.inner cb mn c vc vp l r) a = some (.inner cb mn c vc vp l r) := by
  simp [bw, h]

theorem bw_left_short {T cb c vc vp : Nat} {a : Agg} (hnz : ¬ a.c = 0)
    (hc : a.c ≤ c) (hvc : a.vc ≤ vc) (hvp : a.vp ≤ vp)
    (hd : T &&& (1 <<< cb) = 0) (mn : Nat) (l r : PNode) :
    bw T true (.inner cb mn c vc vp l r) a
      = match bw T true l a with
        | none => none
        | some l' => some (.inner cb mn (c - a.c) (vc - a.vc) (vp - a.vp) l' r) := by
  simp [bw, hnz, csub_of_le hc, csub_of_le hvc, csub_of_le hvp, hd]

theorem bw_left_long {T cb c vc vp : Nat} {a : Agg} (hnz : ¬ a.c = 0)
    (hc : a.c ≤ c) (hvc : a.vc ≤ vc) (hvp : a.vp ≤ vp)
    (hd : T &&& (1 <<< cb) = 0) (mn : Nat) (l r : PNode) :
    bw T false (.inner cb mn c vc vp l r) a = bw T false l (aggWsub a r.agg) := by
  simp [bw, hnz, csub_of_le hc, csub_of_le hvc, csub_of_le hvp, hd]

theorem bw_right_short {T cb c vc vp : Nat} {a : Agg} (hnz : ¬ a.c = 0)
    (hc : a.c ≤ c) (hvc : a.vc ≤ vc) (hvp : a.vp ≤ vp)
    (hd : ¬ T &&& (1 <<< cb) = 0) (mn : Nat) (l r : PNode) :
    bw T true (.inner cb mn c vc vp l r) a = bw T true r (aggWsub a l.agg) := by
  simp [bw, hnz, csub_of_le hc, csub_of_le hvc, csub_of_le hvp, hd]

theorem bw_right_long {T cb c vc vp : Nat} {a : Agg} (hnz : ¬ a.c = 0)
    (hc : a.c ≤ c) (hvc : a.vc ≤ vc) (hvp : a.vp ≤ vp)
    (hd : ¬ T &&& (1 <<< cb) = 0) (mn : Nat) (l r : PNode) :
    bw T false (.inner cb mn c vc vp l r) a
      = match bw T false r a with
        | none => none
        | some r' => some (.inner cb mn (c - a.c) (vc - a.vc) (vp - a.vp) l r') := by
  simp [bw, hnz, csub_of_le hc, csub_of_le hvc, csub_of_le hvp, hd]

/-- The three walks of `liquidate` compute exactly the keep-side prune: the
accumulation phase returns the losing totals of the subtree, and each of the
three excision walks, run with those totals, produces `pruneF`. -/
theorem liq_walks (T : Nat) (b : Bool) :
    ∀ u : PNode, WF u → AggEx u → PosColl u →
      ∀ acc : Agg,
      acc.c + (sTot u).c < M → acc.vc + (sTot u).vc < M → acc.vp + (sTot u).vp < M →
      (∀ accR, ph1 T b u acc = .leafEnd accR →
         accR = aggE acc (sLose T b u) ∧
         lw T b u (sLose T b u) = pruneF T b u) ∧
      (∀ lcb accR, ph1 T b u acc = .innerFull lcb accR →
         accR = aggE acc (sLose T b u) ∧
         (∀ cb2 mn2 c2 vc2 vp2 l2 r2, u = .inner cb2 mn2 c2 vc2 vp2 l2 r2 → lcb ≤ cb2) ∧
         cw T b lcb u (sLose T b u) = some (pruneF T b u)) ∧
      (∀ accR, ph1 T b u acc = .innerKeep accR →
         accR = aggE acc (sLose T b u) ∧
         ∃ u', pruneF T b u = some u' ∧ bw T b u (sLose T b u) = some u') := by
  intro u
  induction u with
  | leaf lk ls lc lvc lvp =>
    intro hW hA hP acc h1 h2 h3
    have h1' : acc.c + lc < M := h1
    have h2' : acc.vc + lvc < M := h2
    have h3' : acc.vp + lvp < M := h3
    have hPc : (1:Nat) ≤ lc := hP
    refine ⟨?_, ?_, ?_⟩
    · intro accR hph
      rw [ph1_leaf] at hph
      injection hph with he
      by_cases hl : losesAt T b lk
      · rw [if_pos hl] at he
        have hsl : sLose T b (.leaf lk ls lc lvc lvp) = ⟨lc, lvc, lvp⟩ := by
          show (if losesAt T b lk then (⟨lc, lvc, lvp⟩ : Agg) else agg0) = _
          rw [if_pos hl]
        constructor
        · rw [← he, hsl]
          refine agg_ext ?_ ?_ ?_
          · show wadd acc.c lc = acc.c + lc
            exact wadd_eq (by omega)
          · show wadd acc.vc lvc = acc.vc + lvc
            exact wadd_eq (by omega)
          · show wadd acc.vp lvp = acc.vp + lvp
            exact wadd_eq (by omega)
        · rw [hsl, lw_leaf]
          have : pruneF T b (.leaf lk ls lc lvc lvp) = none := by
            simp [pruneF, hl]
          rw [this, if_pos ?_]
          show ¬ lc = 0
          omega
      · rw [if_neg hl] at he
        have hsl : sLose T b (.leaf lk ls lc lvc lvp) = agg0 := by
          show (if losesAt T b lk then (⟨lc, lvc, lvp⟩ : Agg) else agg0) = _
          rw [if_neg hl]
        constructor
        · rw [← he, hsl, aggE_agg0_right]
        · rw [hsl, lw_leaf]
          have : pruneF T b (.leaf lk ls lc lvc lvp) = some (.leaf lk ls lc lvc lvp) := by
            simp [pruneF, hl]
          rw [this, if_neg ?_]
          show ¬ ¬ (agg0.c = 0)
          simp [agg0]
    · intro lcb accR hph
      rw [ph1_leaf] at hph
      cases hph
    · intro accR hph
      rw [ph1_leaf] at hph
      cases hph
  | inner cb mn c0 vc0 vp0 l r ihl ihr =>
    intro hW hA hP acc h1 h2 h3
    have hA' : AggEx (.inner cb mn c0 vc0 vp0 l r) := hA
    have hP' : PosColl (.inner cb mn c0 vc0 vp0 l r) := hP
    obtain ⟨hcb, hmn, hmod, hkl, hkr, hwl, hwr⟩ := hW
    obtain ⟨hac, havc, havp, hAl, hAr⟩ := hA
    obtain ⟨hPl, hPr⟩ := hP
    have h1' : acc.c + ((sTot l).c + (sTot r).c) < M := h1
    have h2' : acc.vc + ((sTot l).vc + (sTot r).vc) < M := h2
    have h3' : acc.vp + ((sTot l).vp + (sTot r).vp) < M := h3
    have hslu : sLose T b (.inner cb mn c0 vc0 vp0 l r)
        = aggE (sLose T b l) (sLose T b r) := rfl
    have hcl := sBy_c_le (losesAt T b) l
    have hvcl := sBy_vc_le (losesAt T b) l
    have hvpl := sBy_vp_le (losesAt T b) l
    have hcr := sBy_c_le (losesAt T b) r
    have hvcr := sBy_vc_le (losesAt T b) r
    have hvpr := sBy_vp_le (losesAt T b) r
    have hkcl : (sKeep T b l).c + (sLose T b l).c = (sTot l).c := by
      have := congrArg Agg.c (sLose_add_sKeep T b l)
      have h' : (sLose T b l).c + (sKeep T b l).c = (sTot l).c := this
      omega
    have hkvcl : (sKeep T b l).vc + (sLose T b l).vc = (sTot l).vc := by
      have h' : (sLose T b l).vc + (sKeep T b l).vc = (sTot l).vc :=
        congrArg Agg.vc (sLose_add_sKeep T b l)
      omega
    have hkvpl : (sKeep T b l).vp + (sLose T b l).vp = (sTot l).vp := by
      have h' : (sLose T b l).vp + (sKeep T b l).vp = (sTot l).vp :=
        congrArg Agg.vp (sLose_add_sKeep T b l)
      omega
    have hkcr : (sKeep T b r).c + (sLose T b r).c = (sTot r).c := by
      have h' : (sLose T b r).c + (sKeep T b r).c = (sTot r).c :=
        congrArg Agg.c (sLose_add_sKeep T b r)
      omega
    have hkvcr : (sKeep T b r).vc + (sLose T b r).vc = (sTot r).vc := by
      have h' : (sLose T b r).vc + (sKeep T b r).vc = (sTot r).vc :=
        congrArg Agg.vc (sLose_add_sKeep T b r)
      omega
    have hkvpr : (sKeep T b r).vp + (sLose T b r).vp = (sTot r).vp := by
      have h' : (sLose T b r).vp + (sKeep T b r).vp = (sTot r).vp :=
        congrArg Agg.vp (sLose_add_sKeep T b r)
      omega
    by_cases hout : (mn ||| lowMask cb) < T ∨ T < mn
    · have hkeyrange : ∀ j ∈ keysOf (.inner cb mn c0 vc0 vp0 l r),
          mn ≤ j ∧ j ≤ mn ||| lowMask cb := by
        intro j hj
        have hpre : j / 2 ^ (cb + 1) = mn / 2 ^ (cb + 1) := by
          simp only [keysOf, List.mem_append] at hj
          rcases hj with hj | hj
          · exact (hkl j hj).1
          · exact (hkr j hj).1
        exact key_le_max hcb hmod hpre
      by_cases hfull : (b ^^ decide (T < mn)) = true
      · have hall : ∀ j ∈ keysOf (.inner cb mn c0 vc0 vp0 l r),
            losesAt T b j = true := by
          intro j hj
          obtain ⟨hj1, hj2⟩ := hkeyrange j hj
          cases b
          · have hTmn : T < mn := by simpa using hfull
            rw [losesAt_long]
            simp only [decide_eq_true_eq]
            omega
          · have hmnT : ¬ T < mn := by simpa using hfull
            have hmax : (mn ||| lowMask cb) < T := by
              rcases hout with h | h
              · exact h
              · omega
            rw [losesAt_short]
            simp only [decide_eq_true_eq]
            omega
        have hsl : sLose T b (.inner cb mn c0 vc0 vp0 l r)
            = sTot (.inner cb mn c0 vc0 vp0 l r) := sBy_all_true hall
        have hpr : pruneF T b (.inner cb mn c0 vc0 vp0 l r) = none := prune_allLose hall
        have hpe := ph1_out_full hout hfull c0 vc0 vp0 l r acc
        have hval : aggW acc ⟨c0, vc0, vp0⟩
            = aggE acc (sTot (.inner cb mn c0 vc0 vp0 l r)) := by
          refine agg_ext ?_ ?_ ?_
          · show wadd acc.c c0 = acc.c + ((sTot l).c + (sTot r).c)
            rw [wadd_eq (by omega)]
            omega
          · show wadd acc.vc vc0 = acc.vc + ((sTot l).vc + (sTot r).vc)
            rw [wadd_eq (by omega)]
            omega
          · show wadd acc.vp vp0 = acc.vp + ((sTot l).vp + (sTot r).vp)
            rw [wadd_eq (by omega)]
            omega
        refine ⟨?_, ?_, ?_⟩
        · intro accR hph
          rw [hpe] at hph
          cases hph
        · intro lcb accR hph
          rw [hpe] at hph
          injection hph with e1 e2
          refine ⟨?_, ?_, ?_⟩
          · rw [← e2, hval, hsl]
          · intro cb2 mn2 c2 vc2 vp2 l2 r2 heq
            injection heq with q1 q2 q3 q4 q5 q6 q7
            omega
          · rw [cw_stop e1, hpr]
        · intro accR hph
          rw [hpe] at hph
          cases hph
      · have hall : ∀ j ∈ keysOf (.inner cb mn c0 vc0 vp0 l r),
            losesAt T b j = false := by
          intro j hj
          obtain ⟨hj1, hj2⟩ := hkeyrange j hj
          cases b
          · have hmnT : ¬ T < mn := by simpa using hfull
            have hmax : (mn ||| lowMask cb) < T := by
              rcases hout with h | h
              · exact h
              · omega
            rw [losesAt_long]
            simp only [decide_eq_false_iff_not]
            omega
          · have hTmn : T < mn := by simpa using hfull
            rw [losesAt_short]
            simp only [decide_eq_false_iff_not]
            omega
        have hsl : sLose T b (.inner cb mn c0 vc0 vp0 l r) = agg0 := sBy_all_false hall
        have hpr : pruneF T b (.inner cb mn c0 vc0 vp0 l r)
            = some (.inner cb mn c0 vc0 vp0 l r) := prune_allKeep hA' hall
        have hpe := ph1_out_keep hout hfull c0 vc0 vp0 l r acc
        refine ⟨?_, ?_, ?_⟩
        · intro accR hph
          rw [hpe] at hph
          cases hph
        · intro lcb accR hph
          rw [hpe] at hph
          cases hph
        · intro accR hph
          rw [hpe] at hph
          injection hph with he
          refine ⟨by rw [← he, hsl, aggE_agg0_right], .inner cb mn c0 vc0 vp0 l r, hpr, ?_⟩
          rw [hsl]
          exact bw_zero rfl T mn cb c0 vc0 vp0 b l r
    · have hTin : mn ≤ T ∧ T ≤ mn ||| lowMask cb := by omega
      have hrangeT : T / 2 ^ (cb + 1) = mn / 2 ^ (cb + 1) := (range_iff hcb hmod).mp hTin
      by_cases hd : T &&& (1 <<< cb) = 0
      · -- descend left: right keys are strictly greater than T
        have hTbit : T / 2 ^ cb % 2 = 0 := (and_one_shift T cb).mp hd
        have hrgt : ∀ j ∈ keysOf r, T < j := by
          intro j hj
          exact key_lt_of_bit (hrangeT.trans (hkr j hj).1.symm) hTbit (hkr j hj).2
        cases b
        · -- longs, descend left: the right sibling is entirely losing
          have hallr : ∀ j ∈ keysOf r, losesAt T false j = true := by
            intro j hj
            rw [losesAt_long]
            simp only [decide_eq_true_eq]
            exact Nat.le_of_lt (hrgt j hj)
          have hslr : sLose T false r = sTot r := sBy_all_true hallr
          have hprr : pruneF T false r = none := prune_allLose hallr
          have hragg : PNode.agg r = sTot r := agg_eq_sTot hAr
          have hacc' : aggW acc r.agg = aggE acc (sTot r) := by
            rw [hragg]
            refine agg_ext ?_ ?_ ?_
            · show wadd acc.c (sTot r).c = acc.c + (sTot r).c
              exact wadd_eq (by omega)
            · show wadd acc.vc (sTot r).vc = acc.vc + (sTot r).vc
              exact wadd_eq (by omega)
            · show wadd acc.vp (sTot r).vp = acc.vp + (sTot r).vp
              exact wadd_eq (by omega)
          have hpe : ph1 T false (.inner cb mn c0 vc0 vp0 l r) acc
              = ph1 T false l (aggE acc (sTot r)) := by
            rw [ph1_in_left hout hd, hacc']
            rfl
          obtain ⟨ihl1, ihl2, ihl3⟩ := ihl hwl hAl hPl (aggE acc (sTot r))
            (by show acc.c + (sTot r).c + (sTot l).c < M; omega)
            (by show acc.vc + (sTot r).vc + (sTot l).vc < M; omega)
            (by show acc.vp + (sTot r).vp + (sTot l).vp < M; omega)
          have hslu' : sLose T false (.inner cb mn c0 vc0 vp0 l r)
              = aggE (sLose T false l) (sTot r) := by
            rw [hslu, hslr]
          have hsubr : aggWsub (aggE (sLose T false l) (sTot r)) r.agg
              = sLose T false l := by
            rw [hragg]
            refine agg_ext ?_ ?_ ?_
            · show wsub ((sLose T false l).c + (sTot r).c) (sTot r).c = (sLose T false l).c
              rw [wsub_eq (by omega) (by omega)]
              omega
            · show wsub ((sLose T false l).vc + (sTot r).vc) (sTot r).vc
                = (sLose T false l).vc
              rw [wsub_eq (by omega) (by omega)]
              omega
            · show wsub ((sLose T false l).vp + (sTot r).vp) (sTot r).vp
                = (sLose T false l).vp
              rw [wsub_eq (by omega) (by omega)]
              omega
          have hpru : pruneF T false (.inner cb mn c0 vc0 vp0 l r) = pruneF T false l := by
            cases hpl : pruneF T false l <;> simp [pruneF, hpl, hprr]
          have haccR : ∀ accR : Agg,
              accR = aggE (aggE acc (sTot r)) (sLose T false l) →
              accR = aggE acc (sLose T false (.inner cb mn c0 vc0 vp0 l r)) := by
            intro accR hv
            rw [hv, hslu']
            refine agg_ext ?_ ?_ ?_
            · show acc.c + (sTot r).c + (sLose T false l).c
                = acc.c + ((sLose T false l).c + (sTot r).c)
              omega
            · show acc.vc + (sTot r).vc + (sLose T false l).vc
                = acc.vc + ((sLose T false l).vc + (sTot r).vc)
              omega
            · show acc.vp + (sTot r).vp + (sLose T false l).vp
                = acc.vp + ((sLose T false l).vp + (sTot r).vp)
              omega
          refine ⟨?_, ?_, ?_⟩
          · intro accR hph
            rw [hpe] at hph
            obtain ⟨hv, hlw⟩ := ihl1 accR hph
            refine ⟨haccR accR hv, ?_⟩
            rw [hslu', lw_left_long hd, hsubr, hlw, hpru]
          · intro lcb accR hph
            rw [hpe] at hph
            obtain ⟨hv, hins, hcw⟩ := ihl2 lcb accR hph
            have hlcb : lcb < cb := by
              cases l with
              | leaf lk2 ls2 lc2 lvc2 lvp2 =>
                rw [ph1_leaf] at hph
                cases hph
              | inner cbl mnl cl vcl vpl ll rl =>
                have hle : lcb ≤ cbl := hins cbl mnl cl vcl vpl ll rl rfl
                have hlt : cbl < cb := by
                  refine @child_cb_lt cb 0 cbl mnl cl vcl vpl ll rl hwl ?_ ?_
                  · intro j1 hj1 j2 hj2
                    rw [(hkl j1 hj1).1, (hkl j2 hj2).1]
                  · intro j hj
                    exact (hkl j hj).2
                omega
            refine ⟨haccR accR hv, ?_, ?_⟩
            · intro cb2 mn2 c2 vc2 vp2 l2 r2 heq
              injection heq with q1 q2 q3 q4 q5 q6 q7
              omega
            · rw [hslu', cw_left_long (by omega) hd, hsubr, hcw, hpru]
          · intro accR hph
            rw [hpe] at hph
            obtain ⟨hv, u', hpl', hbw⟩ := ihl3 accR hph
            refine ⟨haccR accR hv, u', by rw [hpru]; exact hpl', ?_⟩
            rw [hslu']
            have hnz : ¬ (aggE (sLose T false l) (sTot r)).c = 0 := by
              show ¬ ((sLose T false l).c + (sTot r).c = 0)
              have := sTot_c_pos hPr
              omega
            rw [bw_left_long hnz ?_ ?_ ?_ hd, hsubr, hbw]
            · show (sLose T false l).c + (sTot r).c ≤ c0
              omega
            · show (sLose T false l).vc + (sTot r).vc ≤ vc0
              omega
            · show (sLose T false l).vp + (sTot r).vp ≤ vp0
              omega
        · -- shorts, descend left: the right sibling is entirely kept
          have hallr : ∀ j ∈ keysOf r, losesAt T true j = false := by
            intro j hj
            rw [losesAt_short]
            simp only [decide_eq_false_iff_not]
            have := hrgt j hj
            omega
          have hslr : sLose T true r = agg0 := sBy_all_false hallr
          have hskr : (sKeep T true r).c = (sTot r).c ∧ (sKeep T true r).vc = (sTot r).vc ∧
              (sKeep T true r).vp = (sTot r).vp := by
            have := hkcr
            have := hkvcr
            have := hkvpr
            have hz : (sLose T true r) = agg0 := hslr
            have hzc : (sLose T true r).c = 0 := by rw [hz]; rfl
            have hzvc : (sLose T true r).vc = 0 := by rw [hz]; rfl
            have hzvp : (sLose T true r).vp = 0 := by rw [hz]; rfl
            omega
          have hprr : pruneF T true r = some r := prune_allKeep hAr hallr
          have hpe : ph1 T true (.inner cb mn c0 vc0 vp0 l r) acc
              = ph1 T true l acc := by
            rw [ph1_in_left hout hd]
            rfl
          obtain ⟨ihl1, ihl2, ihl3⟩ := ihl hwl hAl hPl acc
            (by omega) (by omega) (by omega)
          have hslu' : sLose T true (.inner cb mn c0 vc0 vp0 l r) = sLose T true l := by
            rw [hslu, hslr, aggE_agg0_right]
          have ec : wsub c0 (sLose T true l).c
              = (sKeep T true l).c + (sKeep T true r).c := by
            rw [wsub_eq (by omega) (by omega)]
            omega
          have evc : wsub vc0 (sLose T true l).vc
              = (sKeep T true l).vc + (sKeep T true r).vc := by
            rw [wsub_eq (by omega) (by omega)]
            omega
          have evp : wsub vp0 (sLose T true l).vp
              = (sKeep T true l).vp + (sKeep T true r).vp := by
            rw [wsub_eq (by omega) (by omega)]
            omega
          have ec0 : c0 - (sLose T true l).c
              = (sKeep T true l).c + (sKeep T true r).c := by
            omega
          have evc0 : vc0 - (sLose T true l).vc
              = (sKeep T true l).vc + (sKeep T true r).vc := by
            omega
          have evp0 : vp0 - (sLose T true l).vp
              = (sKeep T true l).vp + (sKeep T true r).vp := by
            omega
          refine ⟨?_, ?_, ?_⟩
          · intro accR hph
            rw [hpe] at hph
            obtain ⟨hv, hlw⟩ := ihl1 accR hph
            refine ⟨by rw [hslu']; exact hv, ?_⟩
            rw [hslu', lw_left_short hd, hlw]
            cases hpl : pruneF T true l with
            | none =>
              have : pruneF T true (.inner cb mn c0 vc0 vp0 l r) = some r := by
                simp [pruneF, hpl, hprr]
              rw [this]
            | some l' =>
              have hpru : pruneF T true (.inner cb mn c0 vc0 vp0 l r)
                  = some (.inner cb mn ((sKeep T true l).c + (sKeep T true r).c)
                      ((sKeep T true l).vc + (sKeep T true r).vc)
                      ((sKeep T true l).vp + (sKeep T true r).vp) l' r) := by
                simp [pruneF, hpl, hprr]
              rw [hpru, ec, evc, evp]
          · intro lcb accR hph
            rw [hpe] at hph
            obtain ⟨hv, hins, hcw⟩ := ihl2 lcb accR hph
            have hlcb : lcb < cb := by
              cases l with
              | leaf lk2 ls2 lc2 lvc2 lvp2 =>
                rw [ph1_leaf] at hph
                cases hph
              | inner cbl mnl cl vcl vpl ll rl =>
                have hle : lcb ≤ cbl := hins cbl mnl cl vcl vpl ll rl rfl
                have hlt : cbl < cb := by
                  refine @child_cb_lt cb 0 cbl mnl cl vcl vpl ll rl hwl ?_ ?_
                  · intro j1 hj1 j2 hj2
                    rw [(hkl j1 hj1).1, (hkl j2 hj2).1]
                  · intro j hj
                    exact (hkl j hj).2
                omega
            refine ⟨by rw [hslu']; exact hv, ?_, ?_⟩
            · intro cb2 mn2 c2 vc2 vp2 l2 r2 heq
              injection heq with q1 q2 q3 q4 q5 q6 q7
              omega
            · rw [hslu', cw_left_short (by omega) hd, hcw]
              cases hpl : pruneF T true l with
              | none =>
                have : pruneF T true (.inner cb mn c0 vc0 vp0 l r) = some r := by
                  simp [pruneF, hpl, hprr]
                rw [this]
              | some l' =>
                have hpru : pruneF T true (.inner cb mn c0 vc0 vp0 l r)
                    = some (.inner cb mn ((sKeep T true l).c + (sKeep T true r).c)
                        ((sKeep T true l).vc + (sKeep T true r).vc)
                        ((sKeep T true l).vp + (sKeep T true r).vp) l' r) := by
                  simp [pruneF, hpl, hprr]
                rw [hpru, ec, evc, evp]
          · intro accR hph
            rw [hpe] at hph
            obtain ⟨hv, u', hpl', hbw⟩ := ihl3 accR hph
            refine ⟨by rw [hslu']; exact hv, ?_⟩
            rw [hslu']
            by_cases hz : (sLose T true l).c = 0
            · have hallk : ∀ j ∈ keysOf l, losesAt T true j = false := sBy_c_zero hPl hz
              have hallu : ∀ j ∈ keysOf (.inner cb mn c0 vc0 vp0 l r),
                  losesAt T true j = false := by
                intro j hj
                simp only [keysOf, List.mem_append] at hj
                rcases hj with hj | hj
                · exact hallk j hj
                · exact hallr j hj
              exact ⟨.inner cb mn c0 vc0 vp0 l r, prune_allKeep hA' hallu,
                bw_zero hz T mn cb c0 vc0 vp0 true l r⟩
            · refine ⟨.inner cb mn ((sKeep T true l).c + (sKeep T true r).c)
                  ((sKeep T true l).vc + (sKeep T true r).vc)
                  ((sKeep T true l).vp + (sKeep T true r).vp) u' r, ?_, ?_⟩
              · simp [pruneF, hpl', hprr]
              · rw [bw_left_short hz (by omega) (by omega) (by omega) hd, hbw,
                  ec0, evc0, evp0]
      · -- descend right: left keys are strictly less than T
        have hTbit : T / 2 ^ cb % 2 = 1 := by
          have hne : ¬ T / 2 ^ cb % 2 = 0 := fun h => hd ((and_one_shift T cb).mpr h)
          have := Nat.mod_two_eq_zero_or_one (T / 2 ^ cb)
          omega
        have hllt : ∀ j ∈ keysOf l, j < T := by
          intro j hj
          exact key_lt_of_bit ((hkl j hj).1.trans hrangeT.symm) (hkl j hj).2 hTbit
        cases b
        · -- longs, descend right: the left sibling is entirely kept
          have halll : ∀ j ∈ keysOf l, losesAt T false j = false := by
            intro j hj
            rw [losesAt_long]
            simp only [decide_eq_false_iff_not]
            have := hllt j hj
            omega
          have hsll : sLose T false l = agg0 := sBy_all_false halll
          have hprl : pruneF T false l = some l := prune_allKeep hAl halll
          have hskl : (sKeep T false l).c = (sTot l).c ∧ (sKeep T false l).vc = (sTot l).vc ∧
              (sKeep T false l).vp = (sTot l).vp := by
            have hz : (sLose T false l) = agg0 := hsll
            have hzc : (sLose T false l).c = 0 := by rw [hz]; rfl
            have hzvc : (sLose T false l).vc = 0 := by rw [hz]; rfl
            have hzvp : (sLose T false l).vp = 0 := by rw [hz]; rfl
            omega
          have hpe : ph1 T false (.inner cb mn c0 vc0 vp0 l r) acc
              = ph1 T false r acc := by
            rw [ph1_in_right hout hd]
            rfl
          obtain ⟨ihr1, ihr2, ihr3⟩ := ihr hwr hAr hPr acc
            (by omega) (by omega) (by omega)
          have hslu' : sLose T false (.inner cb mn c0 vc0 vp0 l r) = sLose T false r := by
            rw [hslu, hsll, aggE_agg0_left]
          have ec : wsub c0 (sLose T false r).c
              = (sKeep T false l).c + (sKeep T false r).c := by
            rw [wsub_eq (by omega) (by omega)]
            omega
          have evc : wsub vc0 (sLose T false r).vc
              = (sKeep T false l).vc + (sKeep T false r).vc := by
            rw [wsub_eq (by omega) (by omega)]
            omega
          have evp : wsub vp0 (sLose T false r).vp
              = (sKeep T false l).vp + (sKeep T false r).vp := by
            rw [wsub_eq (by omega) (by omega)]
            omega
          have ec0 : c0 - (sLose T false r).c
              = (sKeep T false l).c + (sKeep T false r).c := by
            omega
          have evc0 : vc0 - (sLose T false r).vc
              = (sKeep T false l).vc + (sKeep T false r).vc := by
            omega
          have evp0 : vp0 - (sLose T false r).vp
              = (sKeep T false l).vp + (sKeep T false r).vp := by
            omega
          refine ⟨?_, ?_, ?_⟩
          · intro accR hph
            rw [hpe] at hph
            obtain ⟨hv, hlw⟩ := ihr1 accR hph
            refine ⟨by rw [hslu']; exact hv, ?_⟩
            rw [hslu', lw_right_long hd, hlw]
            cases hpl : pruneF T false r with
            | none =>
              have : pruneF T false (.inner cb mn c0 vc0 vp0 l r) = some l := by
                simp [pruneF, hpl, hprl]
              rw [this]
            | some r' =>
              have hpru : pruneF T false (.inner cb mn c0 vc0 vp0 l r)
                  = some (.inner cb mn ((sKeep T false l).c + (sKeep T false r).c)
                      ((sKeep T false l).vc + (sKeep T false r).vc)
                      ((sKeep T false l).vp + (sKeep T false r).vp) l r') := by
                simp [pruneF, hpl, hprl]
              rw [hpru, ec, evc, evp]
          · intro lcb accR hph
            rw [hpe] at hph
            obtain ⟨hv, hins, hcw⟩ := ihr2 lcb accR hph
            have hlcb : lcb < cb := by
              cases r with
              | leaf lk2 ls2 lc2 lvc2 lvp2 =>
                rw [ph1_leaf] at hph
                cases hph
              | inner cbr mnr cr vcr vpr lr rr =>
                have hle : lcb ≤ cbr := hins cbr mnr cr vcr vpr lr rr rfl
                have hlt : cbr < cb := by
                  refine @child_cb_lt cb 1 cbr mnr cr vcr vpr lr rr hwr ?_ ?_
                  · intro j1 hj1 j2 hj2
                    rw [(hkr j1 hj1).1, (hkr j2 hj2).1]
                  · intro j hj
                    exact (hkr j hj).2
                omega
            refine ⟨by rw [hslu']; exact hv, ?_, ?_⟩
            · intro cb2 mn2 c2 vc2 vp2 l2 r2 heq
              injection heq with q1 q2 q3 q4 q5 q6 q7
              omega
            · rw [hslu', cw_right_long (by omega) hd, hcw]
              cases hpl : pruneF T false r with
              | none =>
                have : pruneF T false (.inner cb mn c0 vc0 vp0 l r) = some l := by
                  simp [pruneF, hpl, hprl]
                rw [this]
              | some r' =>
                have hpru : pruneF T false (.inner cb mn c0 vc0 vp0 l r)
                    = some (.inner cb mn ((sKeep T false l).c + (sKeep T false r).c)
                        ((sKeep T false l).vc + (sKeep T false r).vc)
                        ((sKeep T false l).vp + (sKeep T false r).vp) l r') := by
                  simp [pruneF, hpl, hprl]
                rw [hpru, ec, evc, evp]
          · intro accR hph
            rw [hpe] at hph
            obtain ⟨hv, u', hpl', hbw⟩ := ihr3 accR hph
            refine ⟨by rw [hslu']; exact hv, ?_⟩
            rw [hslu']
            by_cases hz : (sLose T false r).c = 0
            · have hallk : ∀ j ∈ keysOf r, losesAt T false j = false := sBy_c_zero hPr hz
              have hallu : ∀ j ∈ keysOf (.inner cb mn c0 vc0 vp0 l r),
                  losesAt T false j = false := by
                intro j hj
                simp only [keysOf, List.mem_append] at hj
                rcases hj with hj | hj
                · exact halll j hj
                · exact hallk j hj
              exact ⟨.inner cb mn c0 vc0 vp0 l r, prune_allKeep hA' hallu,
                bw_zero hz T mn cb c0 vc0 vp0 false l r⟩
            · refine ⟨.inner cb mn ((sKeep T false l).c + (sKeep T false r).c)
                  ((sKeep T false l).vc + (sKeep T false r).vc)
                  ((sKeep T false l).vp + (sKeep T false r).vp) l u', ?_, ?_⟩
              · simp [pruneF, hpl', hprl]
              · rw [bw_right_long hz (by omega) (by omega) (by omega) hd, hbw,
                  ec0, evc0, evp0]
        · -- shorts, descend right: the left sibling is entirely losing
          have halll : ∀ j ∈ keysOf l, losesAt T true j = true := by
            intro j hj
            rw [losesAt_short]
            simp only [decide_eq_true_eq]
            exact Nat.le_of_lt (hllt j hj)
          have hsll : sLose T true l = sTot l := sBy_all_true halll
          have hprl : pruneF T true l = none := prune_allLose halll
          have hlagg : PNode.agg l = sTot l := agg_eq_sTot hAl
          have hacc' : aggW acc l.agg = aggE acc (sTot l) := by
            rw [hlagg]
            refine agg_ext ?_ ?_ ?_
            · show wadd acc.c (sTot l).c = acc.c + (sTot l).c
              exact wadd_eq (by omega)
            · show wadd acc.vc (sTot l).vc = acc.vc + (sTot l).vc
              exact wadd_eq (by omega)
            · show wadd acc.vp (sTot l).vp = acc.vp + (sTot l).vp
              exact wadd_eq (by omega)
          have hpe : ph1 T true (.inner cb mn c0 vc0 vp0 l r) acc
              = ph1 T true r (aggE acc (sTot l)) := by
            rw [ph1_in_right hout hd, hacc']
            rfl
          obtain ⟨ihr1, ihr2, ihr3⟩ := ihr hwr hAr hPr (aggE acc (sTot l))
            (by show acc.c + (sTot l).c + (sTot r).c < M; omega)
            (by show acc.vc + (sTot l).vc + (sTot r).vc < M; omega)
            (by show acc.vp + (sTot l).vp + (sTot r).vp < M; omega)
          have hslu' : sLose T true (.inner cb mn c0 vc0 vp0 l r)
              = aggE (sTot l) (sLose T true r) := by
            rw [hslu, hsll]
          have hsubl : aggWsub (aggE (sTot l) (sLose T true r)) l.agg
              = sLose T true r := by
            rw [hlagg]
            refine agg_ext ?_ ?_ ?_
            · show wsub ((sTot l).c + (sLose T true r).c) (sTot l).c = (sLose T true r).c
              rw [wsub_eq (by omega) (by omega)]
              omega
            · show wsub ((sTot l).vc + (sLose T true r).vc) (sTot l).vc
                = (sLose T true r).vc
              rw [wsub_eq (by omega) (by omega)]
              omega
            · show wsub ((sTot l).vp + (sLose T true r).vp) (sTot l).vp
                = (sLose T true r).vp
              rw [wsub_eq (by omega) (by omega)]
              omega
          have hpru : pruneF T true (.inner cb mn c0 vc0 vp0 l r) = pruneF T true r := by
            cases hpl : pruneF T true r <;> simp [pruneF, hpl, hprl]
          have haccR : ∀ accR : Agg,
              accR = aggE (aggE acc (sTot l)) (sLose T true r) →
              accR = aggE acc (sLose T true (.inner cb mn c0 vc0 vp0 l r)) := by
            intro accR hv
            rw [hv, hslu']
            refine agg_ext ?_ ?_ ?_
            · show acc.c + (sTot l).c + (sLose T true r).c
                = acc.c + ((sTot l).c + (sLose T true r).c)
              omega
            · show acc.vc + (sTot l).vc + (sLose T true r).vc
                = acc.vc + ((sTot l).vc + (sLose T true r).vc)
              omega
            · show acc.vp + (sTot l).vp + (sLose T true r).vp
                = acc.vp + ((sTot l).vp + (sLose T true r).vp)
              omega
          refine ⟨?_, ?_, ?_⟩
          · intro accR hph
            rw [hpe] at hph
            obtain ⟨hv, hlw⟩ := ihr1 accR hph
            refine ⟨haccR accR hv, ?_⟩
            rw [hslu', lw_right_short hd, hsubl, hlw, hpru]
          · intro lcb accR hph
            rw [hpe] at hph
            obtain ⟨hv, hins, hcw⟩ := ihr2 lcb accR hph
            have hlcb : lcb < cb := by
              cases r with
              | leaf lk2 ls2 lc2 lvc2 lvp2 =>
                rw [ph1_leaf] at hph
                cases hph
              | inner cbr mnr cr vcr vpr lr rr =>
                have hle : lcb ≤ cbr := hins cbr mnr cr vcr vpr lr rr rfl
                have hlt : cbr < cb := by
                  refine @child_cb_lt cb 1 cbr mnr cr vcr vpr lr rr hwr ?_ ?_
                  · intro j1 hj1 j2 hj2
                    rw [(hkr j1 hj1).1, (hkr j2 hj2).1]
                  · intro j hj
                    exact (hkr j hj).2
                omega
            refine ⟨haccR accR hv, ?_, ?_⟩
            · intro cb2 mn2 c2 vc2 vp2 l2 r2 heq
              injection heq with q1 q2 q3 q4 q5 q6 q7
              omega
            · rw [hslu', cw_right_short (by omega) hd, hsubl, hcw, hpru]
          · intro accR hph
            rw [hpe] at hph
            obtain ⟨hv, u', hpl', hbw⟩ := ihr3 accR hph
            refine ⟨haccR accR hv, u', by rw [hpru]; exact hpl', ?_⟩
            rw [hslu']
            have hnz : ¬ (aggE (sTot l) (sLose T true r)).c = 0 := by
              show ¬ ((sTot l).c + (sLose T true r).c = 0)
              have := sTot_c_pos hPl
              omega
            rw [bw_right_short hnz ?_ ?_ ?_ hd, hsubl, hbw]
            · show (sTot l).c + (sLose T true r).c ≤ c0
              omega
            · show (sTot l).vc + (sLose T true r).vc ≤ vc0
              omega
            · show (sTot l).vp + (sLose T true r).vp ≤ vp0
              omega

/-- Assembling the walks: on an invariant-satisfying tree, `liquidate` returns
exactly the keep-side prune of the tree (and in particular does not panic). -/
theorem liquidate_eq_prune (T : Nat) (b : Bool) (t : PNode)
    (hW : WF t) (hA : AggEx t) (hP : PosColl t)
    (h1 : (sTot t).c < M) (h2 : (sTot t).vc < M) (h3 : (sTot t).vp < M) :
    liquidateAux T b (some t) = some (pruneF T b t) := by
  obtain ⟨hle, hif, hik⟩ := liq_walks T b t hW hA hP ⟨0, 0, 0⟩
    (by show 0 + (sTot t).c < M; omega)
    (by show 0 + (sTot t).vc < M; omega)
    (by show 0 + (sTot t).vp < M; omega)
  cases hres : ph1 T b t ⟨0, 0, 0⟩ with
  | leafEnd acc =>
    obtain ⟨hv, hlw⟩ := hle acc hres
    have hacc : acc = sLose T b t := by
      rw [hv]
      refine agg_ext ?_ ?_ ?_
      · show 0 + (sLose T b t).c = (sLose T b t).c
        omega
      · show 0 + (sLose T b t).vc = (sLose T b t).vc
        omega
      · show 0 + (sLose T b t).vp = (sLose T b t).vp
        omega
    have hun : liquidateAux T b (some t)
        = if acc.c = 0 then some (some t) else some (lw T b t acc) := by
      simp [liquidateAux, hres]
    rw [hun]
    by_cases hz : acc.c = 0
    · rw [if_pos hz]
      have hz' : (sLose T b t).c = 0 := by rw [← hacc]; exact hz
      have hall := sBy_c_zero hP hz'
      rw [prune_allKeep hA hall]
    · rw [if_neg hz, hacc, hlw]
  | innerFull lcb acc =>
    obtain ⟨hv, _, hcw⟩ := hif lcb acc hres
    have hacc : acc = sLose T b t := by
      rw [hv]
      refine agg_ext ?_ ?_ ?_
      · show 0 + (sLose T b t).c = (sLose T b t).c
        omega
      · show 0 + (sLose T b t).vc = (sLose T b t).vc
        omega
      · show 0 + (sLose T b t).vp = (sLose T b t).vp
        omega
    have hun : liquidateAux T b (some t) = cw T b lcb t acc := by
      simp [liquidateAux, hres]
    rw [hun, hacc, hcw]
  | innerKeep acc =>
    obtain ⟨hv, u', hpu, hbw⟩ := hik acc hres
    have hacc : acc = sLose T b t := by
      rw [hv]
      refine agg_ext ?_ ?_ ?_
      · show 0 + (sLose T b t).c = (sLose T b t).c
        omega
      · show 0 + (sLose T b t).vc = (sLose T b t).vc
        omega
      · show 0 + (sLose T b t).vp = (sLose T b t).vp
        omega
    have hun : liquidateAux T b (some t) = (bw T b t acc).map some := by
      simp [liquidateAux, hres]
    rw [hun, hacc, hbw, hpu]
    rfl

/-- One `open_position` keeps structure, exact aggregates and non-zero leaf
collateral, and adds the amounts to the side total. -/
theorem open_inv (k s c vc vp : Nat) (hk : k < M) (hc1 : 1 ≤ c) (t : PNode)
    (h : WF t ∧ AggEx t ∧ PosColl t)
    (b1 : (sTot t).c + c < M) (b2 : (sTot t).vc + vc < M) (b3 : (sTot t).vp + vp < M) :
    (WF (openPosAux k s c vc vp t).1 ∧ AggEx (openPosAux k s c vc vp t).1 ∧
      PosColl (openPosAux k s c vc vp t).1) ∧
    sTot (openPosAux k s c vc vp t).1 = aggE (sTot t) ⟨c, vc, vp⟩ :=
  ⟨⟨(open_WF hk s c vc vp t h.1).1, open_AggEx k s c vc vp t h.2.1 b1 b2 b3,
    open_PosColl k s c vc vp hc1 t h.2.2 b1⟩, open_sTot k s c vc vp t b1 b2 b3⟩

/-- Folding `open_position` calls keeps the side invariant and adds the exact
componentwise totals of the calls. -/
theorem foldOpens_inv (side : PositionType) :
    ∀ (calls : List OpenCall) (b : Book),
      (∀ q ∈ calls, q.k < M) → (∀ q ∈ calls, 1 ≤ q.c) →
      (∀ t, b.sideRoot side = some t → WF t ∧ AggEx t ∧ PosColl t) →
      (sideTotAgg b side).c + (callsAgg (fun x => true) calls).c < M →
      (sideTotAgg b side).vc + (callsAgg (fun x => true) calls).vc < M →
      (sideTotAgg b side).vp + (callsAgg (fun x => true) calls).vp < M →
      (∀ t, ((calls.foldl (fun b q => (openPosition q.k q.c q.vc q.vp side q.s b).1)
          b).sideRoot side) = some t → WF t ∧ AggEx t ∧ PosColl t) ∧
      sideTotAgg (calls.foldl (fun b q => (openPosition q.k q.c q.vc q.vp side q.s b).1) b)
          side = aggE (sideTotAgg b side) (callsAgg (fun x => true) calls) := by
  intro calls
  induction calls with
  | nil =>
    intro b _ _ hI _ _ _
    exact ⟨hI, by simp [callsAgg, aggE_agg0_right]⟩
  | cons q rest ih =>
    intro b hk hc hI h1 h2 h3
    have hside : ∀ r, ((b.setRoot r side).sideRoot side) = r := by
      intro r; cases side <;> rfl
    have ec : (callsAgg (fun x => true) (q :: rest)).c
        = q.c + (callsAgg (fun x => true) rest).c := rfl
    have evc : (callsAgg (fun x => true) (q :: rest)).vc
        = q.vc + (callsAgg (fun x => true) rest).vc := rfl
    have evp : (callsAgg (fun x => true) (q :: rest)).vp
        = q.vp + (callsAgg (fun x => true) rest).vp := rfl
    have hstep : ∃ u, ((openPosition q.k q.c q.vc q.vp side q.s b).1).sideRoot side = some u ∧
        (WF u ∧ AggEx u ∧ PosColl u) ∧ sTot u = aggE (sideTotAgg b side) ⟨q.c, q.vc, q.vp⟩ := by
      cases hr : b.sideRoot side with
      | none =>
        have heq : openPosition q.k q.c q.vc q.vp side q.s b
            = (b.setRoot (some (.leaf q.k q.s q.c q.vc q.vp)) side, q.s) := by
          simp [openPosition, hr]
        have h0 : sideTotAgg b side = agg0 := by simp [sideTotAgg, hr]
        rw [h0] at h1 h2 h3
        refine ⟨.leaf q.k q.s q.c q.vc q.vp, by rw [heq]; exact hside _, ⟨hk q (by simp), ?_, ?_⟩, ?_⟩
        · exact ⟨by have : (agg0).c = 0 := rfl; omega,
            by have : (agg0).vc = 0 := rfl; omega,
            by have : (agg0).vp = 0 := rfl; omega⟩
        · exact hc q (by simp)
        · rw [h0, aggE_agg0_left, sTot_leaf]
      | some t =>
        have heq : openPosition q.k q.c q.vc q.vp side q.s b
            = (b.setRoot (some (openPosAux q.k q.s q.c q.vc q.vp t).1) side,
              (openPosAux q.k q.s q.c q.vc q.vp t).2) := by
          simp [openPosition, hr]
        have hst : sideTotAgg b side = sTot t := by simp [sideTotAgg, hr]
        rw [hst] at h1 h2 h3
        obtain ⟨hinv, hsum⟩ := open_inv q.k q.s q.c q.vc q.vp (hk q (by simp))
          (hc q (by simp)) t (hI t hr) (by omega) (by omega) (by omega)
        exact ⟨_, by rw [heq]; exact hside _, hinv, by rw [hsum, hst]⟩
    obtain ⟨u, hu, hinvu, hsumu⟩ := hstep
    have hstu : sideTotAgg ((openPosition q.k q.c q.vc q.vp side q.s b).1) side = sTot u := by
      simp [sideTotAgg, hu]
    have hsc : (sTot u).c = (sideTotAgg b side).c + q.c := congrArg Agg.c hsumu
    have hsvc : (sTot u).vc = (sideTotAgg b side).vc + q.vc := congrArg Agg.vc hsumu
    have hsvp : (sTot u).vp = (sideTotAgg b side).vp + q.vp := congrArg Agg.vp hsumu
    obtain ⟨ihI, ihsum⟩ := ih ((openPosition q.k q.c q.vc q.vp side q.s b).1)
      (fun p hp => hk p (by simp [hp]))
      (fun p hp => hc p (by simp [hp]))
      (fun t ht => by rw [hu] at ht; cases ht; exact hinvu)
      (by rw [hstu]; omega) (by rw [hstu]; omega) (by rw [hstu]; omega)
    rw [List.foldl_cons]
    refine ⟨ihI, ?_⟩
    rw [ihsum, hstu]
    refine agg_ext ?_ ?_ ?_ <;> simp only [aggE] <;> omega

/-- Folding `open_position` calls adds the `f`-filtered componentwise call
totals to the `f`-filtered side sum (for any key predicate `f`). -/
theorem foldOpens_sBy (f : Nat → Bool) (side : PositionType) :
    ∀ (calls : List OpenCall) (b : Book),
      (sideTotAgg b side).c + (callsAgg (fun x => true) calls).c < M →
      (sideTotAgg b side).vc + (callsAgg (fun x => true) calls).vc < M →
      (sideTotAgg b side).vp + (callsAgg (fun x => true) calls).vp < M →
      sideTotAgg (calls.foldl (fun b q => (openPosition q.k q.c q.vc q.vp side q.s b).1) b)
          side = aggE (sideTotAgg b side) (callsAgg (fun x => true) calls) ∧
      sideByAgg f (calls.foldl (fun b q => (openPosition q.k q.c q.vc q.vp side q.s b).1) b)
          side = aggE (sideByAgg f b side) (callsAgg f calls) := by
  intro calls
  induction calls with
  | nil =>
    intro b _ _ _
    exact ⟨by simp [callsAgg, aggE_agg0_right], by simp [callsAgg, aggE_agg0_right]⟩
  | cons q rest ih =>
    intro b h1 h2 h3
    have hside : ∀ r, ((b.setRoot r side).sideRoot side) = r := by
      intro r; cases side <;> rfl
    have ec : (callsAgg (fun x => true) (q :: rest)).c
        = q.c + (callsAgg (fun x => true) rest).c := rfl
    have evc : (callsAgg (fun x => true) (q :: rest)).vc
        = q.vc + (callsAgg (fun x => true) rest).vc := rfl
    have evp : (callsAgg (fun x => true) (q :: rest)).vp
        = q.vp + (callsAgg (fun x => true) rest).vp := rfl
    have ecf : callsAgg f (q :: rest)
        = aggE (if f q.k then ⟨q.c, q.vc, q.vp⟩ else agg0) (callsAgg f rest) := rfl
    have hstep : ∃ u, ((openPosition q.k q.c q.vc q.vp side q.s b).1).sideRoot side = some u ∧
        sTot u = aggE (sideTotAgg b side) ⟨q.c, q.vc, q.vp⟩ ∧
        sBy f u = aggE (sideByAgg f b side) (if f q.k then ⟨q.c, q.vc, q.vp⟩ else agg0) := by
      cases hr : b.sideRoot side with
      | none =>
        have heq : openPosition q.k q.c q.vc q.vp side q.s b
            = (b.setRoot (some (.leaf q.k q.s q.c q.vc q.vp)) side, q.s) := by
          simp [openPosition, hr]
        have h0 : sideTotAgg b side = agg0 := by simp [sideTotAgg, hr]
        have h0f : sideByAgg f b side = agg0 := by simp [sideByAgg, hr]
        refine ⟨.leaf q.k q.s q.c q.vc q.vp, by rw [heq]; exact hside _, ?_, ?_⟩
        · rw [h0, aggE_agg0_left, sTot_leaf]
        · rw [h0f, aggE_agg0_left, sBy_leaf]
      | some t =>
        have heq : openPosition q.k q.c q.vc q.vp side q.s b
            = (b.setRoot (some (openPosAux q.k q.s q.c q.vc q.vp t).1) side,
              (openPosAux q.k q.s q.c q.vc q.vp t).2) := by
          simp [openPosition, hr]
        have hst : sideTotAgg b side = sTot t := by simp [sideTotAgg, hr]
        have hsf : sideByAgg f b side = sBy f t := by simp [sideByAgg, hr]
        rw [hst] at h1 h2 h3
        refine ⟨_, by rw [heq]; exact hside _, ?_, ?_⟩
        · rw [open_sTot q.k q.s q.c q.vc q.vp t (by omega) (by omega) (by omega), hst]
        · rw [open_sBy f q.k q.s q.c q.vc q.vp t (by omega) (by omega) (by omega), hsf]
    obtain ⟨u, hu, hsumu, hsbyu⟩ := hstep
    have hstu : sideTotAgg ((openPosition q.k q.c q.vc q.vp side q.s b).1) side = sTot u := by
      simp [sideTotAgg, hu]
    have hsfu : sideByAgg f ((openPosition q.k q.c q.vc q.vp side q.s b).1) side = sBy f u := by
      simp [sideByAgg, hu]
    have hsc : (sTot u).c = (sideTotAgg b side).c + q.c := congrArg Agg.c hsumu
    have hsvc : (sTot u).vc = (sideTotAgg b side).vc + q.vc := congrArg Agg.vc hsumu
    have hsvp : (sTot u).vp = (sideTotAgg b side).vp + q.vp := congrArg Agg.vp hsumu
    obtain ⟨ihsum, ihsby⟩ := ih ((openPosition q.k q.c q.vc q.vp side q.s b).1)
      (by rw [hstu]; omega) (by rw [hstu]; omega) (by rw [hstu]; omega)
    rw [List.foldl_cons]
    constructor
    · rw [ihsum, hstu]
      refine agg_ext ?_ ?_ ?_ <;> simp only [aggE] <;> omega
    · rw [ihsby, hsfu, hsbyu, ecf]
      refine agg_ext ?_ ?_ ?_ <;> simp only [aggE] <;> omega

set_option maxRecDepth 8000 in
/-- C3 (amended): for every tree built by `open_position` calls — each with a
u64 key, at least one unit of collateral, and u64-bounded totals — and every
threshold, `liquidate` succeeds and the surviving root aggregates equal the
element-wise sum over exactly the original positions with `liquidation_index`
strictly greater than the threshold on the short side (strictly less on the
long side); in particular the spec's five-shorts scenario at threshold `0x85`
leaves root collateral `224` with only keys `0x9b` and `0xfe` remaining. -/
theorem claim_C3 (calls : List OpenCall) (side : PositionType) (T : Nat)
    (hk : ∀ q ∈ calls, q.k < M) (hc : ∀ q ∈ calls, 1 ≤ q.c)
    (h1 : (callsAgg (fun x => true) calls).c < M)
    (h2 : (callsAgg (fun x => true) calls).vc < M)
    (h3 : (callsAgg (fun x => true) calls).vp < M) :
    (∃ b', liquidateBook T side (foldOpens calls side) = some b' ∧
      rootAgg (b'.sideRoot side)
        = callsAgg (fun j => keepAt T (isShortSide side) j) calls) ∧
    ((liquidateBook 0x85 .Short (foldOpens
        [⟨0x84, 0, 100, 42, 908⟩, ⟨0xfe, 1, 101, 75, 98⟩, ⟨0x0f, 2, 107, 4500, 708⟩,
         ⟨0x9b, 3, 123, 78000, 408⟩, ⟨0x52, 4, 144, 9685, 958⟩] .Short)).map
        (fun b' => ((rootAgg (b'.sideRoot .Short)).c, (b'.sideRoot .Short).map keysOf))
      = some (224, some [0x9b, 0xfe])) := by
  have hconc : ((liquidateBook 0x85 .Short (foldOpens
      [⟨0x84, 0, 100, 42, 908⟩, ⟨0xfe, 1, 101, 75, 98⟩, ⟨0x0f, 2, 107, 4500, 708⟩,
       ⟨0x9b, 3, 123, 78000, 408⟩, ⟨0x52, 4, 144, 9685, 958⟩] .Short)).map
      (fun b' => ((rootAgg (b'.sideRoot .Short)).c, (b'.sideRoot .Short).map keysOf))
    = some (224, some [0x9b, 0xfe])) := by decide
  refine ⟨?_, hconc⟩
  have hnone : ((⟨none, none⟩ : Book).sideRoot side) = none := by cases side <;> rfl
  have h0 : sideTotAgg ⟨none, none⟩ side = agg0 := by simp [sideTotAgg, hnone]
  have h0f : sideByAgg (fun j => keepAt T (isShortSide side) j) ⟨none, none⟩ side = agg0 := by
    simp [sideByAgg, hnone]
  have hb1 : (sideTotAgg ⟨none, none⟩ side).c + (callsAgg (fun x => true) calls).c < M := by
    rw [h0]; simpa [agg0] using h1
  have hb2 : (sideTotAgg ⟨none, none⟩ side).vc + (callsAgg (fun x => true) calls).vc < M := by
    rw [h0]; simpa [agg0] using h2
  have hb3 : (sideTotAgg ⟨none, none⟩ side).vp + (callsAgg (fun x => true) calls).vp < M := by
    rw [h0]; simpa [agg0] using h3
  obtain ⟨hI, hsum⟩ := foldOpens_inv side calls ⟨none, none⟩ hk hc
    (fun t ht => by rw [hnone] at ht; cases ht) hb1 hb2 hb3
  obtain ⟨_, hsby⟩ := foldOpens_sBy (fun j => keepAt T (isShortSide side) j) side calls
    ⟨none, none⟩ hb1 hb2 hb3
  rw [h0, aggE_agg0_left] at hsum
  rw [h0f, aggE_agg0_left] at hsby
  have hfold : foldOpens calls side
      = calls.foldl (fun b q => (openPosition q.k q.c q.vc q.vp side q.s b).1) ⟨none, none⟩ :=
    rfl
  rw [← hfold] at hI hsum hsby
  have hside : ∀ r, (((foldOpens calls side).setRoot r side).sideRoot side) = r := by
    intro r; cases side <;> rfl
  cases hr : (foldOpens calls side).sideRoot side with
  | none =>
    have hliq : liquidateBook T side (foldOpens calls side)
        = some ((foldOpens calls side).setRoot none side) := by
      simp [liquidateBook, hr, liquidateAux]
    refine ⟨_, hliq, ?_⟩
    have hkeep : callsAgg (fun j => keepAt T (isShortSide side) j) calls = agg0 := by
      rw [← hsby]
      simp [sideByAgg, hr]
    rw [hkeep, hside]
    rfl
  | some t =>
    obtain ⟨hWt, hAt, hPt⟩ := hI t hr
    have hst : sTot t = callsAgg (fun x => true) calls := by
      rw [← hsum]; simp [sideTotAgg, hr]
    have hsb : sBy (fun j => keepAt T (isShortSide side) j) t
        = callsAgg (fun j => keepAt T (isShortSide side) j) calls := by
      rw [← hsby]; simp [sideByAgg, hr]
    have hpr := liquidate_eq_prune T (isShortSide side) t hWt hAt hPt
      (by rw [hst]; exact h1) (by rw [hst]; exact h2) (by rw [hst]; exact h3)
    have hliq : liquidateBook T side (foldOpens calls side)
        = some ((foldOpens calls side).setRoot (pruneF T (isShortSide side) t) side) := by
      simp [liquidateBook, hr, hpr]
    refine ⟨_, hliq, ?_⟩
    rw [hside, ← hsb]
    cases hp : pruneF T (isShortSide side) t with
    | none =>
      have := prune_none_sKeep hp
      have hz : sKeep T (isShortSide side) t = agg0 := this
      show agg0 = sBy (fun j => keepAt T (isShortSide side) j) t
      rw [← hz]
      rfl
    | some t' =>
      show t'.agg = sBy (fun j => keepAt T (isShortSide side) j) t
      have := (prune_agg hAt hp).2
      rw [this]
      rfl

set_option maxRecDepth 8000 in
theorem claim_C3_witness :
    (∃ b', liquidateBook 0x85 .Short (foldOpens
        [⟨0x84, 0, 100, 42, 908⟩, ⟨0xfe, 1, 101, 75, 98⟩, ⟨0x0f, 2, 107, 4500, 708⟩,
         ⟨0x9b, 3, 123, 78000, 408⟩, ⟨0x52, 4, 144, 9685, 958⟩] .Short) = some b' ∧
      rootAgg (b'.sideRoot .Short)
        = callsAgg (fun j => keepAt 0x85 (isShortSide .Short) j)
            [⟨0x84, 0, 100, 42, 908⟩, ⟨0xfe, 1, 101, 75, 98⟩, ⟨0x0f, 2, 107, 4500, 708⟩,
             ⟨0x9b, 3, 123, 78000, 408⟩, ⟨0x52, 4, 144, 9685, 958⟩]) ∧
    ((liquidateBook 0x85 .Short (foldOpens
        [⟨0x84, 0, 100, 42, 908⟩, ⟨0xfe, 1, 101, 75, 98⟩, ⟨0x0f, 2, 107, 4500, 708⟩,
         ⟨0x9b, 3, 123, 78000, 408⟩, ⟨0x52, 4, 144, 9685, 958⟩] .Short)).map
        (fun b' => ((rootAgg (b'.sideRoot .Short)).c, (b'.sideRoot .Short).map keysOf))
      = some (224, some [0x9b, 0xfe])) :=
  claim_C3 [⟨0x84, 0, 100, 42, 908⟩, ⟨0xfe, 1, 101, 75, 98⟩, ⟨0x0f, 2, 107, 4500, 708⟩,
      ⟨0x9b, 3, 123, 78000, 408⟩, ⟨0x52, 4, 144, 9685, 958⟩] .Short 0x85
    (by decide) (by decide) (by decide) (by decide) (by decide)

set_option maxRecDepth 8000 in
/-- The unconditional C3 is false: a position opened with zero collateral
(allowed by `open_position`) defeats the partition — `liquidate` finds zero
collateral to liquidate and stops, leaving the losing position's `v_coin` in
the root, where the claim demands the empty keep-side sum. -/
theorem claim_C3_counterexample :
    (liquidateBook 5 .Short (foldOpens [⟨5, 0, 0, 7, 0⟩] .Short)).map
        (fun b' => rootAgg (b'.sideRoot .Short)) = some ⟨0, 7, 0⟩ ∧
    callsAgg (fun j => keepAt 5 (isShortSide .Short) j) [⟨5, 0, 0, 7, 0⟩] = agg0 ∧
    ¬ ((⟨0, 7, 0⟩ : Agg) = agg0) := by
  refine ⟨by decide, by decide, by decide⟩

/-! ## Close preserves the invariant under the amended proviso (C1) -/

theorem closeFind_le {k slot : Nat} :
    ∀ {t : PNode} {lc lvc lvp : Nat}, closeFind k slot t = some (lc, lvc, lvp) →
      lc ≤ (sTot t).c ∧ lvc ≤ (sTot t).vc ∧ lvp ≤ (sTot t).vp := by
  intro t
  induction t with
  | leaf lk ls c vc vp =>
    intro lc lvc lvp hf
    simp only [closeFind] at hf
    by_cases hm : lk = k ∧ ls = slot
    · rw [if_pos hm] at hf
      injection hf with hf
      injection hf with h1 hf
      injection hf with h2 h3
      subst h1; subst h2; subst h3
      exact ⟨Nat.le_refl _, Nat.le_refl _, Nat.le_refl _⟩
    · rw [if_neg hm] at hf
      cases hf
  | inner cb mn c vc vp l r ihl ihr =>
    intro lc lvc lvp hf
    simp only [closeFind] at hf
    by_cases hout : (mn ||| lowMask cb) < k ∨ k < mn
    · rw [if_pos hout] at hf
      cases hf
    · rw [if_neg hout] at hf
      have hsc : (sTot (PNode.inner cb mn c vc vp l r)).c = (sTot l).c + (sTot r).c := rfl
      have hsvc : (sTot (PNode.inner cb mn c vc vp l r)).vc = (sTot l).vc + (sTot r).vc := rfl
      have hsvp : (sTot (PNode.inner cb mn c vc vp l r)).vp = (sTot l).vp + (sTot r).vp := rfl
      by_cases hd : k &&& (1 <<< cb) = 0
      · rw [if_pos hd] at hf
        have := ihl hf
        omega
      · rw [if_neg hd] at hf
        have := ihr hf
        omega

/-- The mutation walk of a successful `close_position` under the amended
proviso: removal of the whole subtree happens exactly when the call's amounts
equal its entire sums, and otherwise the walk preserves structure, exact
aggregates and non-zero leaf collateral while subtracting the closed amounts
and never adding keys. -/
theorem closeWrite_spec (k slot pc pvc pvp : Nat) :
    ∀ (t : PNode) (lc lvc lvp : Nat), WF t → AggEx t → PosColl t →
      (sTot t).c < M → (sTot t).vc < M → (sTot t).vp < M →
      closeFind k slot t = some (lc, lvc, lvp) →
      pc ≤ lc → pvc ≤ lvc → pvp ≤ lvp → (pc = lc → pvc = lvc ∧ pvp = lvp) →
      (closeWrite k pc pvc pvp (wsub lc pc) (wsub lvc pvc) (wsub lvp pvp) t = none →
        sTot t = ⟨pc, pvc, pvp⟩) ∧
      (∀ t', closeWrite k pc pvc pvp (wsub lc pc) (wsub lvc pvc) (wsub lvp pvp) t = some t' →
        WF t' ∧ AggEx t' ∧ PosColl t' ∧
        sTot t' = ⟨(sTot t).c - pc, (sTot t).vc - pvc, (sTot t).vp - pvp⟩ ∧
        (∀ j, j ∈ keysOf t' → j ∈ keysOf t)) := by
  intro t
  induction t with
  | leaf lk ls c vc vp =>
    intro lc lvc lvp hW hA hP h1 h2 h3 hf hle1 hle2 hle3 hcond
    simp only [closeFind] at hf
    by_cases hm : lk = k ∧ ls = slot
    · rw [if_pos hm] at hf
      injection hf with hf
      injection hf with e1 hf
      injection hf with e2 e3
      subst e1; subst e2; subst e3
      have hc : c < M := h1
      have hvcM : vc < M := h2
      have hvpM : vp < M := h3
      have hPc : (1:Nat) ≤ c := hP
      have w1 : wsub c pc = c - pc := wsub_eq hle1 hc
      have w2 : wsub vc pvc = vc - pvc := wsub_eq hle2 hvcM
      have w3 : wsub vp pvp = vp - pvp := wsub_eq hle3 hvpM
      rw [w1, w2, w3]
      constructor
      · intro hnone
        simp only [closeWrite] at hnone
        by_cases hz : c - pc = 0
        · have hpc : pc = c := by omega
          obtain ⟨hq1, hq2⟩ := hcond hpc
          rw [sTot_leaf]
          rw [hpc, ← hq1, ← hq2]
        · rw [if_neg hz] at hnone
          cases hnone
      · intro t' hsome
        simp only [closeWrite] at hsome
        by_cases hz : c - pc = 0
        · rw [if_pos hz] at hsome
          cases hsome
        · rw [if_neg hz] at hsome
          injection hsome with hsome
          subst hsome
          refine ⟨hW, ⟨by omega, by omega, by omega⟩, by show 1 ≤ c - pc; omega, ?_, ?_⟩
          · rw [sTot_leaf, sTot_leaf]
          · intro j hj
            exact hj
    · rw [if_neg hm] at hf
      cases hf
  | inner cb mn c0 vc0 vp0 l r ihl ihr =>
    intro lc lvc lvp hW hA hP h1 h2 h3 hf hle1 hle2 hle3 hcond
    obtain ⟨hcb, hmn, hmod, hkl, hkr, hwl, hwr⟩ := hW
    obtain ⟨hac, havc, havp, hAl, hAr⟩ := hA
    obtain ⟨hPl, hPr⟩ := hP
    have h1' : (sTot l).c + (sTot r).c < M := h1
    have h2' : (sTot l).vc + (sTot r).vc < M := h2
    have h3' : (sTot l).vp + (sTot r).vp < M := h3
    simp only [closeFind] at hf
    by_cases hout : (mn ||| lowMask cb) < k ∨ k < mn
    · rw [if_pos hout] at hf
      cases hf
    · rw [if_neg hout] at hf
      have hsc : (sTot (PNode.inner cb mn c0 vc0 vp0 l r)).c = (sTot l).c + (sTot r).c := rfl
      have hsvc : (sTot (PNode.inner cb mn c0 vc0 vp0 l r)).vc
          = (sTot l).vc + (sTot r).vc := rfl
      have hsvp : (sTot (PNode.inner cb mn c0 vc0 vp0 l r)).vp
          = (sTot l).vp + (sTot r).vp := rfl
      by_cases hd : k &&& (1 <<< cb) = 0
      · rw [if_pos hd] at hf
        obtain ⟨hb1, hb2, hb3⟩ := closeFind_le hf
        obtain ⟨ihn, ihs⟩ := ihl lc lvc lvp hwl hAl hPl (by omega) (by omega) (by omega)
          hf hle1 hle2 hle3 hcond
        have hweq : closeWrite k pc pvc pvp (wsub lc pc) (wsub lvc pvc) (wsub lvp pvp)
            (.inner cb mn c0 vc0 vp0 l r)
            = match closeWrite k pc pvc pvp (wsub lc pc) (wsub lvc pvc) (wsub lvp pvp) l with
              | none => some r
              | some l' =>
                some (.inner cb mn (wsub c0 pc) (wsub vc0 pvc) (wsub vp0 pvp) l' r) := by
          simp [closeWrite, hd]
        constructor
        · intro hnone
          rw [hweq] at hnone
          cases hwl' : closeWrite k pc pvc pvp (wsub lc pc) (wsub lvc pvc) (wsub lvp pvp) l with
          | none => rw [hwl'] at hnone; cases hnone
          | some l' => rw [hwl'] at hnone; cases hnone
        · intro t' hsome
          rw [hweq] at hsome
          cases hwl' : closeWrite k pc pvc pvp (wsub lc pc) (wsub lvc pvc) (wsub lvp pvp) l with
          | none =>
            rw [hwl'] at hsome
            injection hsome with hsome
            subst hsome
            have hsl := ihn hwl'
            have hslc : (sTot l).c = pc := congrArg Agg.c hsl
            have hslvc : (sTot l).vc = pvc := congrArg Agg.vc hsl
            have hslvp : (sTot l).vp = pvp := congrArg Agg.vp hsl
            refine ⟨hwr, hAr, hPr, ?_, ?_⟩
            · refine agg_ext ?_ ?_ ?_
              · show (sTot r).c = (sTot l).c + (sTot r).c - pc
                omega
              · show (sTot r).vc = (sTot l).vc + (sTot r).vc - pvc
                omega
              · show (sTot r).vp = (sTot l).vp + (sTot r).vp - pvp
                omega
            · intro j hj
              simp only [keysOf, List.mem_append]
              exact Or.inr hj
          | some l' =>
            rw [hwl'] at hsome
            injection hsome with hsome
            subst hsome
            obtain ⟨hWl', hAl', hPl', hsl', hkeys'⟩ := ihs l' hwl'
            have hslc : (sTot l').c = (sTot l).c - pc := congrArg Agg.c hsl'
            have hslvc : (sTot l').vc = (sTot l).vc - pvc := congrArg Agg.vc hsl'
            have hslvp : (sTot l').vp = (sTot l).vp - pvp := congrArg Agg.vp hsl'
            have w1 : wsub c0 pc = c0 - pc := wsub_eq (by omega) (by omega)
            have w2 : wsub vc0 pvc = vc0 - pvc := wsub_eq (by omega) (by omega)
            have w3 : wsub vp0 pvp = vp0 - pvp := wsub_eq (by omega) (by omega)
            refine ⟨⟨hcb, hmn, hmod, ?_, hkr, hWl', hwr⟩, ?_, ⟨hPl', hPr⟩, ?_, ?_⟩
            · intro j hj
              exact hkl j (hkeys' j hj)
            · refine ⟨?_, ?_, ?_, hAl', hAr⟩
              · rw [w1]; omega
              · rw [w2]; omega
              · rw [w3]; omega
            · refine agg_ext ?_ ?_ ?_
              · show (sTot l').c + (sTot r).c = (sTot l).c + (sTot r).c - pc
                omega
              · show (sTot l').vc + (sTot r).vc = (sTot l).vc + (sTot r).vc - pvc
                omega
              · show (sTot l').vp + (sTot r).vp = (sTot l).vp + (sTot r).vp - pvp
                omega
            · intro j hj
              simp only [keysOf, List.mem_append] at hj
              simp only [keysOf, List.mem_append]
              rcases hj with hj | hj
              · exact Or.inl (hkeys' j hj)
              · exact Or.inr hj
      · rw [if_neg hd] at hf
        obtain ⟨hb1, hb2, hb3⟩ := closeFind_le hf
        obtain ⟨ihn, ihs⟩ := ihr lc lvc lvp hwr hAr hPr (by omega) (by omega) (by omega)
          hf hle1 hle2 hle3 hcond
        have hweq : closeWrite k pc pvc pvp (wsub lc pc) (wsub lvc pvc) (wsub lvp pvp)
            (.inner cb mn c0 vc0 vp0 l r)
            = match closeWrite k pc pvc pvp (wsub lc pc) (wsub lvc pvc) (wsub lvp pvp) r with
              | none => some l
              | some r' =>
                some (.inner cb mn (wsub c0 pc) (wsub vc0 pvc) (wsub vp0 pvp) l r') := by
          simp [closeWrite, hd]
        constructor
        · intro hnone
          rw [hweq] at hnone
          cases hwr' : closeWrite k pc pvc pvp (wsub lc pc) (wsub lvc pvc) (wsub lvp pvp) r with
          | none => rw [hwr'] at hnone; cases hnone
          | some r' => rw [hwr'] at hnone; cases hnone
        · intro t' hsome
          rw [hweq] at hsome
          cases hwr' : closeWrite k pc pvc pvp (wsub lc pc) (wsub lvc pvc) (wsub lvp pvp) r with
          | none =>
            rw [hwr'] at hsome
            injection hsome with hsome
            subst hsome
            have hsr := ihn hwr'
            have hsrc : (sTot r).c = pc := congrArg Agg.c hsr
            have hsrvc : (sTot r).vc = pvc := congrArg Agg.vc hsr
            have hsrvp : (sTot r).vp = pvp := congrArg Agg.vp hsr
            refine ⟨hwl, hAl, hPl, ?_, ?_⟩
            · refine agg_ext ?_ ?_ ?_
              · show (sTot l).c = (sTot l).c + (sTot r).c - pc
                omega
              · show (sTot l).vc = (sTot l).vc + (sTot r).vc - pvc
                omega
              · show (sTot l).vp = (sTot l).vp + (sTot r).vp - pvp
                omega
            · intro j hj
              simp only [keysOf, List.mem_append]
              exact Or.inl hj
          | some r' =>
            rw [hwr'] at hsome
            injection hsome with hsome
            subst hsome
            obtain ⟨hWr', hAr', hPr', hsr', hkeys'⟩ := ihs r' hwr'
            have hsrc : (sTot r').c = (sTot r).c - pc := congrArg Agg.c hsr'
            have hsrvc : (sTot r').vc = (sTot r).vc - pvc := congrArg Agg.vc hsr'
            have hsrvp : (sTot r').vp = (sTot r).vp - pvp := congrArg Agg.vp hsr'
            have w1 : wsub c0 pc = c0 - pc := wsub_eq (by omega) (by omega)
            have w2 : wsub vc0 pvc = vc0 - pvc := wsub_eq (by omega) (by omega)
            have w3 : wsub vp0 pvp = vp0 - pvp := wsub_eq (by omega) (by omega)
            refine ⟨⟨hcb, hmn, hmod, hkl, ?_, hwl, hWr'⟩, ?_, ⟨hPl, hPr'⟩, ?_, ?_⟩
            · intro j hj
              exact hkr j (hkeys' j hj)
            · refine ⟨?_, ?_, ?_, hAl, hAr'⟩
              · rw [w1]; omega
              · rw [w2]; omega
              · rw [w3]; omega
            · refine agg_ext ?_ ?_ ?_
              · show (sTot l).c + (sTot r').c = (sTot l).c + (sTot r).c - pc
                omega
              · show (sTot l).vc + (sTot r').vc = (sTot l).vc + (sTot r).vc - pvc
                omega
              · show (sTot l).vp + (sTot r').vp = (sTot l).vp + (sTot r).vp - pvp
                omega
            · intro j hj
              simp only [keysOf, List.mem_append] at hj
              simp only [keysOf, List.mem_append]
              rcases hj with hj | hj
              · exact Or.inl hj
              · exact Or.inr (hkeys' j hj)

theorem InvSide_sideRoot {b : Book} (hB : BookInv b) (side : PositionType) :
    InvSide (b.sideRoot side) := by
  cases side
  · exact hB.2
  · exact hB.1

theorem BookInv_setRoot {b : Book} {r : Option PNode} {side : PositionType}
    (hB : BookInv b) (hr : InvSide r) : BookInv (b.setRoot r side) := by
  cases side
  · exact ⟨hB.1, hr⟩
  · exact ⟨hr, hB.2⟩

/-- A successful `open_position` whose amounts keep the side totals within u64
and carry at least one unit of collateral preserves the book invariant. -/
theorem openPosition_BookInv {k c vc vp s : Nat} {side : PositionType} {b : Book}
    (hk : k < M) (hc : 1 ≤ c)
    (h1 : (sideTotAgg b side).c + c < M) (h2 : (sideTotAgg b side).vc + vc < M)
    (h3 : (sideTotAgg b side).vp + vp < M) (hB : BookInv b) :
    BookInv ((openPosition k c vc vp side s b).1) := by
  cases hr : b.sideRoot side with
  | none =>
    have heq : openPosition k c vc vp side s b
        = (b.setRoot (some (.leaf k s c vc vp)) side, s) := by
      simp [openPosition, hr]
    rw [heq]
    have h0 : sideTotAgg b side = agg0 := by simp [sideTotAgg, hr]
    rw [h0] at h1 h2 h3
    have hz1 : (agg0).c = 0 := rfl
    have hz2 : (agg0).vc = 0 := rfl
    have hz3 : (agg0).vp = 0 := rfl
    refine BookInv_setRoot hB ?_
    show Inv (.leaf k s c vc vp)
    refine ⟨hk, ⟨by omega, by omega, by omega⟩, hc, ?_, ?_, ?_⟩
    · show c < M
      omega
    · show vc < M
      omega
    · show vp < M
      omega
  | some t =>
    have heq : openPosition k c vc vp side s b
        = (b.setRoot (some (openPosAux k s c vc vp t).1) side, (openPosAux k s c vc vp t).2) := by
      simp [openPosition, hr]
    rw [heq]
    have hst : sideTotAgg b side = sTot t := by simp [sideTotAgg, hr]
    rw [hst] at h1 h2 h3
    have hIt : Inv t := by
      have := InvSide_sideRoot hB side
      rw [hr] at this
      exact this
    obtain ⟨hWt, hAt, hPt, _, _, _⟩ := hIt
    obtain ⟨hinv, hsum⟩ := open_inv k s c vc vp hk hc t ⟨hWt, hAt, hPt⟩ h1 h2 h3
    refine BookInv_setRoot hB ?_
    show Inv (openPosAux k s c vc vp t).1
    refine ⟨hinv.1, hinv.2.1, hinv.2.2, ?_, ?_, ?_⟩
    · have := congrArg Agg.c hsum
      have h' : (sTot (openPosAux k s c vc vp t).1).c = (sTot t).c + c := this
      omega
    · have h' : (sTot (openPosAux k s c vc vp t).1).vc = (sTot t).vc + vc :=
        congrArg Agg.vc hsum
      omega
    · have h' : (sTot (openPosAux k s c vc vp t).1).vp = (sTot t).vp + vp :=
        congrArg Agg.vp hsum
      omega

/-- A successful `close_position` satisfying the amended proviso preserves the
book invariant. -/
theorem closePosition_BookInv {k pc pvc pvp slot : Nat} {side : PositionType} {b : Book}
    (hC : CloseCond b side k slot pc pvc pvp) (hB : BookInv b)
    (hsucc : (closePosition k pc pvc pvp side slot b).2 = none) :
    BookInv ((closePosition k pc pvc pvp side slot b).1) := by
  cases hr : b.sideRoot side with
  | none =>
    have : (closePosition k pc pvc pvp side slot b).2 = some .PositionNotFound := by
      simp [closePosition, closePosAux, hr]
    rw [this] at hsucc
    cases hsucc
  | some t =>
    have hIt : Inv t := by
      have := InvSide_sideRoot hB side
      rw [hr] at this
      exact this
    obtain ⟨hWt, hAt, hPt, hs1, hs2, hs3⟩ := hIt
    cases hf : closeFind k slot t with
    | none =>
      have : (closePosition k pc pvc pvp side slot b).2 = some .PositionNotFound := by
        simp [closePosition, closePosAux, hr, hf]
      rw [this] at hsucc
      cases hsucc
    | some v =>
      obtain ⟨lc, lvc, lvp⟩ := v
      by_cases hp : pc = 0 ∧ pvc = 0
      · have heq : closePosition k pc pvc pvp side slot b = (b.setRoot (some t) side, none) := by
          simp [closePosition, closePosAux, hr, hf, hp]
        rw [heq]
        exact BookInv_setRoot hB (show Inv t from ⟨hWt, hAt, hPt, hs1, hs2, hs3⟩)
      · have hcnd : pc ≤ lc ∧ pvc ≤ lvc ∧ pvp ≤ lvp ∧ (pc = lc → pvc = lvc ∧ pvp = lvp) := by
          rcases hC with hC | hC
          · exact absurd hC hp
          · exact hC t lc lvc lvp hr hf
        obtain ⟨hle1, hle2, hle3, hcond⟩ := hcnd
        obtain ⟨hwn, hws⟩ := closeWrite_spec k slot pc pvc pvp t lc lvc lvp hWt hAt hPt
          hs1 hs2 hs3 hf hle1 hle2 hle3 hcond
        have heq : closePosition k pc pvc pvp side slot b
            = (b.setRoot (closeWrite k pc pvc pvp (wsub lc pc) (wsub lvc pvc) (wsub lvp pvp) t)
                side, none) := by
          simp [closePosition, closePosAux, hr, hf, hp]
        rw [heq]
        refine BookInv_setRoot hB ?_
        cases hw : closeWrite k pc pvc pvp (wsub lc pc) (wsub lvc pvc) (wsub lvp pvp) t with
        | none => exact trivial
        | some t' =>
          obtain ⟨hWt', hAt', hPt', hst', _⟩ := hws t' hw
          show Inv t'
          refine ⟨hWt', hAt', hPt', ?_, ?_, ?_⟩
          · have h' : (sTot t').c = (sTot t).c - pc := congrArg Agg.c hst'
            omega
          · have h' : (sTot t').vc = (sTot t).vc - pvc := congrArg Agg.vc hst'
            omega
          · have h' : (sTot t').vp = (sTot t).vp - pvp := congrArg Agg.vp hst'
            omega

/-- A successful `liquidate` preserves the book invariant. -/
theorem liquidateBook_BookInv {T : Nat} {side : PositionType} {b b' : Book}
    (hB : BookInv b) (hliq : liquidateBook T side b = some b') : BookInv b' := by
  cases hr : b.sideRoot side with
  | none =>
    have : liquidateBook T side b = some (b.setRoot none side) := by
      simp [liquidateBook, hr, liquidateAux]
    rw [this] at hliq
    injection hliq with hliq
    subst hliq
    exact BookInv_setRoot hB trivial
  | some t =>
    have hIt : Inv t := by
      have := InvSide_sideRoot hB side
      rw [hr] at this
      exact this
    obtain ⟨hWt, hAt, hPt, hs1, hs2, hs3⟩ := hIt
    have hpr := liquidate_eq_prune T (isShortSide side) t hWt hAt hPt hs1 hs2 hs3
    have : liquidateBook T side b = some (b.setRoot (pruneF T (isShortSide side) t) side) := by
      simp [liquidateBook, hr, hpr]
    rw [this] at hliq
    injection hliq with hliq
    subst hliq
    refine BookInv_setRoot hB ?_
    cases hp : pruneF T (isShortSide side) t with
    | none => exact trivial
    | some t' =>
      obtain ⟨hAt', hagg⟩ := prune_agg hAt hp
      have hst' : sTot t' = sKeep T (isShortSide side) t := prune_sTot hp
      have hc' : (sTot t').c ≤ (sTot t).c := by
        rw [hst']
        exact sBy_c_le _ t
      have hvc' : (sTot t').vc ≤ (sTot t).vc := by
        rw [hst']
        exact sBy_vc_le _ t
      have hvp' : (sTot t').vp ≤ (sTot t).vp := by
        rw [hst']
        exact sBy_vp_le _ t
      exact ⟨prune_WF hWt hp, hAt', prune_PosColl hPt hp, by omega, by omega, by omega⟩

/-- Every book reachable under the amended call restrictions satisfies the
full side invariant. -/
theorem reach_inv : ∀ {b : Book}, ReachA b → BookInv b := by
  intro b h
  induction h with
  | empty => exact ⟨trivial, trivial⟩
  | openStep hb hk hc h1 h2 h3 ih => exact openPosition_BookInv hk hc h1 h2 h3 ih
  | closeStep hb hC hsucc ih => exact closePosition_BookInv hC ih hsucc
  | liqStep hb hliq ih => exact liquidateBook_BookInv ih hliq

/-- C1 (amended): every inner node of every book reachable from the empty book
by successful `open_position`, `close_position` and `liquidate` calls stores
the exact componentwise sums of the leaves below it — provided every open
carries at least one unit of collateral and keeps the side totals within u64,
and every successful close either is the pure probe or subtracts componentwise
at most the addressed leaf's holdings, taking the leaf's exact `v_coin` and
`v_pc` whenever it takes its whole collateral. -/
theorem claim_C1 (b : Book) (h : ReachA b) : BookAggEx b := by
  have hB := reach_inv h
  constructor
  · have h1 := hB.1
    cases hr : b.shortsRoot with
    | none => exact trivial
    | some t =>
      rw [hr] at h1
      exact h1.2.1
  · have h2 := hB.2
    cases hr : b.longsRoot with
    | none => exact trivial
    | some t =>
      rw [hr] at h2
      exact h2.2.1

theorem claim_C1_witness : BookAggEx (openPosition 5 10 20 30 .Short 0 ⟨none, none⟩).1 :=
  claim_C1 _ (ReachA.openStep ReachA.empty (by decide) (by decide)
    (by decide) (by decide) (by decide))

/-- The unamended C1 is false: `close_position` accepts amounts unrelated to
the addressed leaf.  Closing the whole collateral of the key-0 position but
only part of its `v_coin` succeeds, removes the leaf (discarding the rest of
its `v_coin`) while subtracting only the closed part from the surviving root,
whose stored `v_coin` then exceeds the sum over its leaves. -/
theorem claim_C1_counterexample :
    (closePosition 0 1 2 0 .Short 10
      (foldOpens [⟨0, 10, 1, 5, 0⟩, ⟨1, 11, 1, 1, 1⟩, ⟨2, 12, 1, 1, 1⟩] .Short)).2 = none ∧
    ¬ BookAggEx (closePosition 0 1 2 0 .Short 10
      (foldOpens [⟨0, 10, 1, 5, 0⟩, ⟨1, 11, 1, 1, 1⟩, ⟨2, 12, 1, 1, 1⟩] .Short)).1 := by
  exact ⟨by decide, by decide⟩

end Perps
